import Mathlib

/-!
# Array-backed binary heaps: `max_heap.cpp` and `min_heap.cpp`

A shallow embedding of the two classes `MaxHeap` and `MinHeap` and of the in-place heap
sort that each `main` performs, followed by the properties of the specification that
they satisfy (or fail to satisfy).

Modelling conventions.

* The buffer `int* heap` is a `List Int` whose length is the allocated `capacity`.
  Element values are only copied and compared by the code, never computed with, so
  mathematical integers are exact for every `int` value.
* `heapSize` and `capacity` are natural numbers.  `parent(i)` is only called with `i > 0`
  and `(0 - 1) / 2` is `0` both in C++ (truncation) and in `Nat`.
* The child indices `left(i) = 2 * i + 1` and `right(i) = 2 * i + 2`, and `l`, `r` of the
  heap sort, are 32-bit `int` values: they are computed with `int32`, the two's-complement
  wrap-around, so that `right(1073741823) = -2147483648` as on the machine.  Indices that
  come out of this arithmetic are integers, and a slot is read with `rdAt` and written
  with `setAt`.
* A read of slot `i` is `rd a i` (natural index) or `rdAt a i` (integer index).  Every
  access the code performs on a well-formed object (`heap.length = capacity`,
  `heapSize ≤ capacity`) of at most `2 ^ 30` elements is inside the buffer.  An access
  outside the buffer is undefined in C++; the theorems whose conclusion depends on what
  the sift-down produces carry the bound under which no such access occurs, so the value
  the model gives to such an access plays no part in them.
* Loops and the recursion of `heapifyDown` are defined by structural recursion on a
  step budget.  Below `2 ^ 30` elements the budget is sufficient
  (`MaxHeap.heapifyDownFuel_stable`, `MaxHeap.insertLoopFuel_stable`) and the definitions
  satisfy the equations of the source's recursion and loops (`MaxHeap.heapifyDown_unfold`,
  `MaxHeap.insertLoop_unfold`).  This is proved through the exact-index counterparts (the
  definitions with suffix `Nat`), with which the definitions agree in that range
  (`MaxHeap.heapifyDown_eq_nat` and its relatives).
* `MinHeap` is the text of `MaxHeap` with the comparisons reversed; its properties are
  obtained from those of `MaxHeap` through element-wise negation (`MinHeap.toMax`).
* Console output is not modelled.
-/

namespace HeapBuf

/-- Read slot `i` of the buffer (`heap[i]` as an rvalue), `i` a natural number. -/
def rd (a : List Int) (i : Nat) : Int := a.getD i 0

/-- The call `swap(heap[i], heap[j])` of `<algorithm>` on natural indices: the two slots
exchange values. -/
def swap (a : List Int) (i j : Nat) : List Int := (a.set i (rd a j)).set j (rd a i)

/-- Element-wise negation of a buffer. -/
def neg (a : List Int) : List Int := a.map (fun x => -x)

/-- The value of a 32-bit `int` computation whose mathematical result is `x`:
two's-complement wrap-around into `[-2^31, 2^31)`. -/
def int32 (x : Int) : Int := (x + 2147483648) % 4294967296 - 2147483648

/-- Read slot `i` of the buffer, `i` an `int` index.  Inside the buffer this is the slot;
outside it the C++ read is undefined. -/
def rdAt (a : List Int) (i : Int) : Int := if 0 ≤ i then rd a i.toNat else 0

/-- Write `v` to slot `i` of the buffer, `i` an `int` index.  Outside the buffer the C++
write is undefined. -/
def setAt (a : List Int) (i : Int) (v : Int) : List Int :=
  if 0 ≤ i then a.set i.toNat v else a

/-- The call `swap(heap[i], heap[j])` of `<algorithm>` on `int` indices. -/
def swapAt (a : List Int) (i j : Int) : List Int :=
  setAt (setAt a i (rdAt a j)) j (rdAt a i)

end HeapBuf

open HeapBuf

/-! ## `class MaxHeap` -/

/-- The private data members of `class MaxHeap`. -/
structure MaxHeap where
  /-- The member `int* heap`: the allocated buffer. -/
  heap : List Int
  /-- The member `int capacity`. -/
  capacity : Nat
  /-- The member `int heapSize`. -/
  heapSize : Nat
deriving DecidableEq, Repr

namespace MaxHeap

/-- The method `int parent(int i) { return (i - 1) / 2; }`. -/
def parent (i : Nat) : Nat := (i - 1) / 2

/-- The method `int left(int i) { return 2 * i + 1; }`, in 32-bit `int` arithmetic. -/
def left (i : Int) : Int := int32 (2 * i + 1)

/-- The method `int right(int i) { return 2 * i + 2; }`, in 32-bit `int` arithmetic. -/
def right (i : Int) : Int := int32 (2 * i + 2)

/-- The recursive method `heapifyDown(int i)` on buffer `heap` with member `heapSize`,
with a budget of recursive calls. -/
def heapifyDownFuel : Nat → List Int → Nat → Int → List Int
  | 0, heap, _, _ => heap
  | fuel + 1, heap, heapSize, i =>
    let maxIdx := i
    let l := left i
    let r := right i
    let maxIdx := if l < heapSize ∧ rdAt heap l > rdAt heap maxIdx then l else maxIdx
    let maxIdx := if r < heapSize ∧ rdAt heap r > rdAt heap maxIdx then r else maxIdx
    if maxIdx ≠ i then heapifyDownFuel fuel (swapAt heap i maxIdx) heapSize maxIdx
    else heap

/-- The method `void heapifyDown(int i)` (lines 36-52).  Every recursive call moves to a
child index below `heapSize`, so `heapSize` calls are enough. -/
def heapifyDown (heap : List Int) (heapSize : Nat) (i : Int) : List Int :=
  heapifyDownFuel heapSize heap heapSize i

/-- The loop `while (i > 0 && heap[parent(i)] < heap[i])` of `insert` (lines 98-101),
with a budget of iterations. -/
def insertLoopFuel : Nat → List Int → Nat → List Int
  | 0, heap, _ => heap
  | fuel + 1, heap, i =>
    if i > 0 ∧ rd heap (parent i) < rd heap i then
      insertLoopFuel fuel (swap heap i (parent i)) (parent i)
    else heap

/-- The sift-up loop of `insert` started at index `i`; `i` strictly decreases, so `i`
iterations are enough. -/
def insertLoop (heap : List Int) (i : Nat) : List Int := insertLoopFuel i heap i

/-- The `while (true)` loop inlined in `deleteMax` (lines 122-140), with a budget of
iterations. -/
def deleteMaxLoopFuel : Nat → List Int → Nat → Int → List Int
  | 0, heap, _, _ => heap
  | fuel + 1, heap, heapSize, i =>
    let maxIdx := i
    let l := left i
    let r := right i
    let maxIdx := if l < heapSize ∧ rdAt heap l > rdAt heap maxIdx then l else maxIdx
    let maxIdx := if r < heapSize ∧ rdAt heap r > rdAt heap maxIdx then r else maxIdx
    if maxIdx = i then heap
    else deleteMaxLoopFuel fuel (swapAt heap i maxIdx) heapSize maxIdx

/-- The sift-down loop of `deleteMax`, started at `i`. -/
def deleteMaxLoop (heap : List Int) (heapSize : Nat) (i : Int) : List Int :=
  deleteMaxLoopFuel heapSize heap heapSize i

/-- The constructor `MaxHeap(int cap = 100)` (lines 56-60).  `mem` is the content of the
freshly allocated, uninitialised buffer. -/
def empty (cap : Nat) (mem : Nat → Int) : MaxHeap :=
  { heap := (List.range cap).map mem, capacity := cap, heapSize := 0 }

/-- The loop `for (int i = heapSize / 2 - 1; i >= 0; i--) heapifyDown(i);` (lines 76-78);
the counter `k` is `i + 1`. -/
def buildLoop (heapSize : Nat) : Nat → List Int → List Int
  | 0, heap => heap
  | k + 1, heap => buildLoop heapSize k (heapifyDown heap heapSize k)

/-- The constructor `MaxHeap(int arr[], int n, int cap = 100)` (lines 64-79) with
`n = arr.length`.  `mem` is the content of the uninitialised slots beyond `n`. -/
def fromArray (arr : List Int) (cap : Nat) (mem : Nat → Int) : MaxHeap :=
  let capacity := max cap arr.length
  let heapSize := arr.length
  let heap := arr ++ (List.range (capacity - arr.length)).map (fun k => mem (arr.length + k))
  { heap := buildLoop heapSize (heapSize / 2) heap, capacity := capacity, heapSize := heapSize }

/-- The method `void insert(int key)` (lines 88-105). -/
def insert (s : MaxHeap) (key : Int) : MaxHeap :=
  if s.heapSize = s.capacity then s
  else
    let heap := s.heap.set s.heapSize key
    let i := s.heapSize
    { s with heap := insertLoop heap i, heapSize := s.heapSize + 1 }

/-- The method `int deleteMax()` (lines 109-145): the returned value and the new state. -/
def deleteMax (s : MaxHeap) : Int × MaxHeap :=
  if s.heapSize = 0 then (-1, s)
  else
    let maxVal := rd s.heap 0
    let heap := s.heap.set 0 (rd s.heap (s.heapSize - 1))
    let heapSize := s.heapSize - 1
    let heap := if heapSize > 0 then deleteMaxLoop heap heapSize 0 else heap
    (maxVal, { s with heap := heap, heapSize := heapSize })

/-- The method `int getMax()` (lines 149-155). -/
def getMax (s : MaxHeap) : Int :=
  if s.heapSize = 0 then -1 else rd s.heap 0

/-- The method `bool isEmpty()`. -/
def isEmpty (s : MaxHeap) : Bool := s.heapSize == 0

/-- The method `int size()`. -/
def size (s : MaxHeap) : Nat := s.heapSize

/-- The `while (true)` loops inlined in the heap sort of `main` (lines 249-264 with bound
`size`, lines 286-301 with bound `heapEnd`: the same text), with a budget of iterations;
`l` and `r` are 32-bit `int` values. -/
def sortLoopFuel : Nat → List Int → Nat → Int → List Int
  | 0, arr, _, _ => arr
  | fuel + 1, arr, bound, node =>
    let maxIdx := node
    let l := int32 (2 * node + 1)
    let r := int32 (2 * node + 2)
    let maxIdx := if l < bound ∧ rdAt arr l > rdAt arr maxIdx then l else maxIdx
    let maxIdx := if r < bound ∧ rdAt arr r > rdAt arr maxIdx then r else maxIdx
    if maxIdx = node then arr
    else sortLoopFuel fuel (swapAt arr node maxIdx) bound maxIdx

/-- The sift-down loop of the heap sort, started at `node` with window bound `bound`. -/
def sortLoop (arr : List Int) (bound : Nat) (node : Int) : List Int :=
  sortLoopFuel bound arr bound node

/-- The build phase `for (int i = size / 2 - 1; i >= 0; i--)` of the heap sort
(lines 247-265); the counter `k` is `i + 1`. -/
def sortBuild (size : Nat) : Nat → List Int → List Int
  | 0, arr => arr
  | k + 1, arr => sortBuild size k (sortLoop arr size k)

/-- The extraction phase `for (int i = 0; i < size; i++)` of the heap sort (lines 274-305),
indexed by the value of `heapEnd` at the start of the iteration (`heapEnd = size - i`). -/
def sortExtract : Nat → List Int → List Int
  | 0, arr => arr
  | heapEnd + 1, arr =>
    let maxVal := rd arr 0
    let arr := arr.set 0 (rd arr heapEnd)
    let arr := sortLoop arr heapEnd 0
    sortExtract heapEnd (arr.set heapEnd maxVal)

/-- The in-place heap sort of `main` (lines 247-305) run on an arbitrary array. -/
def heapSort (arr : List Int) : List Int :=
  sortExtract arr.length (sortBuild arr.length (arr.length / 2) arr)

end MaxHeap

/-! ## `class MinHeap` -/

/-- The private data members of `class MinHeap`. -/
structure MinHeap where
  /-- The member `int* heap`: the allocated buffer. -/
  heap : List Int
  /-- The member `int capacity`. -/
  capacity : Nat
  /-- The member `int heapSize`. -/
  heapSize : Nat
deriving DecidableEq, Repr

namespace MinHeap

/-- The method `int parent(int i) { return (i - 1) / 2; }`. -/
def parent (i : Nat) : Nat := (i - 1) / 2

/-- The method `int left(int i) { return 2 * i + 1; }`, in 32-bit `int` arithmetic. -/
def left (i : Int) : Int := int32 (2 * i + 1)

/-- The method `int right(int i) { return 2 * i + 2; }`, in 32-bit `int` arithmetic. -/
def right (i : Int) : Int := int32 (2 * i + 2)

/-- The recursive method `heapifyDown(int i)` on buffer `heap` with member `heapSize`,
with a budget of recursive calls. -/
def heapifyDownFuel : Nat → List Int → Nat → Int → List Int
  | 0, heap, _, _ => heap
  | fuel + 1, heap, heapSize, i =>
    let minIdx := i
    let l := left i
    let r := right i
    let minIdx := if l < heapSize ∧ rdAt heap l < rdAt heap minIdx then l else minIdx
    let minIdx := if r < heapSize ∧ rdAt heap r < rdAt heap minIdx then r else minIdx
    if minIdx ≠ i then heapifyDownFuel fuel (swapAt heap i minIdx) heapSize minIdx
    else heap

/-- The method `void heapifyDown(int i)` (lines 26-42). -/
def heapifyDown (heap : List Int) (heapSize : Nat) (i : Int) : List Int :=
  heapifyDownFuel heapSize heap heapSize i

/-- The loop `while (i > 0 && heap[parent(i)] > heap[i])` of `insert` (lines 88-91),
with a budget of iterations. -/
def insertLoopFuel : Nat → List Int → Nat → List Int
  | 0, heap, _ => heap
  | fuel + 1, heap, i =>
    if i > 0 ∧ rd heap (parent i) > rd heap i then
      insertLoopFuel fuel (swap heap i (parent i)) (parent i)
    else heap

/-- The sift-up loop of `insert` started at index `i`. -/
def insertLoop (heap : List Int) (i : Nat) : List Int := insertLoopFuel i heap i

/-- The `while (true)` loop inlined in `deleteMin` (lines 112-130), with a budget of
iterations. -/
def deleteMinLoopFuel : Nat → List Int → Nat → Int → List Int
  | 0, heap, _, _ => heap
  | fuel + 1, heap, heapSize, i =>
    let minIdx := i
    let l := left i
    let r := right i
    let minIdx := if l < heapSize ∧ rdAt heap l < rdAt heap minIdx then l else minIdx
    let minIdx := if r < heapSize ∧ rdAt heap r < rdAt heap minIdx then r else minIdx
    if minIdx = i then heap
    else deleteMinLoopFuel fuel (swapAt heap i minIdx) heapSize minIdx

/-- The sift-down loop of `deleteMin`, started at `i`. -/
def deleteMinLoop (heap : List Int) (heapSize : Nat) (i : Int) : List Int :=
  deleteMinLoopFuel heapSize heap heapSize i

/-- The constructor `MinHeap(int cap = 100)` (lines 46-50).  `mem` is the content of the
freshly allocated, uninitialised buffer. -/
def empty (cap : Nat) (mem : Nat → Int) : MinHeap :=
  { heap := (List.range cap).map mem, capacity := cap, heapSize := 0 }

/-- The loop `for (int i = heapSize / 2 - 1; i >= 0; i--) heapifyDown(i);` (lines 66-68);
the counter `k` is `i + 1`. -/
def buildLoop (heapSize : Nat) : Nat → List Int → List Int
  | 0, heap => heap
  | k + 1, heap => buildLoop heapSize k (heapifyDown heap heapSize k)

/-- The constructor `MinHeap(int arr[], int n, int cap = 100)` (lines 54-69) with
`n = arr.length`.  `mem` is the content of the uninitialised slots beyond `n`. -/
def fromArray (arr : List Int) (cap : Nat) (mem : Nat → Int) : MinHeap :=
  let capacity := max cap arr.length
  let heapSize := arr.length
  let heap := arr ++ (List.range (capacity - arr.length)).map (fun k => mem (arr.length + k))
  { heap := buildLoop heapSize (heapSize / 2) heap, capacity := capacity, heapSize := heapSize }

/-- The method `void insert(int key)` (lines 78-95). -/
def insert (s : MinHeap) (key : Int) : MinHeap :=
  if s.heapSize = s.capacity then s
  else
    let heap := s.heap.set s.heapSize key
    let i := s.heapSize
    { s with heap := insertLoop heap i, heapSize := s.heapSize + 1 }

/-- The method `int deleteMin()` (lines 99-135): the returned value and the new state. -/
def deleteMin (s : MinHeap) : Int × MinHeap :=
  if s.heapSize = 0 then (-1, s)
  else
    let minVal := rd s.heap 0
    let heap := s.heap.set 0 (rd s.heap (s.heapSize - 1))
    let heapSize := s.heapSize - 1
    let heap := if heapSize > 0 then deleteMinLoop heap heapSize 0 else heap
    (minVal, { s with heap := heap, heapSize := heapSize })

/-- The method `int getMin()` (lines 139-145). -/
def getMin (s : MinHeap) : Int :=
  if s.heapSize = 0 then -1 else rd s.heap 0

/-- The method `bool isEmpty()`. -/
def isEmpty (s : MinHeap) : Bool := s.heapSize == 0

/-- The method `int size()`. -/
def size (s : MinHeap) : Nat := s.heapSize

/-- The `while (true)` loops inlined in the heap sort of `main` (lines 239-254 with bound
`size`, lines 276-291 with bound `heapEnd`: the same text), with a budget of iterations;
`l` and `r` are 32-bit `int` values. -/
def sortLoopFuel : Nat → List Int → Nat → Int → List Int
  | 0, arr, _, _ => arr
  | fuel + 1, arr, bound, node =>
    let minIdx := node
    let l := int32 (2 * node + 1)
    let r := int32 (2 * node + 2)
    let minIdx := if l < bound ∧ rdAt arr l < rdAt arr minIdx then l else minIdx
    let minIdx := if r < bound ∧ rdAt arr r < rdAt arr minIdx then r else minIdx
    if minIdx = node then arr
    else sortLoopFuel fuel (swapAt arr node minIdx) bound minIdx

/-- The sift-down loop of the heap sort, started at `node` with window bound `bound`. -/
def sortLoop (arr : List Int) (bound : Nat) (node : Int) : List Int :=
  sortLoopFuel bound arr bound node

/-- The build phase `for (int i = size / 2 - 1; i >= 0; i--)` of the heap sort
(lines 237-255); the counter `k` is `i + 1`. -/
def sortBuild (size : Nat) : Nat → List Int → List Int
  | 0, arr => arr
  | k + 1, arr => sortBuild size k (sortLoop arr size k)

/-- The extraction phase `for (int i = 0; i < size; i++)` of the heap sort (lines 264-295),
indexed by the value of `heapEnd` at the start of the iteration (`heapEnd = size - i`). -/
def sortExtract : Nat → List Int → List Int
  | 0, arr => arr
  | heapEnd + 1, arr =>
    let minVal := rd arr 0
    let arr := arr.set 0 (rd arr heapEnd)
    let arr := sortLoop arr heapEnd 0
    sortExtract heapEnd (arr.set heapEnd minVal)

/-- The in-place heap sort of `main` (lines 237-295) run on an arbitrary array. -/
def heapSort (arr : List Int) : List Int :=
  sortExtract arr.length (sortBuild arr.length (arr.length / 2) arr)

end MinHeap

/-! ## Exact-index counterparts

The same recursion, loops and methods with the child indices computed as exact natural
numbers.  They are the proof device of this development: below `2 ^ 30` elements they
coincide with the definitions above, and the properties are first proved for them. -/

namespace MaxHeap

/-- The left child index `2 * i + 1` as an exact natural number. -/
def leftNat (i : Nat) : Nat := 2 * i + 1

/-- The right child index `2 * i + 2` as an exact natural number. -/
def rightNat (i : Nat) : Nat := 2 * i + 2

/-- Exact-index counterpart of `heapifyDownFuel`. -/
def heapifyDownFuelNat : Nat → List Int → Nat → Nat → List Int
  | 0, heap, _, _ => heap
  | fuel + 1, heap, heapSize, i =>
    let maxIdx := i
    let l := leftNat i
    let r := rightNat i
    let maxIdx := if l < heapSize ∧ rd heap l > rd heap maxIdx then l else maxIdx
    let maxIdx := if r < heapSize ∧ rd heap r > rd heap maxIdx then r else maxIdx
    if maxIdx ≠ i then heapifyDownFuelNat fuel (swap heap i maxIdx) heapSize maxIdx
    else heap

/-- Exact-index counterpart of `heapifyDown`. -/
def heapifyDownNat (heap : List Int) (heapSize i : Nat) : List Int :=
  heapifyDownFuelNat heapSize heap heapSize i

/-- Exact-index counterpart of `deleteMaxLoopFuel`. -/
def deleteMaxLoopFuelNat : Nat → List Int → Nat → Nat → List Int
  | 0, heap, _, _ => heap
  | fuel + 1, heap, heapSize, i =>
    let maxIdx := i
    let l := leftNat i
    let r := rightNat i
    let maxIdx := if l < heapSize ∧ rd heap l > rd heap maxIdx then l else maxIdx
    let maxIdx := if r < heapSize ∧ rd heap r > rd heap maxIdx then r else maxIdx
    if maxIdx = i then heap
    else deleteMaxLoopFuelNat fuel (swap heap i maxIdx) heapSize maxIdx

/-- Exact-index counterpart of `deleteMaxLoop`. -/
def deleteMaxLoopNat (heap : List Int) (heapSize i : Nat) : List Int :=
  deleteMaxLoopFuelNat heapSize heap heapSize i

/-- Exact-index counterpart of `buildLoop`. -/
def buildLoopNat (heapSize : Nat) : Nat → List Int → List Int
  | 0, heap => heap
  | k + 1, heap => buildLoopNat heapSize k (heapifyDownNat heap heapSize k)

/-- Exact-index counterpart of `fromArray`. -/
def fromArrayNat (arr : List Int) (cap : Nat) (mem : Nat → Int) : MaxHeap :=
  let capacity := max cap arr.length
  let heapSize := arr.length
  let heap := arr ++ (List.range (capacity - arr.length)).map (fun k => mem (arr.length + k))
  { heap := buildLoopNat heapSize (heapSize / 2) heap, capacity := capacity, heapSize := heapSize }

/-- Exact-index counterpart of `deleteMax`. -/
def deleteMaxNat (s : MaxHeap) : Int × MaxHeap :=
  if s.heapSize = 0 then (-1, s)
  else
    let maxVal := rd s.heap 0
    let heap := s.heap.set 0 (rd s.heap (s.heapSize - 1))
    let heapSize := s.heapSize - 1
    let heap := if heapSize > 0 then deleteMaxLoopNat heap heapSize 0 else heap
    (maxVal, { s with heap := heap, heapSize := heapSize })

/-- Exact-index counterpart of `sortLoopFuel`. -/
def sortLoopFuelNat : Nat → List Int → Nat → Nat → List Int
  | 0, arr, _, _ => arr
  | fuel + 1, arr, bound, node =>
    let maxIdx := node
    let l := 2 * node + 1
    let r := 2 * node + 2
    let maxIdx := if l < bound ∧ rd arr l > rd arr maxIdx then l else maxIdx
    let maxIdx := if r < bound ∧ rd arr r > rd arr maxIdx then r else maxIdx
    if maxIdx = node then arr
    else sortLoopFuelNat fuel (swap arr node maxIdx) bound maxIdx

/-- Exact-index counterpart of `sortLoop`. -/
def sortLoopNat (arr : List Int) (bound node : Nat) : List Int :=
  sortLoopFuelNat bound arr bound node

/-- Exact-index counterpart of `sortBuild`. -/
def sortBuildNat (size : Nat) : Nat → List Int → List Int
  | 0, arr => arr
  | k + 1, arr => sortBuildNat size k (sortLoopNat arr size k)

/-- Exact-index counterpart of `sortExtract`. -/
def sortExtractNat : Nat → List Int → List Int
  | 0, arr => arr
  | heapEnd + 1, arr =>
    let maxVal := rd arr 0
    let arr := arr.set 0 (rd arr heapEnd)
    let arr := sortLoopNat arr heapEnd 0
    sortExtractNat heapEnd (arr.set heapEnd maxVal)

/-- Exact-index counterpart of `heapSort`. -/
def heapSortNat (arr : List Int) : List Int :=
  sortExtractNat arr.length (sortBuildNat arr.length (arr.length / 2) arr)

end MaxHeap

namespace MinHeap

/-- The left child index `2 * i + 1` as an exact natural number. -/
def leftNat (i : Nat) : Nat := 2 * i + 1

/-- The right child index `2 * i + 2` as an exact natural number. -/
def rightNat (i : Nat) : Nat := 2 * i + 2

/-- Exact-index counterpart of `heapifyDownFuel`. -/
def heapifyDownFuelNat : Nat → List Int → Nat → Nat → List Int
  | 0, heap, _, _ => heap
  | fuel + 1, heap, heapSize, i =>
    let minIdx := i
    let l := leftNat i
    let r := rightNat i
    let minIdx := if l < heapSize ∧ rd heap l < rd heap minIdx then l else minIdx
    let minIdx := if r < heapSize ∧ rd heap r < rd heap minIdx then r else minIdx
    if minIdx ≠ i then heapifyDownFuelNat fuel (swap heap i minIdx) heapSize minIdx
    else heap

/-- Exact-index counterpart of `heapifyDown`. -/
def heapifyDownNat (heap : List Int) (heapSize i : Nat) : List Int :=
  heapifyDownFuelNat heapSize heap heapSize i

/-- Exact-index counterpart of `deleteMinLoopFuel`. -/
def deleteMinLoopFuelNat : Nat → List Int → Nat → Nat → List Int
  | 0, heap, _, _ => heap
  | fuel + 1, heap, heapSize, i =>
    let minIdx := i
    let l := leftNat i
    let r := rightNat i
    let minIdx := if l < heapSize ∧ rd heap l < rd heap minIdx then l else minIdx
    let minIdx := if r < heapSize ∧ rd heap r < rd heap minIdx then r else minIdx
    if minIdx = i then heap
    else deleteMinLoopFuelNat fuel (swap heap i minIdx) heapSize minIdx

/-- Exact-index counterpart of `deleteMinLoop`. -/
def deleteMinLoopNat (heap : List Int) (heapSize i : Nat) : List Int :=
  deleteMinLoopFuelNat heapSize heap heapSize i

/-- Exact-index counterpart of `buildLoop`. -/
def buildLoopNat (heapSize : Nat) : Nat → List Int → List Int
  | 0, heap => heap
  | k + 1, heap => buildLoopNat heapSize k (heapifyDownNat heap heapSize k)

/-- Exact-index counterpart of `fromArray`. -/
def fromArrayNat (arr : List Int) (cap : Nat) (mem : Nat → Int) : MinHeap :=
  let capacity := max cap arr.length
  let heapSize := arr.length
  let heap := arr ++ (List.range (capacity - arr.length)).map (fun k => mem (arr.length + k))
  { heap := buildLoopNat heapSize (heapSize / 2) heap, capacity := capacity, heapSize := heapSize }

/-- Exact-index counterpart of `deleteMin`. -/
def deleteMinNat (s : MinHeap) : Int × MinHeap :=
  if s.heapSize = 0 then (-1, s)
  else
    let minVal := rd s.heap 0
    let heap := s.heap.set 0 (rd s.heap (s.heapSize - 1))
    let heapSize := s.heapSize - 1
    let heap := if heapSize > 0 then deleteMinLoopNat heap heapSize 0 else heap
    (minVal, { s with heap := heap, heapSize := heapSize })

/-- Exact-index counterpart of `sortLoopFuel`. -/
def sortLoopFuelNat : Nat → List Int → Nat → Nat → List Int
  | 0, arr, _, _ => arr
  | fuel + 1, arr, bound, node =>
    let minIdx := node
    let l := 2 * node + 1
    let r := 2 * node + 2
    let minIdx := if l < bound ∧ rd arr l < rd arr minIdx then l else minIdx
    let minIdx := if r < bound ∧ rd arr r < rd arr minIdx then r else minIdx
    if minIdx = node then arr
    else sortLoopFuelNat fuel (swap arr node minIdx) bound minIdx

/-- Exact-index counterpart of `sortLoop`. -/
def sortLoopNat (arr : List Int) (bound node : Nat) : List Int :=
  sortLoopFuelNat bound arr bound node

/-- Exact-index counterpart of `sortBuild`. -/
def sortBuildNat (size : Nat) : Nat → List Int → List Int
  | 0, arr => arr
  | k + 1, arr => sortBuildNat size k (sortLoopNat arr size k)

/-- Exact-index counterpart of `sortExtract`. -/
def sortExtractNat : Nat → List Int → List Int
  | 0, arr => arr
  | heapEnd + 1, arr =>
    let minVal := rd arr 0
    let arr := arr.set 0 (rd arr heapEnd)
    let arr := sortLoopNat arr heapEnd 0
    sortExtractNat heapEnd (arr.set heapEnd minVal)

/-- Exact-index counterpart of `heapSort`. -/
def heapSortNat (arr : List Int) : List Int :=
  sortExtractNat arr.length (sortBuildNat arr.length (arr.length / 2) arr)

end MinHeap

/-! ## Specification vocabulary -/

/-- One call on the public interface: `insert(key)`, the extract method, or the peek
method. -/
inductive HeapOp where
  | insert (key : Int)
  | extract
  | peek
deriving DecidableEq, Repr

namespace MaxHeap

/-- The index selected by the two comparisons of a sift-down step at `i`
(the final value of `maxIdx`). -/
def pick (heap : List Int) (heapSize : Nat) (i : Int) : Int :=
  let c := if left i < heapSize ∧ rdAt heap (left i) > rdAt heap i then left i else i
  if right i < heapSize ∧ rdAt heap (right i) > rdAt heap c then right i else c

/-- A well-formed object: the buffer has `capacity` slots and `heapSize` is within it. -/
def WF (s : MaxHeap) : Prop := s.heap.length = s.capacity ∧ s.heapSize ≤ s.capacity

/-- The max-heap property on the first `n` slots:
`buffer[parent(i)] >= buffer[i]` for every `i` in `[1, n)`. -/
def heapOrdered (a : List Int) (n : Nat) : Prop :=
  ∀ i, i < n → 1 ≤ i → rd a (parent i) ≥ rd a i

/-- The heap property of an object. -/
def IsHeap (s : MaxHeap) : Prop := heapOrdered s.heap s.heapSize

/-- The live elements `buffer[0..size)`. -/
def live (s : MaxHeap) : List Int := s.heap.take s.heapSize

/-- Edges whose parent index is at least `k` are ordered inside the window `[0, m)`. -/
def okFrom (a : List Int) (m k : Nat) : Prop :=
  ∀ j, 1 ≤ j → j < m → k ≤ parent j → rd a j ≤ rd a (parent j)

/-- The loop invariant of the extraction phase of the heap sort at window bound `e`:
the window `[0, e)` is a max-heap, every element of the window is at most every element
behind it, and the part behind the window is in non-decreasing order. -/
def SortInv (a : List Int) (e : Nat) : Prop :=
  e ≤ a.length ∧ heapOrdered a e ∧
    (∀ i j, i < e → e ≤ j → j < a.length → rd a i ≤ rd a j) ∧
    (∀ i j, e ≤ i → i < j → j < a.length → rd a i ≤ rd a j)

/-- The state after one interface call. -/
def step (s : MaxHeap) : HeapOp → MaxHeap
  | .insert key => s.insert key
  | .extract => s.deleteMax.2
  | .peek => s

/-- The state after a sequence of interface calls. -/
def run (s : MaxHeap) (ops : List HeapOp) : MaxHeap := ops.foldl step s

/-- The values returned by `k` successive calls of `deleteMax`. -/
def drain : Nat → MaxHeap → List Int
  | 0, _ => []
  | k + 1, s => s.deleteMax.1 :: drain k s.deleteMax.2

/-- Insert the elements of `xs` one after the other. -/
def insertAll (s : MaxHeap) (xs : List Int) : MaxHeap := xs.foldl insert s

instance (a : List Int) (n : Nat) : Decidable (heapOrdered a n) := by
  unfold heapOrdered; infer_instance

instance (s : MaxHeap) : Decidable s.WF := by
  unfold WF; infer_instance

instance (s : MaxHeap) : Decidable s.IsHeap := by
  unfold IsHeap; infer_instance

end MaxHeap

namespace MinHeap

/-- The index selected by the two comparisons of a sift-down step at `i`
(the final value of `minIdx`). -/
def pick (heap : List Int) (heapSize : Nat) (i : Int) : Int :=
  let c := if left i < heapSize ∧ rdAt heap (left i) < rdAt heap i then left i else i
  if right i < heapSize ∧ rdAt heap (right i) < rdAt heap c then right i else c

/-- A well-formed object: the buffer has `capacity` slots and `heapSize` is within it. -/
def WF (s : MinHeap) : Prop := s.heap.length = s.capacity ∧ s.heapSize ≤ s.capacity

/-- The min-heap property on the first `n` slots:
`buffer[parent(i)] <= buffer[i]` for every `i` in `[1, n)`. -/
def heapOrdered (a : List Int) (n : Nat) : Prop :=
  ∀ i, i < n → 1 ≤ i → rd a (parent i) ≤ rd a i

/-- The heap property of an object. -/
def IsHeap (s : MinHeap) : Prop := heapOrdered s.heap s.heapSize

/-- The live elements `buffer[0..size)`. -/
def live (s : MinHeap) : List Int := s.heap.take s.heapSize

/-- The max-heap object with every element negated. -/
def toMax (s : MinHeap) : MaxHeap :=
  { heap := neg s.heap, capacity := s.capacity, heapSize := s.heapSize }

/-- The state after one interface call. -/
def step (s : MinHeap) : HeapOp → MinHeap
  | .insert key => s.insert key
  | .extract => s.deleteMin.2
  | .peek => s

/-- The state after a sequence of interface calls. -/
def run (s : MinHeap) (ops : List HeapOp) : MinHeap := ops.foldl step s

/-- The values returned by `k` successive calls of `deleteMin`. -/
def drain : Nat → MinHeap → List Int
  | 0, _ => []
  | k + 1, s => s.deleteMin.1 :: drain k s.deleteMin.2

/-- Insert the elements of `xs` one after the other. -/
def insertAll (s : MinHeap) (xs : List Int) : MinHeap := xs.foldl insert s

instance (a : List Int) (n : Nat) : Decidable (heapOrdered a n) := by
  unfold heapOrdered; infer_instance

instance (s : MinHeap) : Decidable s.WF := by
  unfold WF; infer_instance

instance (s : MinHeap) : Decidable s.IsHeap := by
  unfold IsHeap; infer_instance

end MinHeap

/-! ## Vocabulary of the accounting, path and correspondence properties -/

namespace HeapOp

/-- The same call on the negated input: the key of an `insert` is negated. -/
def negate : HeapOp → HeapOp
  | .insert key => .insert (-key)
  | .extract => .extract
  | .peek => .peek

/-- The number of `insert` calls in a sequence of calls. -/
def insertCalls : List HeapOp → Nat
  | [] => 0
  | .insert _ :: ops => insertCalls ops + 1
  | .extract :: ops => insertCalls ops
  | .peek :: ops => insertCalls ops

end HeapOp

namespace MaxHeap

/-- The number of `insert` calls of `ops`, run from `s`, that do not take the overflow
branch (`heapSize != capacity` at the call). -/
def insertsDone : MaxHeap → List HeapOp → Nat
  | _, [] => 0
  | s, .insert key :: ops =>
    (if s.heapSize = s.capacity then 0 else 1) + insertsDone (s.insert key) ops
  | s, .extract :: ops => insertsDone s.deleteMax.2 ops
  | s, .peek :: ops => insertsDone s ops

/-- The number of `deleteMax` calls of `ops`, run from `s`, that do not take the underflow
branch (`heapSize != 0` at the call). -/
def extractsDone : MaxHeap → List HeapOp → Nat
  | _, [] => 0
  | s, .insert key :: ops => extractsDone (s.insert key) ops
  | s, .extract :: ops => (if s.heapSize = 0 then 0 else 1) + extractsDone s.deleteMax.2 ops
  | s, .peek :: ops => extractsDone s ops

/-- The indices `i, parent(i), parent(parent(i)), ...` down to the root, with a budget of
steps. -/
def rootPathFuel : Nat → Nat → List Nat
  | 0, i => [i]
  | fuel + 1, i => if i > 0 then i :: rootPathFuel fuel (parent i) else [i]

/-- The path from index `i` to the root `0`; the index strictly decreases, so `i` steps
are enough. -/
def rootPath (i : Nat) : List Nat := rootPathFuel i i

/-- Index `x` lies in the subtree rooted at `i`: it is `i` itself or a descendant of `i`,
that is, `i` occurs on the path from `x` to the root. -/
def inSubtree (i x : Nat) : Prop := i ∈ rootPath x

instance (i x : Nat) : Decidable (inSubtree i x) := by
  unfold inSubtree; infer_instance

/-- The first `k` iterations of the extraction phase of the heap sort (lines 276-305),
started with the window bound `heapEnd`.  The loop runs `size` iterations from
`heapEnd = size`, so it never starts an iteration with `heapEnd = 0`. -/
def sortExtractSteps : Nat → Nat → List Int → List Int
  | 0, _, arr => arr
  | _ + 1, 0, arr => arr
  | k + 1, heapEnd + 1, arr =>
    let maxVal := rd arr 0
    let arr := arr.set 0 (rd arr heapEnd)
    let arr := sortLoop arr heapEnd 0
    sortExtractSteps k heapEnd (arr.set heapEnd maxVal)

/-- The array of the heap sort of `main` after the build phase and the first `k`
iterations of the extraction phase. -/
def sortAfter (arr : List Int) (k : Nat) : List Int :=
  sortExtractSteps k arr.length (sortBuild arr.length (arr.length / 2) arr)

end MaxHeap

namespace MinHeap

/-- The number of `insert` calls of `ops`, run from `s`, that do not take the overflow
branch (`heapSize != capacity` at the call). -/
def insertsDone : MinHeap → List HeapOp → Nat
  | _, [] => 0
  | s, .insert key :: ops =>
    (if s.heapSize = s.capacity then 0 else 1) + insertsDone (s.insert key) ops
  | s, .extract :: ops => insertsDone s.deleteMin.2 ops
  | s, .peek :: ops => insertsDone s ops

/-- The number of `deleteMin` calls of `ops`, run from `s`, that do not take the underflow
branch (`heapSize != 0` at the call). -/
def extractsDone : MinHeap → List HeapOp → Nat
  | _, [] => 0
  | s, .insert key :: ops => extractsDone (s.insert key) ops
  | s, .extract :: ops => (if s.heapSize = 0 then 0 else 1) + extractsDone s.deleteMin.2 ops
  | s, .peek :: ops => extractsDone s ops

/-- The first `k` iterations of the extraction phase of the heap sort (lines 266-295),
started with the window bound `heapEnd`. -/
def sortExtractSteps : Nat → Nat → List Int → List Int
  | 0, _, arr => arr
  | _ + 1, 0, arr => arr
  | k + 1, heapEnd + 1, arr =>
    let minVal := rd arr 0
    let arr := arr.set 0 (rd arr heapEnd)
    let arr := sortLoop arr heapEnd 0
    sortExtractSteps k heapEnd (arr.set heapEnd minVal)

/-- The array of the heap sort of `main` after the build phase and the first `k`
iterations of the extraction phase. -/
def sortAfter (arr : List Int) (k : Nat) : List Int :=
  sortExtractSteps k arr.length (sortBuild arr.length (arr.length / 2) arr)

end MinHeap

/-! ## Exact-index counterparts of the vocabulary -/

namespace MaxHeap

/-- Exact-index counterpart of `pick`. -/
def pickNat (heap : List Int) (heapSize i : Nat) : Nat :=
  let c := if leftNat i < heapSize ∧ rd heap (leftNat i) > rd heap i then leftNat i else i
  if rightNat i < heapSize ∧ rd heap (rightNat i) > rd heap c then rightNat i else c

/-- Exact-index counterpart of `step`. -/
def stepNat (s : MaxHeap) : HeapOp → MaxHeap
  | .insert key => s.insert key
  | .extract => s.deleteMaxNat.2
  | .peek => s

/-- Exact-index counterpart of `run`. -/
def runNat (s : MaxHeap) (ops : List HeapOp) : MaxHeap := ops.foldl stepNat s

/-- Exact-index counterpart of `drain`. -/
def drainNat : Nat → MaxHeap → List Int
  | 0, _ => []
  | k + 1, s => s.deleteMaxNat.1 :: drainNat k s.deleteMaxNat.2

/-- Exact-index counterpart of `sortExtractSteps`. -/
def sortExtractStepsNat : Nat → Nat → List Int → List Int
  | 0, _, arr => arr
  | _ + 1, 0, arr => arr
  | k + 1, heapEnd + 1, arr =>
    let maxVal := rd arr 0
    let arr := arr.set 0 (rd arr heapEnd)
    let arr := sortLoopNat arr heapEnd 0
    sortExtractStepsNat k heapEnd (arr.set heapEnd maxVal)

/-- Exact-index counterpart of `sortAfter`. -/
def sortAfterNat (arr : List Int) (k : Nat) : List Int :=
  sortExtractStepsNat k arr.length (sortBuildNat arr.length (arr.length / 2) arr)

end MaxHeap

namespace MinHeap

/-- Exact-index counterpart of `pick`. -/
def pickNat (heap : List Int) (heapSize i : Nat) : Nat :=
  let c := if leftNat i < heapSize ∧ rd heap (leftNat i) < rd heap i then leftNat i else i
  if rightNat i < heapSize ∧ rd heap (rightNat i) < rd heap c then rightNat i else c

/-- Exact-index counterpart of `step`. -/
def stepNat (s : MinHeap) : HeapOp → MinHeap
  | .insert key => s.insert key
  | .extract => s.deleteMinNat.2
  | .peek => s

/-- Exact-index counterpart of `run`. -/
def runNat (s : MinHeap) (ops : List HeapOp) : MinHeap := ops.foldl stepNat s

/-- Exact-index counterpart of `drain`. -/
def drainNat : Nat → MinHeap → List Int
  | 0, _ => []
  | k + 1, s => s.deleteMinNat.1 :: drainNat k s.deleteMinNat.2

/-- Exact-index counterpart of `sortExtractSteps`. -/
def sortExtractStepsNat : Nat → Nat → List Int → List Int
  | 0, _, arr => arr
  | _ + 1, 0, arr => arr
  | k + 1, heapEnd + 1, arr =>
    let minVal := rd arr 0
    let arr := arr.set 0 (rd arr heapEnd)
    let arr := sortLoopNat arr heapEnd 0
    sortExtractStepsNat k heapEnd (arr.set heapEnd minVal)

/-- Exact-index counterpart of `sortAfter`. -/
def sortAfterNat (arr : List Int) (k : Nat) : List Int :=
  sortExtractStepsNat k arr.length (sortBuildNat arr.length (arr.length / 2) arr)

end MinHeap

/-! ## Buffer lemmas

From here to the section on integer indices the lemmas are about the buffer operations on
natural indices and about the exact-index counterparts of the sift-down; the sections
after that carry them over to the definitions on `int` indices. -/

namespace HeapBuf
theorem rd_set (a : List Int) (i x : Nat) (v : Int) :
    rd (a.set i v) x = if x = i ∧ i < a.length then v else rd a x := by
  unfold rd
  rw [List.getD_eq_getElem?_getD, List.getD_eq_getElem?_getD, List.getElem?_set]
  by_cases h : i = x
  · subst h
    by_cases hl : i < a.length
    · simp [hl]
    · simp [hl, List.getElem?_eq_none (Nat.le_of_not_lt hl)]
  · have h2 : ¬ x = i := fun e => h e.symm
    simp [h, h2]

theorem rd_set_self (a : List Int) (i : Nat) (v : Int) (h : i < a.length) :
    rd (a.set i v) i = v := by
  rw [rd_set]; simp [h]

theorem rd_set_ne (a : List Int) (i x : Nat) (v : Int) (h : x ≠ i) :
    rd (a.set i v) x = rd a x := by
  rw [rd_set]; simp [h]

theorem length_swap (a : List Int) (i j : Nat) : (swap a i j).length = a.length := by
  simp [swap]

theorem rd_swap_fst (a : List Int) (i j : Nat) (hi : i < a.length) (hj : j < a.length) :
    rd (swap a i j) i = rd a j := by
  unfold swap
  by_cases h : i = j
  · subst h; rw [rd_set_self _ _ _ (by simpa using hi)]
  · rw [rd_set_ne _ _ _ _ h, rd_set_self _ _ _ hi]

theorem rd_swap_snd (a : List Int) (i j : Nat) (hj : j < a.length) :
    rd (swap a i j) j = rd a i := by
  unfold swap
  rw [rd_set_self _ _ _ (by simpa using hj)]

theorem rd_swap_ne (a : List Int) (i j x : Nat) (hi : x ≠ i) (hj : x ≠ j) :
    rd (swap a i j) x = rd a x := by
  unfold swap
  rw [rd_set_ne _ _ _ _ hj, rd_set_ne _ _ _ _ hi]

theorem rd_of_length_le (a : List Int) (i : Nat) (h : a.length ≤ i) : rd a i = 0 := by
  unfold rd
  rw [List.getD_eq_getElem?_getD, List.getElem?_eq_none h]; rfl

theorem rd_eq_getElem (a : List Int) (i : Nat) (h : i < a.length) : rd a i = a[i] := by
  unfold rd
  rw [List.getD_eq_getElem?_getD, List.getElem?_eq_getElem h]; rfl

theorem ext_rd (a b : List Int) (hl : a.length = b.length)
    (h : ∀ i, i < a.length → rd a i = rd b i) : a = b := by
  apply List.ext_getElem hl
  intro i h1 h2
  have := h i h1
  rwa [rd_eq_getElem _ _ h1, rd_eq_getElem _ _ h2] at this

theorem set_rd_self (a : List Int) (i : Nat) : a.set i (rd a i) = a := by
  by_cases h : i < a.length
  · apply ext_rd _ _ (by simp)
    intro x _
    rw [rd_set]; split_ifs with hx
    · rw [hx.1]
    · rfl
  · exact List.set_eq_of_length_le (Nat.le_of_not_lt h)

theorem swap_self (a : List Int) (i : Nat) : swap a i i = a := by
  unfold swap
  rw [set_rd_self, set_rd_self]

theorem swap_perm (a : List Int) (i j : Nat) (hi : i < a.length) (hj : j < a.length) :
    List.Perm (swap a i j) a := by
  by_cases hij : i = j
  · subst hij; rw [swap_self]
  rw [List.perm_iff_count]
  intro x
  unfold swap
  have hj2 : j < (a.set i (rd a j)).length := by simpa using hj
  rw [List.count_set _ _ _ _ hj2, List.count_set _ _ _ _ hi]
  have e1 : (a.set i (rd a j))[j] = a[j] := List.getElem_set_ne hij _
  rw [e1, rd_eq_getElem a i hi, rd_eq_getElem a j hj]
  have c1 : 0 < List.count a[i] a := List.count_pos_iff.mpr (List.getElem_mem _)
  have c2 : 0 < List.count a[j] a := List.count_pos_iff.mpr (List.getElem_mem _)
  by_cases hx : a[i] = x <;> by_cases hy : a[j] = x
  · simp only [hx, hy, beq_self_eq_true, if_true]; subst hx; omega
  · have hy2 : (a[j] == x) = false := by simpa using hy
    simp only [hx, hy2, beq_self_eq_true, if_true]; subst hx; simp
  · have hx2 : (a[i] == x) = false := by simpa using hx
    simp only [hx2, hy, beq_self_eq_true, if_true]; subst hy; simp
  · have hx2 : (a[i] == x) = false := by simpa using hx
    have hy2 : (a[j] == x) = false := by simpa using hy
    simp [hx2, hy2]

theorem rd_neg (a : List Int) (i : Nat) : rd (neg a) i = - rd a i := by
  unfold rd neg
  have := List.getD_map a 0 (n := i) (fun x : Int => -x)
  simpa using this

theorem length_neg (a : List Int) : (neg a).length = a.length := by simp [neg]

theorem neg_neg (a : List Int) : neg (neg a) = a := by
  simp [neg]

theorem neg_set (a : List Int) (i : Nat) (v : Int) : neg (a.set i v) = (neg a).set i (-v) := by
  simp [neg, List.map_set]

theorem swap_neg (a : List Int) (i j : Nat) : swap (neg a) i j = neg (swap a i j) := by
  unfold swap
  rw [neg_set, neg_set, rd_neg, rd_neg]

theorem swap_set_comm (a : List Int) (i j e : Nat) (v : Int) (hi : e ≠ i) (hj : e ≠ j) :
    swap (a.set e v) i j = (swap a i j).set e v := by
  unfold swap
  rw [rd_set_ne _ _ _ _ (Ne.symm hi), rd_set_ne _ _ _ _ (Ne.symm hj)]
  rw [List.set_comm _ _ _ hi, List.set_comm _ _ _ hj]

end HeapBuf

/-! ## Sift-down of `MaxHeap` on exact indices -/

namespace MaxHeap

theorem parent_leftNat (i : Nat) : parent (leftNat i) = i := by
  unfold parent leftNat; omega

theorem parent_rightNat (i : Nat) : parent (rightNat i) = i := by
  unfold parent rightNat; omega

theorem child_of_parent (j i : Nat) (hj : 1 ≤ j) (h : parent j = i) :
    j = leftNat i ∨ j = rightNat i := by
  unfold parent at h; unfold leftNat rightNat; omega

theorem heapifyDownFuelNat_succ (fuel : Nat) (a : List Int) (m i : Nat) :
    heapifyDownFuelNat (fuel + 1) a m i =
      if pickNat a m i ≠ i then heapifyDownFuelNat fuel (swap a i (pickNat a m i)) m (pickNat a m i)
      else a := rfl

/-- What the two comparisons of a sift-down step select. -/
theorem pickNat_cases (a : List Int) (m i : Nat) :
    (pickNat a m i = i ∧ (leftNat i < m → rd a (leftNat i) ≤ rd a i) ∧
        (rightNat i < m → rd a (rightNat i) ≤ rd a i)) ∨
    (pickNat a m i = leftNat i ∧ leftNat i < m ∧ rd a i < rd a (leftNat i) ∧
        (rightNat i < m → rd a (rightNat i) ≤ rd a (leftNat i))) ∨
    (pickNat a m i = rightNat i ∧ rightNat i < m ∧ leftNat i < m ∧ rd a i < rd a (rightNat i) ∧
        rd a (leftNat i) ≤ rd a (rightNat i)) := by
  have hlr : rightNat i = leftNat i + 1 := by unfold leftNat rightNat; omega
  unfold pickNat
  by_cases h1 : leftNat i < m ∧ rd a (leftNat i) > rd a i
  · rw [if_pos h1]
    by_cases h2 : rightNat i < m ∧ rd a (rightNat i) > rd a (leftNat i)
    · rw [if_pos h2]; right; right
      refine ⟨rfl, h2.1, h1.1, ?_, ?_⟩ <;> omega
    · rw [if_neg h2]; right; left
      refine ⟨rfl, h1.1, h1.2, ?_⟩
      intro h; by_contra hc; exact h2 ⟨h, by omega⟩
  · rw [if_neg h1]
    by_cases h2 : rightNat i < m ∧ rd a (rightNat i) > rd a i
    · rw [if_pos h2]; right; right
      refine ⟨rfl, h2.1, by omega, h2.2, ?_⟩
      by_contra hc; exact h1 ⟨by omega, by omega⟩
    · rw [if_neg h2]; left
      refine ⟨rfl, ?_, ?_⟩
      · intro h; by_contra hc; exact h1 ⟨h, by omega⟩
      · intro h; by_contra hc; exact h2 ⟨h, by omega⟩

theorem pickNat_eq_or (a : List Int) (m i : Nat) :
    pickNat a m i = i ∨ (i < pickNat a m i ∧ pickNat a m i < m ∧ 1 ≤ pickNat a m i) := by
  have hl : leftNat i = 2 * i + 1 := rfl
  have hr : rightNat i = 2 * i + 2 := rfl
  rcases pickNat_cases a m i with ⟨h, _⟩ | ⟨h, h1, _⟩ | ⟨h, h1, _⟩
  · left; exact h
  · right; rw [h]; omega
  · right; rw [h]; omega

/-- Any two budgets of at least `m - i` calls give the same result: the recursion ends
by itself, not by exhausting the budget. -/
theorem heapifyDownFuelNat_stable (m : Nat) : ∀ (f g : Nat) (a : List Int) (i : Nat),
    m - i ≤ f → m - i ≤ g → heapifyDownFuelNat f a m i = heapifyDownFuelNat g a m i := by
  intro f
  induction f with
  | zero =>
    intro g a i hf _
    cases g with
    | zero => rfl
    | succ g =>
      rw [heapifyDownFuelNat_succ]
      rcases pickNat_eq_or a m i with h | h
      · simp [h, heapifyDownFuelNat]
      · omega
  | succ f ih =>
    intro g a i hf hg
    cases g with
    | zero =>
      rw [heapifyDownFuelNat_succ]
      rcases pickNat_eq_or a m i with h | h
      · simp [h, heapifyDownFuelNat]
      · omega
    | succ g =>
      rw [heapifyDownFuelNat_succ, heapifyDownFuelNat_succ]
      rcases pickNat_eq_or a m i with h | h
      · simp [h]
      · rw [if_pos (by omega), if_pos (by omega)]
        exact ih g _ _ (by omega) (by omega)

/-- The wrapper satisfies the defining equation of the recursive method: compare, and
if a child wins swap and recurse on it. -/
theorem heapifyDownNat_unfold (a : List Int) (m i : Nat) :
    heapifyDownNat a m i =
      if pickNat a m i ≠ i then heapifyDownNat (swap a i (pickNat a m i)) m (pickNat a m i) else a := by
  unfold heapifyDownNat
  cases m with
  | zero =>
    rcases pickNat_eq_or a 0 i with h | h
    · simp [h, heapifyDownFuelNat]
    · omega
  | succ m =>
    rw [heapifyDownFuelNat_succ]
    rcases pickNat_eq_or a (m + 1) i with h | h
    · simp [h]
    · rw [if_pos (by omega), if_pos (by omega)]
      exact heapifyDownFuelNat_stable _ _ _ _ _ (by omega) (by omega)

theorem length_heapifyDownFuelNat (m : Nat) : ∀ (f : Nat) (a : List Int) (i : Nat),
    (heapifyDownFuelNat f a m i).length = a.length := by
  intro f
  induction f with
  | zero => intro a i; rfl
  | succ f ih =>
    intro a i
    rw [heapifyDownFuelNat_succ]
    split_ifs
    · rw [ih, length_swap]
    · rfl

theorem perm_heapifyDownFuelNat (m : Nat) : ∀ (f : Nat) (a : List Int) (i : Nat),
    m ≤ a.length → i < m → List.Perm (heapifyDownFuelNat f a m i) a := by
  intro f
  induction f with
  | zero => intro a i _ _; exact List.Perm.refl _
  | succ f ih =>
    intro a i hm hi
    rw [heapifyDownFuelNat_succ]
    rcases pickNat_eq_or a m i with h | h
    · simp [h]
    · rw [if_pos (by omega)]
      exact (ih _ _ (by rw [length_swap]; exact hm) h.2.1).trans
        (swap_perm _ _ _ (by omega) (by omega))

theorem pickNat_set_ge (a : List Int) (m i e : Nat) (v : Int) (he : m ≤ e) :
    pickNat (a.set e v) m i = pickNat a m i := by
  have hl : leftNat i = 2 * i + 1 := rfl
  have hr : rightNat i = 2 * i + 2 := rfl
  have key : ∀ x, x < m → rd (a.set e v) x = rd a x :=
    fun x hx => rd_set_ne _ _ _ _ (by omega)
  unfold pickNat
  by_cases h1 : leftNat i < m
  · rw [key _ h1, key i (by omega)]
    by_cases h2 : rightNat i < m
    · rw [key _ h2]
      by_cases hc : rd a (leftNat i) > rd a i
      · simp only [h1, hc, and_self, if_true, key _ h1]
      · simp only [hc, and_false, if_false, key i (by omega)]
    · simp only [h2, false_and, if_false]
  · have h2 : ¬ rightNat i < m := by omega
    simp only [h1, h2, false_and, if_false]

/-- Slots at or beyond the window bound are neither read nor written by the sift-down. -/
theorem heapifyDownFuelNat_set_ge (m : Nat) : ∀ (f : Nat) (a : List Int) (i e : Nat) (v : Int),
    m ≤ e → heapifyDownFuelNat f (a.set e v) m i = (heapifyDownFuelNat f a m i).set e v := by
  intro f
  induction f with
  | zero => intro a i e v _; rfl
  | succ f ih =>
    intro a i e v he
    rw [heapifyDownFuelNat_succ, heapifyDownFuelNat_succ, pickNat_set_ge _ _ _ _ _ he]
    rcases pickNat_eq_or a m i with h | h
    · simp [h]
    · rw [if_pos (by omega), if_pos (by omega)]
      rw [swap_set_comm _ _ _ _ _ (by omega) (by omega)]
      exact ih _ _ _ _ he

theorem rd_heapifyDownFuelNat_ge (m : Nat) : ∀ (f : Nat) (a : List Int) (i x : Nat),
    m ≤ x → rd (heapifyDownFuelNat f a m i) x = rd a x := by
  intro f
  induction f with
  | zero => intro a i x _; rfl
  | succ f ih =>
    intro a i x hx
    rw [heapifyDownFuelNat_succ]
    rcases pickNat_eq_or a m i with h | h
    · simp [h]
    · rw [if_pos (by omega), ih _ _ _ hx, rd_swap_ne _ _ _ _ (by omega) (by omega)]

end MaxHeap

namespace MaxHeap

/-- Sift-down repairs the window: when every edge with parent at least `k` is ordered
except those leaving `i`, and the children of `i` fit below the parent of `i`, then after
the sift-down from `i` every edge with parent at least `k` is ordered. -/
theorem okFrom_heapifyDownFuelNat (m k : Nat) : ∀ (f : Nat) (a : List Int) (i : Nat),
    m - i ≤ f → m ≤ a.length → k ≤ i →
    (∀ j, 1 ≤ j → j < m → k ≤ parent j → parent j ≠ i → rd a j ≤ rd a (parent j)) →
    (∀ c, 1 ≤ i → k ≤ parent i → 1 ≤ c → c < m → parent c = i → rd a c ≤ rd a (parent i)) →
    okFrom (heapifyDownFuelNat f a m i) m k := by
  intro f
  induction f with
  | zero =>
    intro a i hf _ _ h1 _ j hj1 hjm hkj
    apply h1 j hj1 hjm hkj
    unfold parent; omega
  | succ f ih =>
    intro a i hf hlen hk h1 h2
    rw [heapifyDownFuelNat_succ]
    have hl : leftNat i = 2 * i + 1 := rfl
    have hr : rightNat i = 2 * i + 2 := rfl
    rcases pickNat_cases a m i with ⟨hp, h3, h4⟩ | ⟨hp, hlt, hv, h4⟩ | ⟨hp, hrt, hlt, hv, h4⟩
    · rw [hp, if_neg (by simp)]
      intro j hj1 hjm hkj
      by_cases hpj : parent j = i
      · rcases child_of_parent j i hj1 hpj with e | e
        · subst e; rw [parent_leftNat]; exact h3 hjm
        · subst e; rw [parent_rightNat]; exact h4 hjm
      · exact h1 j hj1 hjm hkj hpj
    · rw [hp, if_pos (by omega)]
      have hi : i < a.length := by omega
      have hc : leftNat i < a.length := by omega
      apply ih _ _ (by omega) (by rw [length_swap]; exact hlen) (by omega)
      · intro j hj1 hjm hkj hpj
        by_cases hpi : parent j = i
        · rw [hpi, rd_swap_fst _ _ _ hi hc]
          rcases child_of_parent j i hj1 hpi with e | e
          · subst e; rw [rd_swap_snd _ _ _ hc]; omega
          · subst e
            rw [rd_swap_ne _ _ _ _ (by omega) (by omega)]
            exact h4 hjm
        · have hpar : parent j ≤ j := by unfold parent; omega
          rw [rd_swap_ne _ _ (leftNat i) (parent j) hpi hpj]
          by_cases hji : j = i
          · subst hji
            rw [rd_swap_fst _ _ _ hi hc]
            exact h2 (leftNat j) hj1 hkj (by omega) hlt (parent_leftNat j)
          · have hjc : j ≠ leftNat i := by
              intro e; apply hpi; rw [e, parent_leftNat]
            rw [rd_swap_ne _ _ _ _ hji hjc]
            exact h1 j hj1 hjm hkj hpi
      · intro c _ _ hc1 hcm hpc
        rw [parent_leftNat, rd_swap_fst _ _ _ hi hc]
        have hci : c ≠ i := by unfold parent at hpc; omega
        have hcl : c ≠ leftNat i := by unfold parent at hpc; omega
        rw [rd_swap_ne _ _ _ _ hci hcl]
        have := h1 c hc1 hcm (by rw [hpc]; omega) (by rw [hpc]; omega)
        rwa [hpc] at this
    · rw [hp, if_pos (by omega)]
      have hi : i < a.length := by omega
      have hc : rightNat i < a.length := by omega
      apply ih _ _ (by omega) (by rw [length_swap]; exact hlen) (by omega)
      · intro j hj1 hjm hkj hpj
        by_cases hpi : parent j = i
        · rw [hpi, rd_swap_fst _ _ _ hi hc]
          rcases child_of_parent j i hj1 hpi with e | e
          · subst e
            rw [rd_swap_ne _ _ _ _ (by omega) (by omega)]
            exact h4
          · subst e; rw [rd_swap_snd _ _ _ hc]; omega
        · have hpar : parent j ≤ j := by unfold parent; omega
          rw [rd_swap_ne _ _ (rightNat i) (parent j) hpi hpj]
          by_cases hji : j = i
          · subst hji
            rw [rd_swap_fst _ _ _ hi hc]
            exact h2 (rightNat j) hj1 hkj (by omega) hrt (parent_rightNat j)
          · have hjc : j ≠ rightNat i := by
              intro e; apply hpi; rw [e, parent_rightNat]
            rw [rd_swap_ne _ _ _ _ hji hjc]
            exact h1 j hj1 hjm hkj hpi
      · intro c _ _ hc1 hcm hpc
        rw [parent_rightNat, rd_swap_fst _ _ _ hi hc]
        have hci : c ≠ i := by unfold parent at hpc; omega
        have hcl : c ≠ rightNat i := by unfold parent at hpc; omega
        rw [rd_swap_ne _ _ _ _ hci hcl]
        have := h1 c hc1 hcm (by rw [hpc]; omega) (by rw [hpc]; omega)
        rwa [hpc] at this

theorem heapOrdered_iff_okFrom (a : List Int) (m : Nat) : heapOrdered a m ↔ okFrom a m 0 := by
  constructor
  · intro h j hj1 hjm _; exact h j hjm hj1
  · intro h j hjm hj1; exact h j hj1 hjm (Nat.zero_le _)

/-- The inline loop of `deleteMax` computes what the recursive `heapifyDown` computes. -/
theorem deleteMaxLoopFuelNat_eq : ∀ (f : Nat) (a : List Int) (m i : Nat),
    deleteMaxLoopFuelNat f a m i = heapifyDownFuelNat f a m i := by
  intro f
  induction f with
  | zero => intro a m i; rfl
  | succ f ih =>
    intro a m i
    show (if pickNat a m i = i then a
      else deleteMaxLoopFuelNat f (swap a i (pickNat a m i)) m (pickNat a m i)) = _
    rw [heapifyDownFuelNat_succ]
    by_cases h : pickNat a m i = i
    · simp [h]
    · rw [if_neg h, if_pos h, ih]

theorem deleteMaxLoopNat_eq (a : List Int) (m i : Nat) :
    deleteMaxLoopNat a m i = heapifyDownNat a m i := deleteMaxLoopFuelNat_eq _ _ _ _

/-- The inline loops of the heap sort compute what the recursive `heapifyDown` computes. -/
theorem sortLoopFuelNat_eq : ∀ (f : Nat) (a : List Int) (m i : Nat),
    sortLoopFuelNat f a m i = heapifyDownFuelNat f a m i := by
  intro f
  induction f with
  | zero => intro a m i; rfl
  | succ f ih =>
    intro a m i
    show (if pickNat a m i = i then a
      else sortLoopFuelNat f (swap a i (pickNat a m i)) m (pickNat a m i)) = _
    rw [heapifyDownFuelNat_succ]
    by_cases h : pickNat a m i = i
    · simp [h]
    · rw [if_neg h, if_pos h, ih]

theorem sortLoopNat_eq (a : List Int) (m i : Nat) :
    sortLoopNat a m i = heapifyDownNat a m i := sortLoopFuelNat_eq _ _ _ _

theorem sortBuildNat_eq (m : Nat) : ∀ (k : Nat) (a : List Int),
    sortBuildNat m k a = buildLoopNat m k a := by
  intro k
  induction k with
  | zero => intro a; rfl
  | succ k ih => intro a; show sortBuildNat m k (sortLoopNat a m k) = _; rw [sortLoopNat_eq, ih]; rfl

/-! ### Facts about `heapifyDown` with the budget supplied by the wrapper -/

theorem length_heapifyDownNat (a : List Int) (m i : Nat) :
    (heapifyDownNat a m i).length = a.length := length_heapifyDownFuelNat _ _ _ _

theorem perm_heapifyDownNat (a : List Int) (m i : Nat) (hm : m ≤ a.length) :
    List.Perm (heapifyDownNat a m i) a := by
  by_cases hi : i < m
  · exact perm_heapifyDownFuelNat _ _ _ _ hm hi
  · rw [heapifyDownNat_unfold]
    rcases pickNat_eq_or a m i with h | h
    · simp [h]
    · omega

theorem heapifyDownNat_set_ge (a : List Int) (m i e : Nat) (v : Int) (he : m ≤ e) :
    heapifyDownNat (a.set e v) m i = (heapifyDownNat a m i).set e v :=
  heapifyDownFuelNat_set_ge _ _ _ _ _ _ he

theorem rd_heapifyDownNat_ge (a : List Int) (m i x : Nat) (hx : m ≤ x) :
    rd (heapifyDownNat a m i) x = rd a x := rd_heapifyDownFuelNat_ge _ _ _ _ _ hx

theorem okFrom_heapifyDownNat (a : List Int) (m k i : Nat) (hlen : m ≤ a.length) (hk : k ≤ i)
    (h1 : ∀ j, 1 ≤ j → j < m → k ≤ parent j → parent j ≠ i → rd a j ≤ rd a (parent j))
    (h2 : ∀ c, 1 ≤ i → k ≤ parent i → 1 ≤ c → c < m → parent c = i →
      rd a c ≤ rd a (parent i)) :
    okFrom (heapifyDownNat a m i) m k :=
  okFrom_heapifyDownFuelNat m k _ _ _ (by omega) hlen hk h1 h2

/-! ### The bulk-construction loop -/

theorem length_buildLoopNat (m : Nat) : ∀ (k : Nat) (a : List Int),
    (buildLoopNat m k a).length = a.length := by
  intro k
  induction k with
  | zero => intro a; rfl
  | succ k ih => intro a; show (buildLoopNat m k (heapifyDownNat a m k)).length = _
                 rw [ih, length_heapifyDownNat]

theorem perm_buildLoopNat (m : Nat) : ∀ (k : Nat) (a : List Int), m ≤ a.length →
    List.Perm (buildLoopNat m k a) a := by
  intro k
  induction k with
  | zero => intro a _; exact List.Perm.refl _
  | succ k ih =>
    intro a hm
    show List.Perm (buildLoopNat m k (heapifyDownNat a m k)) a
    exact (ih _ (by rw [length_heapifyDownNat]; exact hm)).trans (perm_heapifyDownNat _ _ _ hm)

theorem rd_buildLoopNat_ge (m : Nat) : ∀ (k : Nat) (a : List Int) (x : Nat), m ≤ x →
    rd (buildLoopNat m k a) x = rd a x := by
  intro k
  induction k with
  | zero => intro a x _; rfl
  | succ k ih =>
    intro a x hx
    show rd (buildLoopNat m k (heapifyDownNat a m k)) x = _
    rw [ih _ _ hx, rd_heapifyDownNat_ge _ _ _ _ hx]

theorem okFrom_buildLoopNat (m : Nat) : ∀ (k : Nat) (a : List Int), m ≤ a.length →
    okFrom a m k → okFrom (buildLoopNat m k a) m 0 := by
  intro k
  induction k with
  | zero => intro a _ h; exact h
  | succ k ih =>
    intro a hm h
    show okFrom (buildLoopNat m k (heapifyDownNat a m k)) m 0
    apply ih _ (by rw [length_heapifyDownNat]; exact hm)
    apply okFrom_heapifyDownNat a m k k hm (Nat.le_refl _)
    · intro j hj1 hjm hkj hne
      exact h j hj1 hjm (by omega)
    · intro c hk1 hkp _ _ _
      exfalso; unfold parent at hkp; omega

theorem heapOrdered_buildLoopNat (a : List Int) (m : Nat) (hm : m ≤ a.length) :
    heapOrdered (buildLoopNat m (m / 2) a) m := by
  rw [heapOrdered_iff_okFrom]
  apply okFrom_buildLoopNat m _ a hm
  intro j hj1 hjm hkj
  exfalso; unfold parent at hkj; omega

end MaxHeap

/-! ## Windows of a buffer -/

namespace HeapBuf

theorem getElem?_eq_of_rd (a b : List Int) (x : Nat) (hl : a.length = b.length)
    (h : rd a x = rd b x) : a[x]? = b[x]? := by
  by_cases hx : x < a.length
  · have hx2 : x < b.length := by omega
    rw [rd_eq_getElem _ _ hx, rd_eq_getElem _ _ hx2] at h
    rw [List.getElem?_eq_getElem hx, List.getElem?_eq_getElem hx2, h]
  · rw [List.getElem?_eq_none (by omega), List.getElem?_eq_none (by omega)]

theorem drop_eq_of_rd (a b : List Int) (m : Nat) (hl : a.length = b.length)
    (h : ∀ x, m ≤ x → rd a x = rd b x) : a.drop m = b.drop m := by
  apply List.ext_getElem?
  intro j
  rw [List.getElem?_drop, List.getElem?_drop]
  exact getElem?_eq_of_rd _ _ _ hl (h _ (by omega))

/-- A permutation of the whole buffer that leaves the slots from `m` on in place is a
permutation of the window `[0, m)`. -/
theorem perm_take_of_frame (a b : List Int) (m : Nat) (hp : List.Perm a b)
    (h : ∀ x, m ≤ x → rd a x = rd b x) : List.Perm (a.take m) (b.take m) := by
  have hd := drop_eq_of_rd a b m hp.length_eq h
  have h1 : List.Perm (a.take m ++ a.drop m) (b.take m ++ a.drop m) := by
    rw [List.take_append_drop]
    conv_rhs => rw [hd, List.take_append_drop]
    exact hp
  exact (List.perm_append_right_iff _).mp h1

theorem take_set_ge (a : List Int) (m e : Nat) (v : Int) (he : m ≤ e) :
    (a.set e v).take m = a.take m := by
  apply List.ext_getElem?
  intro j
  rw [List.getElem?_take, List.getElem?_take]
  split_ifs with hj
  · exact List.getElem?_set_ne (by omega)
  · rfl

theorem take_succ_rd (a : List Int) (m : Nat) (h : m < a.length) :
    a.take (m + 1) = a.take m ++ [rd a m] := by
  rw [List.take_succ, rd_eq_getElem _ _ h, List.getElem?_eq_getElem h]; rfl

theorem mem_take_iff_rd (a : List Int) (m : Nat) (hm : m ≤ a.length) (x : Int) :
    x ∈ a.take m ↔ ∃ j, j < m ∧ rd a j = x := by
  rw [List.mem_iff_getElem]
  constructor
  · rintro ⟨j, hj, e⟩
    have hj2 : j < m := by rw [List.length_take] at hj; omega
    refine ⟨j, hj2, ?_⟩
    rw [rd_eq_getElem _ _ (by omega), ← e, List.getElem_take]
  · rintro ⟨j, hj, e⟩
    refine ⟨j, by rw [List.length_take]; omega, ?_⟩
    rw [← e, rd_eq_getElem _ _ (by omega), List.getElem_take]

theorem rd_take (a : List Int) (m j : Nat) (hj : j < m) : rd (a.take m) j = rd a j := by
  unfold rd
  rw [List.getD_eq_getElem?_getD, List.getD_eq_getElem?_getD, List.getElem?_take, if_pos hj]

/-- Index-wise order gives a sorted list. -/
theorem sorted_of_rd (r : Int → Int → Prop) (a : List Int)
    (h : ∀ i j, i < j → j < a.length → r (rd a i) (rd a j)) : List.Pairwise r a := by
  rw [List.pairwise_iff_getElem]
  intro i j hi hj hij
  have := h i j hij hj
  rwa [rd_eq_getElem _ _ hi, rd_eq_getElem _ _ hj] at this

theorem perm_neg_iff (a b : List Int) : List.Perm (neg a) (neg b) ↔ List.Perm a b := by
  constructor
  · intro h
    have := h.map (fun x : Int => -x)
    change List.Perm (neg (neg a)) (neg (neg b)) at this
    rwa [neg_neg, neg_neg] at this
  · intro h; exact h.map _

theorem take_neg (a : List Int) (m : Nat) : (neg a).take m = neg (a.take m) := by
  simp [neg, List.map_take]

end HeapBuf

namespace MaxHeap

/-! ### The sift-up loop of `insert` -/

theorem insertLoopFuel_succ (f : Nat) (a : List Int) (i : Nat) :
    insertLoopFuel (f + 1) a i =
      if i > 0 ∧ rd a (parent i) < rd a i then
        insertLoopFuel f (swap a i (parent i)) (parent i)
      else a := rfl

theorem parent_lt (i : Nat) (h : 0 < i) : parent i < i := by
  unfold parent; omega

/-- Any two budgets of at least `i` iterations give the same result. -/
theorem insertLoopFuel_stable : ∀ (f g : Nat) (a : List Int) (i : Nat),
    i ≤ f → i ≤ g → insertLoopFuel f a i = insertLoopFuel g a i := by
  intro f
  induction f with
  | zero =>
    intro g a i hf _
    cases g with
    | zero => rfl
    | succ g =>
      rw [insertLoopFuel_succ, if_neg (by omega)]; rfl
  | succ f ih =>
    intro g a i hf hg
    cases g with
    | zero => rw [insertLoopFuel_succ, if_neg (by omega)]; rfl
    | succ g =>
      rw [insertLoopFuel_succ, insertLoopFuel_succ]
      split_ifs with h
      · have := parent_lt i h.1
        exact ih g _ _ (by omega) (by omega)
      · rfl

/-- The wrapper satisfies the equation of the `while` loop: test, swap with the parent,
continue from the parent. -/
theorem insertLoop_unfold (a : List Int) (i : Nat) :
    insertLoop a i =
      if i > 0 ∧ rd a (parent i) < rd a i then insertLoop (swap a i (parent i)) (parent i)
      else a := by
  unfold insertLoop
  cases i with
  | zero => simp [insertLoopFuel]
  | succ i =>
    rw [insertLoopFuel_succ]
    split_ifs with h
    · have := parent_lt (i + 1) h.1
      exact insertLoopFuel_stable _ _ _ _ (by omega) (by omega)
    · rfl

theorem length_insertLoopFuel : ∀ (f : Nat) (a : List Int) (i : Nat),
    (insertLoopFuel f a i).length = a.length := by
  intro f
  induction f with
  | zero => intro a i; rfl
  | succ f ih =>
    intro a i
    rw [insertLoopFuel_succ]
    split_ifs
    · rw [ih, length_swap]
    · rfl

theorem perm_insertLoopFuel : ∀ (f : Nat) (a : List Int) (i : Nat), i < a.length →
    List.Perm (insertLoopFuel f a i) a := by
  intro f
  induction f with
  | zero => intro a i _; exact List.Perm.refl _
  | succ f ih =>
    intro a i hi
    rw [insertLoopFuel_succ]
    split_ifs with h
    · have := parent_lt i h.1
      exact (ih _ _ (by rw [length_swap]; omega)).trans (swap_perm _ _ _ hi (by omega))
    · exact List.Perm.refl _

theorem rd_insertLoopFuel_gt : ∀ (f : Nat) (a : List Int) (i x : Nat), i < x →
    rd (insertLoopFuel f a i) x = rd a x := by
  intro f
  induction f with
  | zero => intro a i x _; rfl
  | succ f ih =>
    intro a i x hx
    rw [insertLoopFuel_succ]
    split_ifs with h
    · have := parent_lt i h.1
      rw [ih _ _ _ (by omega), rd_swap_ne _ _ _ _ (by omega) (by omega)]
    · rfl

/-- Sift-up repairs the window: when every edge is ordered except the one entering `i`,
and the children of `i` fit below the parent of `i`, the loop started at `i` leaves a
heap. -/
theorem heapOrdered_insertLoopFuel (m : Nat) : ∀ (f : Nat) (a : List Int) (i : Nat),
    i ≤ f → i < m → m ≤ a.length →
    (∀ j, 1 ≤ j → j < m → j ≠ i → rd a j ≤ rd a (parent j)) →
    (∀ c, 1 ≤ i → 1 ≤ c → c < m → parent c = i → rd a c ≤ rd a (parent i)) →
    heapOrdered (insertLoopFuel f a i) m := by
  intro f
  induction f with
  | zero =>
    intro a i hf _ _ h1 _ j hjm hj1
    exact h1 j hj1 hjm (by omega)
  | succ f ih =>
    intro a i hf him hlen h1 h2
    rw [insertLoopFuel_succ]
    by_cases hc : i > 0 ∧ rd a (parent i) < rd a i
    · rw [if_pos hc]
      have hp := parent_lt i hc.1
      have hi : i < a.length := by omega
      have hpl : parent i < a.length := by omega
      apply ih _ _ (by omega) (by omega) (by rw [length_swap]; exact hlen)
      · intro j hj1 hjm hjp
        by_cases hji : j = i
        · subst hji
          rw [rd_swap_fst _ _ _ hi hpl, rd_swap_snd _ _ _ hpl]; omega
        · rw [rd_swap_ne _ _ _ _ hji hjp]
          by_cases hpi : parent j = i
          · rw [hpi, rd_swap_fst _ _ _ hi hpl]
            exact h2 j (by omega) hj1 hjm hpi
          · by_cases hpp : parent j = parent i
            · rw [hpp, rd_swap_snd _ _ _ hpl]
              have := h1 j hj1 hjm hji
              rw [hpp] at this; omega
            · rw [rd_swap_ne _ _ _ _ hpi hpp]
              exact h1 j hj1 hjm hji
      · intro c hp1 hc1 hcm hpc
        have hpp := parent_lt (parent i) (by omega)
        rw [rd_swap_ne _ _ _ (parent (parent i)) (by omega) (by omega)]
        have hpar := h1 (parent i) hp1 (by omega) (by omega)
        by_cases hci : c = i
        · subst hci; rw [rd_swap_fst _ _ _ hi hpl]; exact hpar
        · have hcp : c ≠ parent i := by
            intro e; have := parent_lt c (by omega); omega
          rw [rd_swap_ne _ _ _ _ hci hcp]
          have := h1 c hc1 hcm hci
          rw [hpc] at this; omega
    · rw [if_neg hc]
      intro j hjm hj1
      by_cases hji : j = i
      · subst hji
        have : ¬ rd a (parent j) < rd a j := fun h => hc ⟨by omega, h⟩
        omega
      · exact h1 j hj1 hjm hji

/-- In a heap the root is at least every element of the window. -/
theorem root_ge_of_heapOrdered (a : List Int) (m : Nat) (h : heapOrdered a m) :
    ∀ j, j < m → rd a j ≤ rd a 0 := by
  intro j
  induction j using Nat.strong_induction_on with
  | _ j ih =>
    intro hj
    by_cases h0 : j = 0
    · subst h0; exact le_refl _
    · have hp := parent_lt j (by omega)
      have h1 := h j hj (by omega)
      have h2 := ih (parent j) hp (by omega)
      omega

end MaxHeap

namespace MaxHeap

/-! ### `insert` -/

theorem insert_full (s : MaxHeap) (key : Int) (h : s.heapSize = s.capacity) :
    s.insert key = s := by
  unfold insert; rw [if_pos h]

theorem insert_not_full (s : MaxHeap) (key : Int) (h : s.heapSize ≠ s.capacity) :
    s.insert key =
      { heap := insertLoop (s.heap.set s.heapSize key) s.heapSize, capacity := s.capacity,
        heapSize := s.heapSize + 1 } := by
  unfold insert; rw [if_neg h]

theorem insert_WF (s : MaxHeap) (key : Int) (hw : s.WF) : (s.insert key).WF := by
  by_cases h : s.heapSize = s.capacity
  · rw [insert_full _ _ h]; exact hw
  · rw [insert_not_full _ _ h]
    obtain ⟨h1, h2⟩ := hw
    refine ⟨?_, ?_⟩
    · show (insertLoop _ _).length = _
      unfold insertLoop; rw [length_insertLoopFuel, List.length_set]; exact h1
    · show s.heapSize + 1 ≤ s.capacity
      omega

theorem insert_isHeap (s : MaxHeap) (key : Int) (hw : s.WF) (hh : s.IsHeap) :
    (s.insert key).IsHeap := by
  by_cases h : s.heapSize = s.capacity
  · rw [insert_full _ _ h]; exact hh
  · rw [insert_not_full _ _ h]
    obtain ⟨h1, h2⟩ := hw
    show heapOrdered (insertLoop (s.heap.set s.heapSize key) s.heapSize) (s.heapSize + 1)
    apply heapOrdered_insertLoopFuel _ _ _ _ (Nat.le_refl _) (by omega)
      (by rw [List.length_set]; omega)
    · intro j hj1 hjm hjn
      have := parent_lt j (by omega)
      rw [rd_set_ne _ _ _ _ hjn, rd_set_ne _ _ _ _ (by omega)]
      exact hh j (by omega) hj1
    · intro c _ hc1 hcm hpc
      have := parent_lt c (by omega)
      omega

theorem insert_live (s : MaxHeap) (key : Int) (hw : s.WF) (h : s.heapSize ≠ s.capacity) :
    List.Perm (s.insert key).live (key :: s.live) := by
  rw [insert_not_full _ _ h]
  obtain ⟨h1, h2⟩ := hw
  have hn : s.heapSize < s.heap.length := by omega
  show List.Perm ((insertLoop (s.heap.set s.heapSize key) s.heapSize).take (s.heapSize + 1))
    (key :: s.heap.take s.heapSize)
  have hp := perm_take_of_frame (insertLoop (s.heap.set s.heapSize key) s.heapSize)
    (s.heap.set s.heapSize key) (s.heapSize + 1)
    (perm_insertLoopFuel _ _ _ (by rw [List.length_set]; exact hn))
    (fun x hx => rd_insertLoopFuel_gt _ _ _ _ (by omega))
  refine hp.trans ?_
  rw [take_succ_rd _ _ (by rw [List.length_set]; exact hn), rd_set_self _ _ _ hn,
    take_set_ge _ _ _ _ (Nat.le_refl _)]
  exact List.perm_append_singleton _ _

theorem insert_heapSize (s : MaxHeap) (key : Int) (h : s.heapSize ≠ s.capacity) :
    (s.insert key).heapSize = s.heapSize + 1 := by
  rw [insert_not_full _ _ h]

theorem insert_capacity (s : MaxHeap) (key : Int) : (s.insert key).capacity = s.capacity := by
  by_cases h : s.heapSize = s.capacity
  · rw [insert_full _ _ h]
  · rw [insert_not_full _ _ h]

/-! ### `deleteMax` -/

theorem deleteMaxNat_empty (s : MaxHeap) (h : s.heapSize = 0) : s.deleteMaxNat = (-1, s) := by
  unfold deleteMaxNat; rw [if_pos h]

theorem heapifyDownNat_zero (a : List Int) (i : Nat) : heapifyDownNat a 0 i = a := rfl

theorem deleteMaxNat_succ (s : MaxHeap) (n : Nat) (h : s.heapSize = n + 1) :
    s.deleteMaxNat =
      (rd s.heap 0,
        { heap := heapifyDownNat (s.heap.set 0 (rd s.heap n)) n 0, capacity := s.capacity,
          heapSize := n }) := by
  unfold deleteMaxNat
  rw [if_neg (by omega)]
  simp only [h, Nat.add_sub_cancel, deleteMaxLoopNat_eq]
  by_cases hn : n > 0
  · simp only [hn, if_true]
  · have : n = 0 := by omega
    subst this
    simp [heapifyDownNat_zero]

theorem deleteMaxNat_WF (s : MaxHeap) (hw : s.WF) : s.deleteMaxNat.2.WF := by
  by_cases h : s.heapSize = 0
  · rw [deleteMaxNat_empty _ h]; exact hw
  · obtain ⟨n, hn⟩ := Nat.exists_eq_succ_of_ne_zero h
    rw [deleteMaxNat_succ _ n hn]
    obtain ⟨h1, h2⟩ := hw
    refine ⟨?_, ?_⟩
    · show (heapifyDownNat _ _ _).length = _
      rw [length_heapifyDownNat, List.length_set]; exact h1
    · show n ≤ s.capacity
      omega

theorem deleteMaxNat_isHeap (s : MaxHeap) (hw : s.WF) (hh : s.IsHeap) : s.deleteMaxNat.2.IsHeap := by
  by_cases h : s.heapSize = 0
  · rw [deleteMaxNat_empty _ h]; exact hh
  · obtain ⟨n, hn⟩ := Nat.exists_eq_succ_of_ne_zero h
    rw [deleteMaxNat_succ _ n hn]
    obtain ⟨h1, h2⟩ := hw
    show heapOrdered (heapifyDownNat (s.heap.set 0 (rd s.heap n)) n 0) n
    rw [heapOrdered_iff_okFrom]
    apply okFrom_heapifyDownNat _ _ _ _ (by rw [List.length_set]; omega) (Nat.le_refl _)
    · intro j hj1 hjm _ hpj
      rw [rd_set_ne _ _ _ _ (by omega), rd_set_ne _ _ _ _ hpj]
      exact hh j (by omega) hj1
    · intro c h0 _ _ _ _
      omega

/-- The extraction seen as a swap of the root with the last live slot followed by a
sift-down in the shortened window: the buffer differs only in the vacated slot. -/
theorem heapifyDownNat_swap_last (a : List Int) (n : Nat) :
    heapifyDownNat (swap a 0 n) n 0 = (heapifyDownNat (a.set 0 (rd a n)) n 0).set n (rd a 0) := by
  unfold swap
  rw [heapifyDownNat_set_ge _ _ _ _ _ (Nat.le_refl _)]

theorem perm_take_swap_last (a : List Int) (n : Nat) (hn : n < a.length) :
    List.Perm (rd a 0 :: (heapifyDownNat (a.set 0 (rd a n)) n 0).take n) (a.take (n + 1)) := by
  have hlen : (heapifyDownNat (swap a 0 n) n 0).length = a.length := by
    rw [length_heapifyDownNat, length_swap]
  have hperm : List.Perm (heapifyDownNat (swap a 0 n) n 0) a :=
    (perm_heapifyDownNat _ _ _ (by rw [length_swap]; omega)).trans
      (swap_perm _ _ _ (by omega) hn)
  have hframe : ∀ x, n + 1 ≤ x → rd (heapifyDownNat (swap a 0 n) n 0) x = rd a x := by
    intro x hx
    rw [rd_heapifyDownNat_ge _ _ _ _ (by omega), rd_swap_ne _ _ _ _ (by omega) (by omega)]
  have h1 := perm_take_of_frame _ _ (n + 1) hperm hframe
  have hlast : rd (heapifyDownNat (swap a 0 n) n 0) n = rd a 0 := by
    rw [rd_heapifyDownNat_ge _ _ _ _ (Nat.le_refl _), rd_swap_snd _ _ _ hn]
  rw [take_succ_rd _ _ (by omega), hlast, heapifyDownNat_swap_last,
    take_set_ge _ _ _ _ (Nat.le_refl _)] at h1
  exact (List.perm_append_singleton _ _).symm.trans h1

theorem deleteMaxNat_live (s : MaxHeap) (hw : s.WF) (h : s.heapSize ≠ 0) :
    List.Perm (s.deleteMaxNat.1 :: s.deleteMaxNat.2.live) s.live := by
  obtain ⟨n, hn⟩ := Nat.exists_eq_succ_of_ne_zero h
  rw [deleteMaxNat_succ _ n hn]
  obtain ⟨h1, h2⟩ := hw
  show List.Perm (rd s.heap 0 :: (heapifyDownNat (s.heap.set 0 (rd s.heap n)) n 0).take n)
    (s.heap.take s.heapSize)
  rw [hn]
  exact perm_take_swap_last _ _ (by omega)

theorem deleteMaxNat_ge (s : MaxHeap) (hw : s.WF) (hh : s.IsHeap) (h : s.heapSize ≠ 0) :
    ∀ x ∈ s.live, x ≤ s.deleteMaxNat.1 := by
  obtain ⟨n, hn⟩ := Nat.exists_eq_succ_of_ne_zero h
  rw [deleteMaxNat_succ _ n hn]
  obtain ⟨h1, h2⟩ := hw
  intro x hx
  obtain ⟨j, hj, e⟩ := (mem_take_iff_rd _ _ (by omega) x).mp hx
  rw [← e]
  exact root_ge_of_heapOrdered _ _ hh j hj

theorem deleteMaxNat_heapSize (s : MaxHeap) : s.deleteMaxNat.2.heapSize = s.heapSize - 1 := by
  by_cases h : s.heapSize = 0
  · rw [deleteMaxNat_empty _ h]; show s.heapSize = _; omega
  · obtain ⟨n, hn⟩ := Nat.exists_eq_succ_of_ne_zero h
    rw [deleteMaxNat_succ _ n hn, hn]; rfl

/-! ### Constructors, operation sequences, repeated extraction -/

theorem empty_WF (cap : Nat) (mem : Nat → Int) : (empty cap mem).WF := by
  refine ⟨?_, Nat.zero_le _⟩
  simp [empty]

theorem empty_isHeap (cap : Nat) (mem : Nat → Int) : (empty cap mem).IsHeap := by
  intro i hi _
  exact absurd hi (Nat.not_lt_zero _)

theorem fromArrayNat_isHeap (arr : List Int) (cap : Nat) (mem : Nat → Int) :
    (fromArrayNat arr cap mem).IsHeap := by
  show heapOrdered (buildLoopNat arr.length (arr.length / 2) _) arr.length
  apply heapOrdered_buildLoopNat
  simp

theorem fromArrayNat_live (arr : List Int) (cap : Nat) (mem : Nat → Int) :
    List.Perm (fromArrayNat arr cap mem).live arr := by
  show List.Perm ((buildLoopNat arr.length (arr.length / 2) _).take arr.length) arr
  have h := perm_take_of_frame _ _ arr.length
    (perm_buildLoopNat arr.length (arr.length / 2)
      (arr ++ (List.range (max cap arr.length - arr.length)).map
        (fun k => mem (arr.length + k))) (by simp))
    (fun x hx => rd_buildLoopNat_ge _ _ _ _ hx)
  rwa [List.take_left] at h

theorem stepNat_WF (s : MaxHeap) (op : HeapOp) (hw : s.WF) : (s.stepNat op).WF := by
  cases op with
  | insert key => exact insert_WF s key hw
  | extract => exact deleteMaxNat_WF s hw
  | peek => exact hw

theorem stepNat_isHeap (s : MaxHeap) (op : HeapOp) (hw : s.WF) (hh : s.IsHeap) :
    (s.stepNat op).IsHeap := by
  cases op with
  | insert key => exact insert_isHeap s key hw hh
  | extract => exact deleteMaxNat_isHeap s hw hh
  | peek => exact hh

theorem runNat_inv (ops : List HeapOp) : ∀ (s : MaxHeap), s.WF → s.IsHeap →
    (s.runNat ops).WF ∧ (s.runNat ops).IsHeap := by
  induction ops with
  | nil => intro s hw hh; exact ⟨hw, hh⟩
  | cons op ops ih =>
    intro s hw hh
    exact ih (s.stepNat op) (stepNat_WF s op hw) (stepNat_isHeap s op hw hh)

theorem insertAll_inv (xs : List Int) : ∀ (s : MaxHeap), s.WF → s.IsHeap →
    s.heapSize + xs.length ≤ s.capacity →
    (s.insertAll xs).WF ∧ (s.insertAll xs).IsHeap ∧
      (s.insertAll xs).heapSize = s.heapSize + xs.length ∧
      List.Perm (s.insertAll xs).live (xs ++ s.live) := by
  induction xs with
  | nil => intro s hw hh _; exact ⟨hw, hh, rfl, List.Perm.refl _⟩
  | cons x xs ih =>
    intro s hw hh hc
    simp only [List.length_cons] at hc
    have hne : s.heapSize ≠ s.capacity := by omega
    have hs := insert_heapSize s x hne
    have hcap := insert_capacity s x
    obtain ⟨i1, i2, i3, i4⟩ := ih (s.insert x) (insert_WF s x hw) (insert_isHeap s x hw hh)
      (by rw [hs, hcap]; omega)
    refine ⟨i1, i2, ?_, ?_⟩
    · show ((s.insert x).insertAll xs).heapSize = _
      rw [i3, hs, List.length_cons]; omega
    · show List.Perm ((s.insert x).insertAll xs).live _
      refine i4.trans ?_
      refine (List.Perm.append_left xs (insert_live s x hw hne)).trans ?_
      exact List.perm_middle

/-- Repeated extraction from a heap returns its live elements in non-increasing order. -/
theorem drainNat_sorted_perm : ∀ (n : Nat) (s : MaxHeap), s.WF → s.IsHeap → s.heapSize = n →
    List.Sorted (· ≥ ·) (s.drainNat n) ∧ List.Perm (s.drainNat n) s.live := by
  intro n
  induction n with
  | zero =>
    intro s _ _ h0
    refine ⟨List.sorted_nil, ?_⟩
    show List.Perm [] (s.heap.take s.heapSize)
    rw [h0]; simp
  | succ n ih =>
    intro s hw hh hn
    have hne : s.heapSize ≠ 0 := by omega
    have hsz : s.deleteMaxNat.2.heapSize = n := by rw [deleteMaxNat_heapSize]; omega
    obtain ⟨i1, i2⟩ := ih s.deleteMaxNat.2 (deleteMaxNat_WF s hw) (deleteMaxNat_isHeap s hw hh) hsz
    have hl := deleteMaxNat_live s hw hne
    have hp : List.Perm (s.deleteMaxNat.1 :: s.deleteMaxNat.2.drainNat n) s.live :=
      (List.Perm.cons _ i2).trans hl
    refine ⟨?_, hp⟩
    show List.Sorted (· ≥ ·) (s.deleteMaxNat.1 :: s.deleteMaxNat.2.drainNat n)
    refine List.sorted_cons.mpr ⟨?_, i1⟩
    intro b hb
    exact deleteMaxNat_ge s hw hh hne b (hp.subset (List.mem_cons_of_mem _ hb))

end MaxHeap

namespace MaxHeap

/-! ### The heap sort of `main` -/

/-- One iteration of the extraction phase is a swap of the root with the last slot of the
window followed by a sift-down in the shortened window. -/
theorem sortExtractNat_succ (e : Nat) (a : List Int) :
    sortExtractNat (e + 1) a = sortExtractNat e (heapifyDownNat (swap a 0 e) e 0) := by
  show sortExtractNat e ((sortLoopNat (a.set 0 (rd a e)) e 0).set e (rd a 0)) = _
  rw [sortLoopNat_eq, heapifyDownNat_swap_last]

theorem perm_sortExtractNat : ∀ (e : Nat) (a : List Int), e ≤ a.length →
    List.Perm (sortExtractNat e a) a := by
  intro e
  induction e with
  | zero => intro a _; exact List.Perm.refl _
  | succ e ih =>
    intro a he
    rw [sortExtractNat_succ]
    refine (ih _ (by rw [length_heapifyDownNat, length_swap]; omega)).trans ?_
    exact (perm_heapifyDownNat _ _ _ (by rw [length_swap]; omega)).trans
      (swap_perm _ _ _ (by omega) (by omega))

theorem sortInv_stepNat (a : List Int) (e : Nat) (h : SortInv a (e + 1)) :
    SortInv (heapifyDownNat (swap a 0 e) e 0) e := by
  obtain ⟨hlen, hheap, hsep, hsort⟩ := h
  have hroot := root_ge_of_heapOrdered a (e + 1) hheap
  have hl : (heapifyDownNat (swap a 0 e) e 0).length = a.length := by
    rw [length_heapifyDownNat, length_swap]
  have hb : ∀ x, e ≤ x → rd (heapifyDownNat (swap a 0 e) e 0) x = rd (swap a 0 e) x :=
    fun x hx => rd_heapifyDownNat_ge _ _ _ _ hx
  have hbe : rd (swap a 0 e) e = rd a 0 := rd_swap_snd _ _ _ (by omega)
  have hbgt : ∀ x, e < x → rd (swap a 0 e) x = rd a x :=
    fun x hx => rd_swap_ne _ _ _ _ (by omega) (by omega)
  refine ⟨by omega, ?_, ?_, ?_⟩
  · rw [heapOrdered_iff_okFrom]
    apply okFrom_heapifyDownNat _ _ _ _ (by rw [length_swap]; omega) (Nat.le_refl _)
    · intro j hj1 hjm _ hpj
      have := parent_lt j (by omega)
      rw [rd_swap_ne _ _ _ _ (by omega) (by omega), rd_swap_ne _ _ _ _ hpj (by omega)]
      exact hheap j (by omega) hj1
    · intro c h0 _ _ _ _
      omega
  · intro i j hi hej hj
    rw [hl] at hj
    have hmem : rd (heapifyDownNat (swap a 0 e) e 0) i ∈ (heapifyDownNat (swap a 0 e) e 0).take e :=
      (mem_take_iff_rd _ _ (by omega) _).mpr ⟨i, hi, rfl⟩
    have hperm := perm_take_of_frame _ _ e
      (perm_heapifyDownNat (swap a 0 e) e 0 (by rw [length_swap]; omega)) (hb)
    obtain ⟨k, hk, ek⟩ := (mem_take_iff_rd _ _ (by rw [length_swap]; omega) _).mp
      (hperm.subset hmem)
    have hsrc : ∃ k2, k2 ≤ e ∧ rd (heapifyDownNat (swap a 0 e) e 0) i = rd a k2 := by
      by_cases hk0 : k = 0
      · subst hk0
        exact ⟨e, Nat.le_refl _, by rw [← ek, rd_swap_fst _ _ _ (by omega) (by omega)]⟩
      · exact ⟨k, by omega, by rw [← ek, rd_swap_ne _ _ _ _ hk0 (by omega)]⟩
    obtain ⟨k2, hk2, e2⟩ := hsrc
    rw [e2, hb j hej]
    by_cases hje : j = e
    · subst hje; rw [hbe]; exact hroot k2 (by omega)
    · rw [hbgt j (by omega)]
      exact hsep k2 j (by omega) (by omega) hj
  · intro i j hei hij hj
    rw [hl] at hj
    rw [hb i hei, hb j (by omega), hbgt j (by omega)]
    by_cases hie : i = e
    · subst hie; rw [hbe]
      exact hsep 0 j (by omega) (by omega) hj
    · rw [hbgt i (by omega)]
      exact hsort i j (by omega) hij hj

theorem sortExtractNat_sorted : ∀ (e : Nat) (a : List Int), SortInv a e →
    List.Sorted (· ≤ ·) (sortExtractNat e a) := by
  intro e
  induction e with
  | zero =>
    intro a h
    exact sorted_of_rd _ _ (fun i j hij hj => h.2.2.2 i j (Nat.zero_le _) hij hj)
  | succ e ih =>
    intro a h
    rw [sortExtractNat_succ]
    exact ih _ (sortInv_stepNat a e h)

theorem sortInv_build (a : List Int) :
    SortInv (sortBuildNat a.length (a.length / 2) a) a.length := by
  rw [sortBuildNat_eq]
  have hl := length_buildLoopNat a.length (a.length / 2) a
  refine ⟨by omega, heapOrdered_buildLoopNat a a.length (Nat.le_refl _), ?_, ?_⟩
  · intro i j _ h1 h2; omega
  · intro i j h1 h2 h3; omega

/-- The heap sort of `max_heap.cpp` leaves the array in non-decreasing order. -/
theorem heapSortNat_sorted (a : List Int) : List.Sorted (· ≤ ·) (heapSortNat a) :=
  sortExtractNat_sorted _ _ (sortInv_build a)

/-- The heap sort of `max_heap.cpp` permutes the array. -/
theorem heapSortNat_perm (a : List Int) : List.Perm (heapSortNat a) a := by
  unfold heapSortNat
  rw [sortBuildNat_eq]
  exact (perm_sortExtractNat _ _ (by rw [length_buildLoopNat])).trans
    (perm_buildLoopNat _ _ _ (Nat.le_refl _))

end MaxHeap

/-! ## `MinHeap` is `MaxHeap` on negated elements -/

namespace MinHeap

theorem pickNat_eq_neg (a : List Int) (m i : Nat) : pickNat a m i = MaxHeap.pickNat (neg a) m i := by
  unfold pickNat MaxHeap.pickNat
  simp only [rd_neg]
  have e1 : (leftNat i < m ∧ rd a (leftNat i) < rd a i) ↔
      (MaxHeap.leftNat i < m ∧ -rd a (MaxHeap.leftNat i) > -rd a i) := by
    show (leftNat i < m ∧ _) ↔ (leftNat i < m ∧ -rd a (leftNat i) > _)
    constructor <;> (rintro ⟨h1, h2⟩; exact ⟨h1, by omega⟩)
  by_cases h : leftNat i < m ∧ rd a (leftNat i) < rd a i
  · rw [if_pos h, if_pos (e1.mp h)]
    have e2 : (rightNat i < m ∧ rd a (rightNat i) < rd a (leftNat i)) ↔
        (MaxHeap.rightNat i < m ∧ -rd a (MaxHeap.rightNat i) > -rd a (MaxHeap.leftNat i)) := by
      show (rightNat i < m ∧ _) ↔ (rightNat i < m ∧ -rd a (rightNat i) > -rd a (leftNat i))
      constructor <;> (rintro ⟨h1, h2⟩; exact ⟨h1, by omega⟩)
    by_cases h2 : rightNat i < m ∧ rd a (rightNat i) < rd a (leftNat i)
    · rw [if_pos h2, if_pos (e2.mp h2)]; rfl
    · rw [if_neg h2, if_neg (fun c => h2 (e2.mpr c))]; rfl
  · rw [if_neg h, if_neg (fun c => h (e1.mpr c))]
    have e2 : (rightNat i < m ∧ rd a (rightNat i) < rd a i) ↔
        (MaxHeap.rightNat i < m ∧ -rd a (MaxHeap.rightNat i) > -rd a i) := by
      show (rightNat i < m ∧ _) ↔ (rightNat i < m ∧ -rd a (rightNat i) > -rd a i)
      constructor <;> (rintro ⟨h1, h2⟩; exact ⟨h1, by omega⟩)
    by_cases h2 : rightNat i < m ∧ rd a (rightNat i) < rd a i
    · rw [if_pos h2, if_pos (e2.mp h2)]; rfl
    · rw [if_neg h2, if_neg (fun c => h2 (e2.mpr c))]

theorem heapifyDownFuelNat_eq_neg : ∀ (f : Nat) (a : List Int) (m i : Nat),
    heapifyDownFuelNat f a m i = neg (MaxHeap.heapifyDownFuelNat f (neg a) m i) := by
  intro f
  induction f with
  | zero => intro a m i; show a = neg (neg a); rw [neg_neg]
  | succ f ih =>
    intro a m i
    show (if pickNat a m i ≠ i then heapifyDownFuelNat f (swap a i (pickNat a m i)) m (pickNat a m i)
      else a) = _
    rw [MaxHeap.heapifyDownFuelNat_succ, ← pickNat_eq_neg]
    split_ifs with h
    · rw [ih, swap_neg]
    · rw [neg_neg]

theorem heapifyDownNat_eq_neg (a : List Int) (m i : Nat) :
    heapifyDownNat a m i = neg (MaxHeap.heapifyDownNat (neg a) m i) :=
  heapifyDownFuelNat_eq_neg _ _ _ _

theorem deleteMinLoopFuelNat_eq_neg : ∀ (f : Nat) (a : List Int) (m i : Nat),
    deleteMinLoopFuelNat f a m i = neg (MaxHeap.heapifyDownFuelNat f (neg a) m i) := by
  intro f
  induction f with
  | zero => intro a m i; show a = neg (neg a); rw [neg_neg]
  | succ f ih =>
    intro a m i
    show (if pickNat a m i = i then a
      else deleteMinLoopFuelNat f (swap a i (pickNat a m i)) m (pickNat a m i)) = _
    rw [MaxHeap.heapifyDownFuelNat_succ, ← pickNat_eq_neg]
    by_cases h : pickNat a m i = i
    · rw [if_pos h, if_neg (by simp [h]), neg_neg]
    · rw [if_neg h, if_pos h, ih, swap_neg]

theorem deleteMinLoopNat_eq_neg (a : List Int) (m i : Nat) :
    deleteMinLoopNat a m i = neg (MaxHeap.heapifyDownNat (neg a) m i) :=
  deleteMinLoopFuelNat_eq_neg _ _ _ _

theorem sortLoopFuelNat_eq_neg : ∀ (f : Nat) (a : List Int) (m i : Nat),
    sortLoopFuelNat f a m i = neg (MaxHeap.heapifyDownFuelNat f (neg a) m i) := by
  intro f
  induction f with
  | zero => intro a m i; show a = neg (neg a); rw [neg_neg]
  | succ f ih =>
    intro a m i
    show (if pickNat a m i = i then a
      else sortLoopFuelNat f (swap a i (pickNat a m i)) m (pickNat a m i)) = _
    rw [MaxHeap.heapifyDownFuelNat_succ, ← pickNat_eq_neg]
    by_cases h : pickNat a m i = i
    · rw [if_pos h, if_neg (by simp [h]), neg_neg]
    · rw [if_neg h, if_pos h, ih, swap_neg]

theorem sortLoopNat_eq_neg (a : List Int) (m i : Nat) :
    sortLoopNat a m i = neg (MaxHeap.heapifyDownNat (neg a) m i) :=
  sortLoopFuelNat_eq_neg _ _ _ _

theorem insertLoopFuel_eq_neg : ∀ (f : Nat) (a : List Int) (i : Nat),
    insertLoopFuel f a i = neg (MaxHeap.insertLoopFuel f (neg a) i) := by
  intro f
  induction f with
  | zero => intro a i; show a = neg (neg a); rw [neg_neg]
  | succ f ih =>
    intro a i
    show (if i > 0 ∧ rd a (parent i) > rd a i then
        insertLoopFuel f (swap a i (parent i)) (parent i) else a) = _
    rw [MaxHeap.insertLoopFuel_succ, rd_neg, rd_neg]
    have e : (i > 0 ∧ rd a (parent i) > rd a i) ↔
        (i > 0 ∧ -rd a (MaxHeap.parent i) < -rd a i) := by
      show _ ↔ (i > 0 ∧ -rd a (parent i) < -rd a i)
      constructor <;> (rintro ⟨h1, h2⟩; exact ⟨h1, by omega⟩)
    by_cases h : i > 0 ∧ rd a (parent i) > rd a i
    · rw [if_pos h, if_pos (e.mp h), ih, swap_neg]; rfl
    · rw [if_neg h, if_neg (fun c => h (e.mpr c)), neg_neg]

theorem insertLoop_eq_neg (a : List Int) (i : Nat) :
    insertLoop a i = neg (MaxHeap.insertLoop (neg a) i) := insertLoopFuel_eq_neg _ _ _

theorem buildLoopNat_eq_neg (m : Nat) : ∀ (k : Nat) (a : List Int),
    buildLoopNat m k a = neg (MaxHeap.buildLoopNat m k (neg a)) := by
  intro k
  induction k with
  | zero => intro a; show a = neg (neg a); rw [neg_neg]
  | succ k ih =>
    intro a
    show buildLoopNat m k (heapifyDownNat a m k) =
      neg (MaxHeap.buildLoopNat m k (MaxHeap.heapifyDownNat (neg a) m k))
    rw [ih, heapifyDownNat_eq_neg, neg_neg]

theorem sortBuildNat_eq_neg (m : Nat) : ∀ (k : Nat) (a : List Int),
    sortBuildNat m k a = neg (MaxHeap.sortBuildNat m k (neg a)) := by
  intro k
  induction k with
  | zero => intro a; show a = neg (neg a); rw [neg_neg]
  | succ k ih =>
    intro a
    show sortBuildNat m k (sortLoopNat a m k) =
      neg (MaxHeap.sortBuildNat m k (MaxHeap.sortLoopNat (neg a) m k))
    rw [ih, sortLoopNat_eq_neg, MaxHeap.sortLoopNat_eq, neg_neg]

theorem sortExtractNat_eq_neg : ∀ (e : Nat) (a : List Int),
    sortExtractNat e a = neg (MaxHeap.sortExtractNat e (neg a)) := by
  intro e
  induction e with
  | zero => intro a; show a = neg (neg a); rw [neg_neg]
  | succ e ih =>
    intro a
    show sortExtractNat e ((sortLoopNat (a.set 0 (rd a e)) e 0).set e (rd a 0)) =
      neg (MaxHeap.sortExtractNat e
        ((MaxHeap.sortLoopNat ((neg a).set 0 (rd (neg a) e)) e 0).set e (rd (neg a) 0)))
    rw [ih, sortLoopNat_eq_neg, MaxHeap.sortLoopNat_eq, neg_set, neg_neg, neg_set, rd_neg, rd_neg]

/-- The heap sort of `min_heap.cpp` is the heap sort of `max_heap.cpp` on the negated
array, negated back. -/
theorem heapSortNat_eq_neg (a : List Int) : heapSortNat a = neg (MaxHeap.heapSortNat (neg a)) := by
  unfold heapSortNat MaxHeap.heapSortNat
  rw [sortExtractNat_eq_neg, sortBuildNat_eq_neg, neg_neg, length_neg]

theorem sorted_ge_neg (a : List Int) (h : List.Sorted (· ≤ ·) a) :
    List.Sorted (· ≥ ·) (neg a) := by
  unfold neg List.Sorted
  rw [List.pairwise_map]
  exact h.imp (fun {x y} hxy => by show -x ≥ -y; omega)

/-- The heap sort of `min_heap.cpp` leaves the array in non-increasing order. -/
theorem heapSortNat_sorted_min (a : List Int) : List.Sorted (· ≥ ·) (heapSortNat a) := by
  rw [heapSortNat_eq_neg]
  exact sorted_ge_neg _ (MaxHeap.heapSortNat_sorted _)

/-- The heap sort of `min_heap.cpp` permutes the array. -/
theorem heapSortNat_perm_min (a : List Int) : List.Perm (heapSortNat a) a := by
  rw [heapSortNat_eq_neg, ← perm_neg_iff, neg_neg]
  exact MaxHeap.heapSortNat_perm _

/-! ### Objects -/

theorem toMax_WF (s : MinHeap) : s.toMax.WF ↔ s.WF := by
  unfold WF MaxHeap.WF toMax
  simp [length_neg]

theorem toMax_isHeap (s : MinHeap) : s.toMax.IsHeap ↔ s.IsHeap := by
  unfold IsHeap MaxHeap.IsHeap heapOrdered MaxHeap.heapOrdered toMax
  simp only [rd_neg]
  constructor
  · intro h i hi h1
    have := h i hi h1
    show rd s.heap (MaxHeap.parent i) ≤ _
    omega
  · intro h i hi h1
    have : rd s.heap (MaxHeap.parent i) ≤ rd s.heap i := h i hi h1
    omega

theorem toMax_live (s : MinHeap) : s.toMax.live = neg s.live := by
  unfold live MaxHeap.live toMax
  exact take_neg _ _

theorem toMax_insert (s : MinHeap) (key : Int) :
    (s.insert key).toMax = s.toMax.insert (-key) := by
  unfold insert MaxHeap.insert
  by_cases h : s.heapSize = s.capacity
  · rw [if_pos h, if_pos (by exact h)]
  · rw [if_neg h, if_neg (by exact h)]
    show ({ heap := neg (insertLoop (s.heap.set s.heapSize key) s.heapSize),
            capacity := s.capacity, heapSize := s.heapSize + 1 } : MaxHeap) =
      { heap := MaxHeap.insertLoop ((neg s.heap).set s.heapSize (-key)) s.heapSize,
        capacity := s.capacity, heapSize := s.heapSize + 1 }
    rw [insertLoop_eq_neg, neg_neg, neg_set]

theorem deleteMinNat_empty (s : MinHeap) (h : s.heapSize = 0) : s.deleteMinNat = (-1, s) := by
  unfold deleteMinNat; rw [if_pos h]

theorem deleteMinNat_succ (s : MinHeap) (n : Nat) (h : s.heapSize = n + 1) :
    s.deleteMinNat =
      (rd s.heap 0,
        { heap := neg (MaxHeap.heapifyDownNat ((neg s.heap).set 0 (rd (neg s.heap) n)) n 0),
          capacity := s.capacity, heapSize := n }) := by
  unfold deleteMinNat
  rw [if_neg (by omega)]
  simp only [h, Nat.add_sub_cancel, deleteMinLoopNat_eq_neg, neg_set, rd_neg]
  by_cases hn : n > 0
  · simp only [hn, if_true]
  · have : n = 0 := by omega
    subst this
    simp [MaxHeap.heapifyDownNat_zero, neg_neg, neg_set]

theorem toMax_deleteMinNat (s : MinHeap) : s.deleteMinNat.2.toMax = s.toMax.deleteMaxNat.2 := by
  by_cases h : s.heapSize = 0
  · rw [deleteMinNat_empty _ h, MaxHeap.deleteMaxNat_empty _ (by exact h)]
  · obtain ⟨n, hn⟩ := Nat.exists_eq_succ_of_ne_zero h
    rw [deleteMinNat_succ _ n hn, MaxHeap.deleteMaxNat_succ s.toMax n (by exact hn)]
    show ({ heap := neg (neg _), capacity := s.capacity, heapSize := n } : MaxHeap) = _
    rw [neg_neg]; rfl

theorem deleteMinNat_fst (s : MinHeap) (h : s.heapSize ≠ 0) :
    s.deleteMinNat.1 = - s.toMax.deleteMaxNat.1 := by
  obtain ⟨n, hn⟩ := Nat.exists_eq_succ_of_ne_zero h
  rw [deleteMinNat_succ _ n hn, MaxHeap.deleteMaxNat_succ s.toMax n (by exact hn)]
  show rd s.heap 0 = - rd (neg s.heap) 0
  rw [rd_neg]; omega

theorem toMax_fromArrayNat (arr : List Int) (cap : Nat) (mem : Nat → Int) :
    (fromArrayNat arr cap mem).toMax = MaxHeap.fromArrayNat (neg arr) cap (fun k => - mem k) := by
  unfold fromArrayNat MaxHeap.fromArrayNat toMax
  simp only [buildLoopNat_eq_neg, neg_neg, length_neg]
  congr 2
  simp [neg, List.map_append]

theorem toMax_empty (cap : Nat) (mem : Nat → Int) :
    (empty cap mem).toMax = MaxHeap.empty cap (fun k => - mem k) := by
  unfold empty MaxHeap.empty toMax
  simp [neg]

end MinHeap

namespace MinHeap

theorem insert_full_min (s : MinHeap) (key : Int) (h : s.heapSize = s.capacity) :
    s.insert key = s := by
  unfold insert; rw [if_pos h]

theorem insert_heapSize_min (s : MinHeap) (key : Int) (h : s.heapSize ≠ s.capacity) :
    (s.insert key).heapSize = s.heapSize + 1 := by
  unfold insert; rw [if_neg h]

theorem insert_capacity_min (s : MinHeap) (key : Int) : (s.insert key).capacity = s.capacity := by
  unfold insert
  split_ifs <;> rfl

theorem insert_WF_min (s : MinHeap) (key : Int) (hw : s.WF) : (s.insert key).WF := by
  rw [← toMax_WF, toMax_insert]
  exact MaxHeap.insert_WF _ _ ((toMax_WF s).mpr hw)

theorem insert_isHeap_min (s : MinHeap) (key : Int) (hw : s.WF) (hh : s.IsHeap) :
    (s.insert key).IsHeap := by
  rw [← toMax_isHeap, toMax_insert]
  exact MaxHeap.insert_isHeap _ _ ((toMax_WF s).mpr hw) ((toMax_isHeap s).mpr hh)

theorem insert_live_min (s : MinHeap) (key : Int) (hw : s.WF) (h : s.heapSize ≠ s.capacity) :
    List.Perm (s.insert key).live (key :: s.live) := by
  have := MaxHeap.insert_live s.toMax (-key) ((toMax_WF s).mpr hw) (by exact h)
  rw [← toMax_insert, toMax_live, toMax_live] at this
  rw [← perm_neg_iff]
  exact this

theorem deleteMinNat_WF (s : MinHeap) (hw : s.WF) : s.deleteMinNat.2.WF := by
  rw [← toMax_WF, toMax_deleteMinNat]
  exact MaxHeap.deleteMaxNat_WF _ ((toMax_WF s).mpr hw)

theorem deleteMinNat_isHeap (s : MinHeap) (hw : s.WF) (hh : s.IsHeap) : s.deleteMinNat.2.IsHeap := by
  rw [← toMax_isHeap, toMax_deleteMinNat]
  exact MaxHeap.deleteMaxNat_isHeap _ ((toMax_WF s).mpr hw) ((toMax_isHeap s).mpr hh)

theorem deleteMinNat_live (s : MinHeap) (hw : s.WF) (h : s.heapSize ≠ 0) :
    List.Perm (s.deleteMinNat.1 :: s.deleteMinNat.2.live) s.live := by
  have := MaxHeap.deleteMaxNat_live s.toMax ((toMax_WF s).mpr hw) (by exact h)
  rw [← toMax_deleteMinNat, toMax_live, toMax_live] at this
  rw [← perm_neg_iff]
  have e : neg (s.deleteMinNat.1 :: s.deleteMinNat.2.live) =
      s.toMax.deleteMaxNat.1 :: neg s.deleteMinNat.2.live := by
    show -s.deleteMinNat.1 :: neg s.deleteMinNat.2.live = _
    rw [deleteMinNat_fst s h]; simp
  rw [e]; exact this

theorem deleteMinNat_le (s : MinHeap) (hw : s.WF) (hh : s.IsHeap) (h : s.heapSize ≠ 0) :
    ∀ x ∈ s.live, s.deleteMinNat.1 ≤ x := by
  intro x hx
  have hm : -x ∈ s.toMax.live := by
    rw [toMax_live]; exact List.mem_map_of_mem _ hx
  have := MaxHeap.deleteMaxNat_ge s.toMax ((toMax_WF s).mpr hw) ((toMax_isHeap s).mpr hh)
    (by exact h) (-x) hm
  rw [deleteMinNat_fst s h]; omega

theorem deleteMinNat_heapSize (s : MinHeap) : s.deleteMinNat.2.heapSize = s.heapSize - 1 := by
  have := MaxHeap.deleteMaxNat_heapSize s.toMax
  rw [← toMax_deleteMinNat] at this
  exact this

theorem empty_WF_min (cap : Nat) (mem : Nat → Int) : (empty cap mem).WF := by
  refine ⟨?_, Nat.zero_le _⟩
  simp [empty]

theorem empty_isHeap_min (cap : Nat) (mem : Nat → Int) : (empty cap mem).IsHeap := by
  intro i hi _
  exact absurd hi (Nat.not_lt_zero _)

theorem fromArrayNat_isHeap_min (arr : List Int) (cap : Nat) (mem : Nat → Int) :
    (fromArrayNat arr cap mem).IsHeap := by
  rw [← toMax_isHeap, toMax_fromArrayNat]
  exact MaxHeap.fromArrayNat_isHeap _ _ _

theorem fromArrayNat_live_min (arr : List Int) (cap : Nat) (mem : Nat → Int) :
    List.Perm (fromArrayNat arr cap mem).live arr := by
  have := MaxHeap.fromArrayNat_live (neg arr) cap (fun k => - mem k)
  rw [← toMax_fromArrayNat, toMax_live] at this
  exact (perm_neg_iff _ _).mp this

theorem stepNat_WF_min (s : MinHeap) (op : HeapOp) (hw : s.WF) : (s.stepNat op).WF := by
  cases op with
  | insert key => exact insert_WF_min s key hw
  | extract => exact deleteMinNat_WF s hw
  | peek => exact hw

theorem stepNat_isHeap_min (s : MinHeap) (op : HeapOp) (hw : s.WF) (hh : s.IsHeap) :
    (s.stepNat op).IsHeap := by
  cases op with
  | insert key => exact insert_isHeap_min s key hw hh
  | extract => exact deleteMinNat_isHeap s hw hh
  | peek => exact hh

theorem runNat_inv_min (ops : List HeapOp) : ∀ (s : MinHeap), s.WF → s.IsHeap →
    (s.runNat ops).WF ∧ (s.runNat ops).IsHeap := by
  induction ops with
  | nil => intro s hw hh; exact ⟨hw, hh⟩
  | cons op ops ih =>
    intro s hw hh
    exact ih (s.stepNat op) (stepNat_WF_min s op hw) (stepNat_isHeap_min s op hw hh)

theorem insertAll_inv_min (xs : List Int) : ∀ (s : MinHeap), s.WF → s.IsHeap →
    s.heapSize + xs.length ≤ s.capacity →
    (s.insertAll xs).WF ∧ (s.insertAll xs).IsHeap ∧
      (s.insertAll xs).heapSize = s.heapSize + xs.length ∧
      List.Perm (s.insertAll xs).live (xs ++ s.live) := by
  induction xs with
  | nil => intro s hw hh _; exact ⟨hw, hh, rfl, List.Perm.refl _⟩
  | cons x xs ih =>
    intro s hw hh hc
    simp only [List.length_cons] at hc
    have hne : s.heapSize ≠ s.capacity := by omega
    have hs := insert_heapSize_min s x hne
    have hcap := insert_capacity_min s x
    obtain ⟨i1, i2, i3, i4⟩ := ih (s.insert x) (insert_WF_min s x hw) (insert_isHeap_min s x hw hh)
      (by rw [hs, hcap]; omega)
    refine ⟨i1, i2, ?_, ?_⟩
    · show ((s.insert x).insertAll xs).heapSize = _
      rw [i3, hs, List.length_cons]; omega
    · show List.Perm ((s.insert x).insertAll xs).live _
      refine i4.trans ?_
      refine (List.Perm.append_left xs (insert_live_min s x hw hne)).trans ?_
      exact List.perm_middle

/-- Repeated extraction from a heap returns its live elements in non-decreasing order. -/
theorem drainNat_sorted_perm_min : ∀ (n : Nat) (s : MinHeap), s.WF → s.IsHeap → s.heapSize = n →
    List.Sorted (· ≤ ·) (s.drainNat n) ∧ List.Perm (s.drainNat n) s.live := by
  intro n
  induction n with
  | zero =>
    intro s _ _ h0
    refine ⟨List.sorted_nil, ?_⟩
    show List.Perm [] (s.heap.take s.heapSize)
    rw [h0]; simp
  | succ n ih =>
    intro s hw hh hn
    have hne : s.heapSize ≠ 0 := by omega
    have hsz : s.deleteMinNat.2.heapSize = n := by rw [deleteMinNat_heapSize]; omega
    obtain ⟨i1, i2⟩ := ih s.deleteMinNat.2 (deleteMinNat_WF s hw) (deleteMinNat_isHeap s hw hh) hsz
    have hl := deleteMinNat_live s hw hne
    have hp : List.Perm (s.deleteMinNat.1 :: s.deleteMinNat.2.drainNat n) s.live :=
      (List.Perm.cons _ i2).trans hl
    refine ⟨?_, hp⟩
    show List.Sorted (· ≤ ·) (s.deleteMinNat.1 :: s.deleteMinNat.2.drainNat n)
    refine List.sorted_cons.mpr ⟨?_, i1⟩
    intro b hb
    exact deleteMinNat_le s hw hh hne b (hp.subset (List.mem_cons_of_mem _ hb))

end MinHeap

/-! ## Shared consequences -/

namespace HeapBuf

/-- Removing the extracted value: from `v :: after ~ before` to
`after ~ before.erase v`. -/
theorem perm_erase_of_cons_perm (v : Int) (after before : List Int)
    (h : List.Perm (v :: after) before) : List.Perm after (before.erase v) := by
  have hv : v ∈ before := h.subset (List.mem_cons_self _ _)
  exact ((List.perm_cons v).mp (h.trans (List.perm_cons_erase hv)))

end HeapBuf

namespace MaxHeap

theorem getMax_spec (s : MaxHeap) (hw : s.WF) (hh : s.IsHeap) (hne : s.heapSize ≠ 0) :
    s.getMax ∈ s.live ∧ ∀ x ∈ s.live, x ≤ s.getMax := by
  obtain ⟨h1, h2⟩ := hw
  have e : s.getMax = rd s.heap 0 := by unfold getMax; rw [if_neg hne]
  rw [e]
  refine ⟨(mem_take_iff_rd _ _ (by omega) _).mpr ⟨0, by omega, rfl⟩, ?_⟩
  intro x hx
  obtain ⟨j, hj, ej⟩ := (mem_take_iff_rd _ _ (by omega) x).mp hx
  rw [← ej]
  exact root_ge_of_heapOrdered _ _ hh j hj

end MaxHeap

namespace MinHeap

theorem getMin_spec (s : MinHeap) (hw : s.WF) (hh : s.IsHeap) (hne : s.heapSize ≠ 0) :
    s.getMin ∈ s.live ∧ ∀ x ∈ s.live, s.getMin ≤ x := by
  have e : s.getMin = - s.toMax.getMax := by
    unfold getMin MaxHeap.getMax
    rw [if_neg hne, if_neg (by exact hne)]
    show rd s.heap 0 = - rd (neg s.heap) 0
    rw [rd_neg]; omega
  obtain ⟨m1, m2⟩ := MaxHeap.getMax_spec s.toMax ((toMax_WF s).mpr hw)
    ((toMax_isHeap s).mpr hh) (by exact hne)
  rw [toMax_live] at m1 m2
  refine ⟨?_, ?_⟩
  · obtain ⟨y, hy, ey⟩ := List.mem_map.mp m1
    have : y = s.getMin := by rw [e]; omega
    rw [← this]; exact hy
  · intro x hx
    have := m2 (-x) (List.mem_map_of_mem _ hx)
    rw [e]; omega

end MinHeap

/-! ## The budgets of the remaining loops are sufficient -/

namespace MaxHeap

/-- The `while (true)` loop of `deleteMax` satisfies its loop equation: break when the
node wins, otherwise swap and continue from the child. -/
theorem deleteMaxLoopNat_unfold (a : List Int) (m i : Nat) :
    deleteMaxLoopNat a m i =
      if pickNat a m i = i then a else deleteMaxLoopNat (swap a i (pickNat a m i)) m (pickNat a m i) := by
  rw [deleteMaxLoopNat_eq, deleteMaxLoopNat_eq, heapifyDownNat_unfold]
  by_cases h : pickNat a m i = i
  · rw [if_pos h, if_neg (by simp [h])]
  · rw [if_neg h, if_pos h]

/-- The `while (true)` loops of the heap sort satisfy their loop equation. -/
theorem sortLoopNat_unfold (a : List Int) (m i : Nat) :
    sortLoopNat a m i =
      if pickNat a m i = i then a else sortLoopNat (swap a i (pickNat a m i)) m (pickNat a m i) := by
  rw [sortLoopNat_eq, sortLoopNat_eq, heapifyDownNat_unfold]
  by_cases h : pickNat a m i = i
  · rw [if_pos h, if_neg (by simp [h])]
  · rw [if_neg h, if_pos h]

end MaxHeap

namespace MinHeap

theorem heapifyDownFuelNat_stable_min (m : Nat) (f g : Nat) (a : List Int) (i : Nat)
    (hf : m - i ≤ f) (hg : m - i ≤ g) : heapifyDownFuelNat f a m i = heapifyDownFuelNat g a m i := by
  rw [heapifyDownFuelNat_eq_neg, heapifyDownFuelNat_eq_neg,
    MaxHeap.heapifyDownFuelNat_stable m f g _ _ hf hg]

theorem insertLoopFuel_stable_min (f g : Nat) (a : List Int) (i : Nat) (hf : i ≤ f) (hg : i ≤ g) :
    insertLoopFuel f a i = insertLoopFuel g a i := by
  rw [insertLoopFuel_eq_neg, insertLoopFuel_eq_neg, MaxHeap.insertLoopFuel_stable f g _ _ hf hg]

/-- The wrapper satisfies the defining equation of the recursive method. -/
theorem heapifyDownNat_unfold_min (a : List Int) (m i : Nat) :
    heapifyDownNat a m i =
      if pickNat a m i ≠ i then heapifyDownNat (swap a i (pickNat a m i)) m (pickNat a m i) else a := by
  rw [heapifyDownNat_eq_neg, heapifyDownNat_eq_neg, MaxHeap.heapifyDownNat_unfold, ← pickNat_eq_neg]
  split_ifs with h
  · rw [swap_neg]
  · rw [neg_neg]

/-- The wrapper satisfies the equation of the `while` loop of `insert`. -/
theorem insertLoop_unfold_min (a : List Int) (i : Nat) :
    insertLoop a i =
      if i > 0 ∧ rd a (parent i) > rd a i then insertLoop (swap a i (parent i)) (parent i)
      else a := by
  unfold insertLoop
  cases i with
  | zero => simp [insertLoopFuel]
  | succ i =>
    show (if i + 1 > 0 ∧ rd a (parent (i + 1)) > rd a (i + 1) then
        insertLoopFuel i (swap a (i + 1) (parent (i + 1))) (parent (i + 1)) else a) = _
    split_ifs with h
    · have : parent (i + 1) < i + 1 := MaxHeap.parent_lt (i + 1) h.1
      exact insertLoopFuel_stable_min _ _ _ _ (by omega) (by omega)
    · rfl

/-- The `while (true)` loop of `deleteMin` satisfies its loop equation. -/
theorem deleteMinLoopNat_unfold (a : List Int) (m i : Nat) :
    deleteMinLoopNat a m i =
      if pickNat a m i = i then a else deleteMinLoopNat (swap a i (pickNat a m i)) m (pickNat a m i) := by
  rw [deleteMinLoopNat_eq_neg, deleteMinLoopNat_eq_neg, MaxHeap.heapifyDownNat_unfold, ← pickNat_eq_neg]
  by_cases h : pickNat a m i = i
  · rw [if_pos h, if_neg (by simp [h]), neg_neg]
  · rw [if_neg h, if_pos h, swap_neg]

/-- The `while (true)` loops of the heap sort satisfy their loop equation. -/
theorem sortLoopNat_unfold_min (a : List Int) (m i : Nat) :
    sortLoopNat a m i =
      if pickNat a m i = i then a else sortLoopNat (swap a i (pickNat a m i)) m (pickNat a m i) := by
  rw [sortLoopNat_eq_neg, sortLoopNat_eq_neg, MaxHeap.heapifyDownNat_unfold, ← pickNat_eq_neg]
  by_cases h : pickNat a m i = i
  · rw [if_pos h, if_neg (by simp [h]), neg_neg]
  · rw [if_neg h, if_pos h, swap_neg]

end MinHeap

/-! ## Peek, and the size after `insert` -/

namespace MaxHeap

theorem getMax_empty (s : MaxHeap) (h : s.heapSize = 0) : s.getMax = -1 := by
  unfold getMax; rw [if_pos h]

theorem getMax_nonempty (s : MaxHeap) (h : s.heapSize ≠ 0) : s.getMax = rd s.heap 0 := by
  unfold getMax; rw [if_neg h]

theorem insert_size (s : MaxHeap) (key : Int) :
    (s.insert key).heapSize = if s.heapSize = s.capacity then s.heapSize else s.heapSize + 1 := by
  by_cases h : s.heapSize = s.capacity
  · rw [insert_full _ _ h, if_pos h]
  · rw [insert_heapSize _ _ h, if_neg h]

end MaxHeap

namespace MinHeap

theorem getMin_empty (s : MinHeap) (h : s.heapSize = 0) : s.getMin = -1 := by
  unfold getMin; rw [if_pos h]

theorem getMin_nonempty (s : MinHeap) (h : s.heapSize ≠ 0) : s.getMin = rd s.heap 0 := by
  unfold getMin; rw [if_neg h]

theorem insert_size_min (s : MinHeap) (key : Int) :
    (s.insert key).heapSize = if s.heapSize = s.capacity then s.heapSize else s.heapSize + 1 := by
  by_cases h : s.heapSize = s.capacity
  · rw [insert_full_min _ _ h, if_pos h]
  · rw [insert_heapSize_min _ _ h, if_neg h]

end MinHeap

/-! ## The path of the sift-up -/

namespace MaxHeap

theorem rootPathFuel_stable : ∀ (f g i : Nat), i ≤ f → i ≤ g →
    rootPathFuel f i = rootPathFuel g i := by
  intro f
  induction f with
  | zero =>
    intro g i hf _
    have : i = 0 := by omega
    subst this
    cases g <;> simp [rootPathFuel]
  | succ f ih =>
    intro g i hf hg
    cases g with
    | zero =>
      have : i = 0 := by omega
      subst this
      simp [rootPathFuel]
    | succ g =>
      show (if i > 0 then i :: rootPathFuel f (parent i) else [i]) =
        (if i > 0 then i :: rootPathFuel g (parent i) else [i])
      split_ifs with h
      · have := parent_lt i h
        rw [ih g _ (by omega) (by omega)]
      · rfl

/-- The path from `i` to the root is `i` followed by the path from `parent(i)`, and the
path from the root is the root alone. -/
theorem rootPath_unfold (i : Nat) :
    rootPath i = if i > 0 then i :: rootPath (parent i) else [i] := by
  unfold rootPath
  cases i with
  | zero => simp [rootPathFuel]
  | succ i =>
    show (if i + 1 > 0 then (i + 1) :: rootPathFuel i (parent (i + 1)) else [i + 1]) = _
    have := parent_lt (i + 1) (by omega)
    rw [if_pos (by omega), if_pos (by omega),
      rootPathFuel_stable i (parent (i + 1)) _ (by omega) (Nat.le_refl _)]

theorem self_mem_rootPathFuel (f i : Nat) : i ∈ rootPathFuel f i := by
  cases f with
  | zero => simp [rootPathFuel]
  | succ f =>
    show i ∈ (if i > 0 then i :: rootPathFuel f (parent i) else [i])
    split_ifs <;> simp

/-- The sift-up loop started at `i` leaves every slot off the path from `i` to the root
as it was. -/
theorem rd_insertLoopFuel_off_path : ∀ (f : Nat) (a : List Int) (i x : Nat),
    x ∉ rootPathFuel f i → rd (insertLoopFuel f a i) x = rd a x := by
  intro f
  induction f with
  | zero => intro a i x _; rfl
  | succ f ih =>
    intro a i x hx
    rw [insertLoopFuel_succ]
    split_ifs with h
    · have hx2 : x ∉ i :: rootPathFuel f (parent i) := by
        have e : rootPathFuel (f + 1) i = i :: rootPathFuel f (parent i) := by
          show (if i > 0 then i :: rootPathFuel f (parent i) else [i]) = _
          rw [if_pos h.1]
        rwa [e] at hx
      have hxi : x ≠ i := fun e => hx2 (by rw [e]; exact List.mem_cons_self _ _)
      have hxr : x ∉ rootPathFuel f (parent i) := fun e => hx2 (List.mem_cons_of_mem _ e)
      have hxp : x ≠ parent i := fun e => hxr (by rw [e]; exact self_mem_rootPathFuel _ _)
      rw [ih _ _ _ hxr, rd_swap_ne _ _ _ _ hxi hxp]
    · rfl

theorem insert_off_path (s : MaxHeap) (key : Int) (x : Nat) (hx : x ∉ rootPath s.heapSize) :
    rd (s.insert key).heap x = rd s.heap x := by
  by_cases h : s.heapSize = s.capacity
  · rw [insert_full _ _ h]
  · rw [insert_not_full _ _ h]
    show rd (insertLoop (s.heap.set s.heapSize key) s.heapSize) x = _
    have hxn : x ≠ s.heapSize := fun e => hx (by rw [e]; exact self_mem_rootPathFuel _ _)
    unfold insertLoop
    rw [rd_insertLoopFuel_off_path _ _ _ _ hx, rd_set_ne _ _ _ _ hxn]

end MaxHeap

namespace MinHeap

theorem insert_off_path_min (s : MinHeap) (key : Int) (x : Nat)
    (hx : x ∉ MaxHeap.rootPath s.heapSize) : rd (s.insert key).heap x = rd s.heap x := by
  have h := MaxHeap.insert_off_path s.toMax (-key) x hx
  rw [← toMax_insert] at h
  have e1 : rd (s.insert key).toMax.heap x = - rd (s.insert key).heap x := rd_neg _ _
  have e2 : rd s.toMax.heap x = - rd s.heap x := rd_neg _ _
  rw [e1, e2] at h
  omega

end MinHeap

/-! ## Buffers with slots appended; nodes that dominate their children -/

namespace HeapBuf

theorem rd_append_left (a b : List Int) (x : Nat) (hx : x < a.length) :
    rd (a ++ b) x = rd a x := by
  unfold rd
  exact List.getD_append a b 0 x hx

theorem swap_append_left (a b : List Int) (i j : Nat) (hi : i < a.length) (hj : j < a.length) :
    swap (a ++ b) i j = swap a i j ++ b := by
  unfold swap
  rw [rd_append_left _ _ _ hi, rd_append_left _ _ _ hj, List.set_append_left _ _ hi,
    List.set_append_left _ _ (by rw [List.length_set]; exact hj)]

end HeapBuf

namespace MaxHeap

/-! ### A node that dominates its children is left alone -/

theorem pickNat_eq_self (a : List Int) (m i : Nat)
    (h1 : leftNat i < m → rd a (leftNat i) ≤ rd a i) (h2 : rightNat i < m → rd a (rightNat i) ≤ rd a i) :
    pickNat a m i = i := by
  rcases pickNat_cases a m i with ⟨hp, _⟩ | ⟨_, hlt, hv, _⟩ | ⟨_, hrt, _, hv, _⟩
  · exact hp
  · have := h1 hlt; omega
  · have := h2 hrt; omega

theorem heapifyDownNat_eq_self (a : List Int) (m i : Nat)
    (h1 : leftNat i < m → rd a (leftNat i) ≤ rd a i) (h2 : rightNat i < m → rd a (rightNat i) ≤ rd a i) :
    heapifyDownNat a m i = a := by
  rw [heapifyDownNat_unfold, pickNat_eq_self a m i h1 h2, if_neg (by simp)]

theorem buildLoopNat_eq_self (a : List Int) (m : Nat) (h : heapOrdered a m) :
    ∀ k, buildLoopNat m k a = a := by
  intro k
  induction k with
  | zero => rfl
  | succ k ih =>
    show buildLoopNat m k (heapifyDownNat a m k) = a
    rw [heapifyDownNat_eq_self a m k, ih]
    · intro hl
      have := h (leftNat k) hl (by unfold leftNat; omega)
      rwa [parent_leftNat] at this
    · intro hr
      have := h (rightNat k) hr (by unfold rightNat; omega)
      rwa [parent_rightNat] at this

theorem heapOrdered_append (arr b : List Int) (h : heapOrdered arr arr.length) :
    heapOrdered (arr ++ b) arr.length := by
  intro i hi h1
  have hp := parent_lt i (by omega)
  rw [rd_append_left _ _ _ hi, rd_append_left _ _ _ (by omega)]
  exact h i hi h1

/-- Bulk construction from an array that is already a heap keeps the array as it is. -/
theorem fromArrayNat_live_eq_self (arr : List Int) (cap : Nat) (mem : Nat → Int)
    (h : heapOrdered arr arr.length) : (fromArrayNat arr cap mem).live = arr := by
  show (buildLoopNat arr.length (arr.length / 2) _).take arr.length = arr
  rw [buildLoopNat_eq_self _ _ (heapOrdered_append arr _ h), List.take_left]

theorem heapOrdered_replicate (n : Nat) (v : Int) :
    heapOrdered (List.replicate n v) (List.replicate n v).length := by
  intro i hi h1
  rw [List.length_replicate] at hi
  have hp := parent_lt i (by omega)
  rw [rd_eq_getElem _ _ (by rw [List.length_replicate]; omega),
    rd_eq_getElem _ _ (by rw [List.length_replicate]; omega)]
  simp

end MaxHeap

namespace MinHeap

theorem deleteMinLoopNat_eq (a : List Int) (m i : Nat) :
    deleteMinLoopNat a m i = heapifyDownNat a m i := by
  rw [deleteMinLoopNat_eq_neg, heapifyDownNat_eq_neg]

theorem sortLoopNat_eq_min (a : List Int) (m i : Nat) : sortLoopNat a m i = heapifyDownNat a m i := by
  rw [sortLoopNat_eq_neg, heapifyDownNat_eq_neg]

theorem sortBuildNat_eq_min (m : Nat) (k : Nat) (a : List Int) :
    sortBuildNat m k a = buildLoopNat m k a := by
  rw [sortBuildNat_eq_neg, buildLoopNat_eq_neg, MaxHeap.sortBuildNat_eq]

theorem heapOrdered_neg (a : List Int) (n : Nat) :
    MaxHeap.heapOrdered (neg a) n ↔ heapOrdered a n := by
  unfold heapOrdered MaxHeap.heapOrdered
  simp only [rd_neg]
  constructor
  · intro h i hi h1
    have := h i hi h1
    show rd a (MaxHeap.parent i) ≤ _
    omega
  · intro h i hi h1
    have : rd a (MaxHeap.parent i) ≤ rd a i := h i hi h1
    omega

theorem pickNat_eq_self_min (a : List Int) (m i : Nat)
    (h1 : leftNat i < m → rd a i ≤ rd a (leftNat i)) (h2 : rightNat i < m → rd a i ≤ rd a (rightNat i)) :
    pickNat a m i = i := by
  rw [pickNat_eq_neg]
  apply MaxHeap.pickNat_eq_self
  · intro h; rw [rd_neg, rd_neg]; have := h1 h
    show -rd a (leftNat i) ≤ -rd a i
    omega
  · intro h; rw [rd_neg, rd_neg]; have := h2 h
    show -rd a (rightNat i) ≤ -rd a i
    omega

theorem fromArrayNat_live_eq_self_min (arr : List Int) (cap : Nat) (mem : Nat → Int)
    (h : heapOrdered arr arr.length) : (fromArrayNat arr cap mem).live = arr := by
  have hm := MaxHeap.fromArrayNat_live_eq_self (neg arr) cap (fun k => - mem k)
    (by rw [length_neg]; exact (heapOrdered_neg arr _).mpr h)
  rw [← toMax_fromArrayNat, toMax_live] at hm
  have := congrArg neg hm
  rwa [neg_neg, neg_neg] at this

theorem heapOrdered_replicate_min (n : Nat) (v : Int) :
    heapOrdered (List.replicate n v) (List.replicate n v).length := by
  intro i hi h1
  rw [List.length_replicate] at hi
  have hp := MaxHeap.parent_lt i (by omega)
  have hp2 : parent i < n := hp.trans hi
  rw [rd_eq_getElem _ _ (by rw [List.length_replicate]; exact hp2),
    rd_eq_getElem _ _ (by rw [List.length_replicate]; omega)]
  simp

end MinHeap

/-! ## The extraction phase of the heap sort, step by step -/

namespace MaxHeap

theorem sortExtractStepsNat_succ (k e : Nat) (a : List Int) :
    sortExtractStepsNat (k + 1) (e + 1) a =
      sortExtractStepsNat k e (heapifyDownNat (swap a 0 e) e 0) := by
  show sortExtractStepsNat k e ((sortLoopNat (a.set 0 (rd a e)) e 0).set e (rd a 0)) = _
  rw [sortLoopNat_eq, heapifyDownNat_swap_last]

/-- Running all `heapEnd` iterations is the extraction phase itself. -/
theorem sortExtractStepsNat_all : ∀ (e : Nat) (a : List Int),
    sortExtractStepsNat e e a = sortExtractNat e a := by
  intro e
  induction e with
  | zero => intro a; rfl
  | succ e ih => intro a; rw [sortExtractStepsNat_succ, sortExtractNat_succ, ih]

theorem length_sortExtractStepsNat : ∀ (k e : Nat) (a : List Int),
    (sortExtractStepsNat k e a).length = a.length := by
  intro k
  induction k with
  | zero => intro e a; rfl
  | succ k ih =>
    intro e a
    cases e with
    | zero => rfl
    | succ e => rw [sortExtractStepsNat_succ, ih, length_heapifyDownNat, length_swap]

theorem perm_sortExtractStepsNat : ∀ (k e : Nat) (a : List Int), e ≤ a.length →
    List.Perm (sortExtractStepsNat k e a) a := by
  intro k
  induction k with
  | zero => intro e a _; exact List.Perm.refl _
  | succ k ih =>
    intro e a he
    cases e with
    | zero => exact List.Perm.refl _
    | succ e =>
      rw [sortExtractStepsNat_succ]
      refine (ih e _ (by rw [length_heapifyDownNat, length_swap]; omega)).trans ?_
      exact (perm_heapifyDownNat _ _ _ (by rw [length_swap]; omega)).trans
        (swap_perm _ _ _ (by omega) (by omega))

theorem sortInv_steps : ∀ (k e : Nat) (a : List Int), k ≤ e → SortInv a e →
    SortInv (sortExtractStepsNat k e a) (e - k) := by
  intro k
  induction k with
  | zero => intro e a _ h; exact h
  | succ k ih =>
    intro e a hk h
    cases e with
    | zero => omega
    | succ e =>
      rw [sortExtractStepsNat_succ]
      have := ih e _ (by omega) (sortInv_stepNat a e h)
      have e1 : e + 1 - (k + 1) = e - k := by omega
      rw [e1]; exact this

end MaxHeap

namespace MinHeap

theorem sortExtractStepsNat_eq_neg : ∀ (k e : Nat) (a : List Int),
    sortExtractStepsNat k e a = neg (MaxHeap.sortExtractStepsNat k e (neg a)) := by
  intro k
  induction k with
  | zero => intro e a; show a = neg (neg a); rw [neg_neg]
  | succ k ih =>
    intro e a
    cases e with
    | zero => show a = neg (neg a); rw [neg_neg]
    | succ e =>
      show sortExtractStepsNat k e ((sortLoopNat (a.set 0 (rd a e)) e 0).set e (rd a 0)) =
        neg (MaxHeap.sortExtractStepsNat k e
          ((MaxHeap.sortLoopNat ((neg a).set 0 (rd (neg a) e)) e 0).set e (rd (neg a) 0)))
      rw [ih, sortLoopNat_eq_neg, MaxHeap.sortLoopNat_eq, neg_set, neg_neg, neg_set, rd_neg, rd_neg]

theorem sortExtractStepsNat_all_min (e : Nat) (a : List Int) :
    sortExtractStepsNat e e a = sortExtractNat e a := by
  rw [sortExtractStepsNat_eq_neg, sortExtractNat_eq_neg, MaxHeap.sortExtractStepsNat_all]

end MinHeap

/-! ## Peek under negation; the heap sort after `k` extraction steps -/

namespace MinHeap

theorem getMin_eq_neg (t : MinHeap) (h : t.heapSize ≠ 0) : t.getMin = - t.toMax.getMax := by
  rw [getMin_nonempty _ h, MaxHeap.getMax_nonempty _ (by exact h)]
  show rd t.heap 0 = - rd (neg t.heap) 0
  rw [rd_neg]; omega

theorem heap_eq_neg_toMax (t : MinHeap) : t.heap = neg t.toMax.heap := by
  show t.heap = neg (neg t.heap)
  rw [neg_neg]

end MinHeap

namespace MaxHeap

theorem sortAfterNat_all (arr : List Int) : sortAfterNat arr arr.length = heapSortNat arr :=
  sortExtractStepsNat_all _ _

theorem sortAfterNat_inv (arr : List Int) (k : Nat) (hk : k ≤ arr.length) :
    SortInv (sortAfterNat arr k) (arr.length - k) :=
  sortInv_steps k arr.length _ hk (sortInv_build arr)

theorem length_sortAfterNat (arr : List Int) (k : Nat) : (sortAfterNat arr k).length = arr.length := by
  unfold sortAfterNat
  rw [length_sortExtractStepsNat, sortBuildNat_eq, length_buildLoopNat]

theorem perm_sortAfterNat (arr : List Int) (k : Nat) : List.Perm (sortAfterNat arr k) arr := by
  unfold sortAfterNat
  rw [sortBuildNat_eq]
  exact (perm_sortExtractStepsNat _ _ _ (by rw [length_buildLoopNat])).trans
    (perm_buildLoopNat _ _ _ (Nat.le_refl _))

end MaxHeap

namespace MinHeap

theorem sortAfterNat_eq_neg (arr : List Int) (k : Nat) :
    sortAfterNat arr k = neg (MaxHeap.sortAfterNat (neg arr) k) := by
  unfold sortAfterNat MaxHeap.sortAfterNat
  rw [sortExtractStepsNat_eq_neg, sortBuildNat_eq_neg, neg_neg, length_neg]

theorem sortAfterNat_all_min (arr : List Int) : sortAfterNat arr arr.length = heapSortNat arr :=
  sortExtractStepsNat_all_min _ _

theorem perm_sortAfterNat_min (arr : List Int) (k : Nat) : List.Perm (sortAfterNat arr k) arr := by
  rw [sortAfterNat_eq_neg, ← perm_neg_iff, neg_neg]
  exact MaxHeap.perm_sortAfterNat _ _

end MinHeap

/-! ## The frame of the sift-down -/

namespace MaxHeap

theorem inSubtree_self (i : Nat) : inSubtree i i := self_mem_rootPathFuel _ _

theorem inSubtree_le (i : Nat) : ∀ x, inSubtree i x → i ≤ x := by
  intro x
  induction x using Nat.strong_induction_on with
  | _ x ih =>
    intro h
    unfold inSubtree at h
    rw [rootPath_unfold] at h
    split_ifs at h with hx
    · rcases List.mem_cons.mp h with e | e
      · omega
      · have := ih (parent x) (parent_lt x hx) e
        have := parent_lt x hx
        omega
    · simp at h; omega

/-- The subtree of a node contains the subtrees of its descendants. -/
theorem inSubtree_trans (i c : Nat) (hc : inSubtree i c) : ∀ x, inSubtree c x → inSubtree i x := by
  intro x
  induction x using Nat.strong_induction_on with
  | _ x ih =>
    intro h
    by_cases hcx : c = x
    · subst hcx; exact hc
    · unfold inSubtree at h ⊢
      rw [rootPath_unfold] at h ⊢
      split_ifs at h ⊢ with hx
      · rcases List.mem_cons.mp h with e | e
        · exact absurd e hcx
        · exact List.mem_cons_of_mem _ (ih (parent x) (parent_lt x hx) e)
      · simp at h; exact absurd h hcx

theorem inSubtree_child (i c : Nat) (hc : 1 ≤ c) (hp : parent c = i) : inSubtree i c := by
  unfold inSubtree
  rw [rootPath_unfold, if_pos (by omega), hp]
  exact List.mem_cons_of_mem _ (inSubtree_self i)

theorem pickNat_inSubtree (a : List Int) (m i : Nat) : inSubtree i (pickNat a m i) := by
  rcases pickNat_cases a m i with ⟨h, _⟩ | ⟨h, _⟩ | ⟨h, _⟩
  · rw [h]; exact inSubtree_self i
  · rw [h]; exact inSubtree_child i _ (by unfold leftNat; omega) (parent_leftNat i)
  · rw [h]; exact inSubtree_child i _ (by unfold rightNat; omega) (parent_rightNat i)

/-- The sift-down from `i` leaves every slot outside the subtree rooted at `i` as it
was. -/
theorem rd_heapifyDownFuelNat_outside (m : Nat) : ∀ (f : Nat) (a : List Int) (i x : Nat),
    ¬ inSubtree i x → rd (heapifyDownFuelNat f a m i) x = rd a x := by
  intro f
  induction f with
  | zero => intro a i x _; rfl
  | succ f ih =>
    intro a i x hx
    rw [heapifyDownFuelNat_succ]
    split_ifs with h
    · have hsub := pickNat_inSubtree a m i
      have hxc : ¬ inSubtree (pickNat a m i) x := fun e => hx (inSubtree_trans i _ hsub x e)
      have hxi : x ≠ i := fun e => hx (by rw [e]; exact inSubtree_self i)
      have hxp : x ≠ pickNat a m i := fun e => hxc (by rw [e]; exact inSubtree_self _)
      rw [ih _ _ _ hxc, rd_swap_ne _ _ _ _ hxi hxp]
    · rfl

theorem rd_heapifyDownNat_outside (a : List Int) (m i x : Nat) (hx : ¬ inSubtree i x) :
    rd (heapifyDownNat a m i) x = rd a x := rd_heapifyDownFuelNat_outside m _ a i x hx

/-- A slot whose value the sift-down changes lies in the subtree of `i` and inside the
window. -/
theorem heapifyDownNat_changes (a : List Int) (m i x : Nat)
    (h : rd (heapifyDownNat a m i) x ≠ rd a x) : inSubtree i x ∧ x < m := by
  refine ⟨?_, ?_⟩
  · by_contra hc; exact h (rd_heapifyDownNat_outside a m i x hc)
  · by_contra hc; exact h (rd_heapifyDownNat_ge a m i x (by omega))

theorem perm_take_heapifyDownNat (a : List Int) (m i : Nat) (hm : m ≤ a.length) :
    List.Perm ((heapifyDownNat a m i).take m) (a.take m) :=
  perm_take_of_frame _ _ m (perm_heapifyDownNat a m i hm) (fun x hx => rd_heapifyDownNat_ge a m i x hx)

/-- The slots from the new size on are left alone by `deleteMax`. -/
theorem deleteMaxNat_stale (s : MaxHeap) (x : Nat) (hx : s.deleteMaxNat.2.heapSize ≤ x) :
    rd s.deleteMaxNat.2.heap x = rd s.heap x := by
  by_cases h : s.heapSize = 0
  · rw [deleteMaxNat_empty _ h]
  · obtain ⟨n, hn⟩ := Nat.exists_eq_succ_of_ne_zero h
    rw [deleteMaxNat_succ _ n hn] at hx ⊢
    have hx2 : n ≤ x := hx
    show rd (heapifyDownNat (s.heap.set 0 (rd s.heap n)) n 0) x = _
    rw [rd_heapifyDownNat_ge _ _ _ _ hx2]
    by_cases h0 : x = 0
    · have : n = 0 := by omega
      subst this; subst h0
      rw [set_rd_self]
    · rw [rd_set_ne _ _ _ _ h0]

/-- One extraction step of the heap sort leaves the slots behind the old window alone. -/
theorem sortExtractStepsNat_one_tail (a : List Int) (e x : Nat) (hx : e + 1 ≤ x) :
    rd (sortExtractStepsNat 1 (e + 1) a) x = rd a x := by
  rw [sortExtractStepsNat_succ]
  show rd (heapifyDownNat (swap a 0 e) e 0) x = _
  rw [rd_heapifyDownNat_ge _ _ _ _ (by omega), rd_swap_ne _ _ _ _ (by omega) (by omega)]

end MaxHeap

namespace MinHeap

theorem rd_heapifyDownNat_ge_min (a : List Int) (m i x : Nat) (hx : m ≤ x) :
    rd (heapifyDownNat a m i) x = rd a x := by
  rw [heapifyDownNat_eq_neg, rd_neg, MaxHeap.rd_heapifyDownNat_ge _ _ _ _ hx, rd_neg]; omega

theorem rd_heapifyDownNat_outside_min (a : List Int) (m i x : Nat)
    (hx : ¬ MaxHeap.inSubtree i x) : rd (heapifyDownNat a m i) x = rd a x := by
  rw [heapifyDownNat_eq_neg, rd_neg, MaxHeap.rd_heapifyDownNat_outside _ _ _ _ hx, rd_neg]; omega

theorem heapifyDownNat_changes_min (a : List Int) (m i x : Nat)
    (h : rd (heapifyDownNat a m i) x ≠ rd a x) : MaxHeap.inSubtree i x ∧ x < m := by
  refine ⟨?_, ?_⟩
  · by_contra hc; exact h (rd_heapifyDownNat_outside_min a m i x hc)
  · by_contra hc; exact h (rd_heapifyDownNat_ge_min a m i x (by omega))

theorem perm_take_heapifyDownNat_min (a : List Int) (m i : Nat) (hm : m ≤ a.length) :
    List.Perm ((heapifyDownNat a m i).take m) (a.take m) := by
  rw [heapifyDownNat_eq_neg, take_neg, ← perm_neg_iff, neg_neg, ← take_neg]
  exact MaxHeap.perm_take_heapifyDownNat _ _ _ (by rw [length_neg]; exact hm)

theorem deleteMinNat_stale (s : MinHeap) (x : Nat) (hx : s.deleteMinNat.2.heapSize ≤ x) :
    rd s.deleteMinNat.2.heap x = rd s.heap x := by
  have h := MaxHeap.deleteMaxNat_stale s.toMax x (by rw [← toMax_deleteMinNat]; exact hx)
  rw [← toMax_deleteMinNat] at h
  have e1 : rd s.deleteMinNat.2.toMax.heap x = - rd s.deleteMinNat.2.heap x := rd_neg _ _
  have e2 : rd s.toMax.heap x = - rd s.heap x := rd_neg _ _
  rw [e1, e2] at h
  omega

theorem sortExtractStepsNat_one_tail_min (a : List Int) (e x : Nat) (hx : e + 1 ≤ x) :
    rd (sortExtractStepsNat 1 (e + 1) a) x = rd a x := by
  rw [sortExtractStepsNat_eq_neg, rd_neg, MaxHeap.sortExtractStepsNat_one_tail _ _ _ hx, rd_neg]
  omega

end MinHeap

/-! ## Integer indices

The code's `int` indices against the natural indices of the exact-index counterparts. -/

namespace HeapBuf

theorem int32_eq_self (x : Int) (h1 : -2147483648 ≤ x) (h2 : x < 2147483648) :
    int32 x = x := by
  unfold int32; omega

theorem rdAt_natCast (a : List Int) (i : Nat) : rdAt a (i : Int) = rd a i := by
  unfold rdAt
  rw [if_pos (Int.ofNat_nonneg i), Int.toNat_ofNat]

theorem setAt_natCast (a : List Int) (i : Nat) (v : Int) : setAt a (i : Int) v = a.set i v := by
  unfold setAt
  rw [if_pos (Int.ofNat_nonneg i), Int.toNat_ofNat]

theorem swapAt_natCast (a : List Int) (i j : Nat) : swapAt a (i : Int) (j : Int) = swap a i j := by
  unfold swapAt swap
  rw [rdAt_natCast, rdAt_natCast, setAt_natCast, setAt_natCast]

theorem length_setAt (a : List Int) (i : Int) (v : Int) : (setAt a i v).length = a.length := by
  unfold setAt
  split_ifs
  · rw [List.length_set]
  · rfl

theorem length_swapAt (a : List Int) (i j : Int) : (swapAt a i j).length = a.length := by
  unfold swapAt
  rw [length_setAt, length_setAt]

theorem rdAt_neg (a : List Int) (i : Int) : rdAt (neg a) i = - rdAt a i := by
  unfold rdAt
  split_ifs
  · rw [rd_neg]
  · rfl

theorem setAt_neg (a : List Int) (i : Int) (v : Int) : neg (setAt a i v) = setAt (neg a) i (-v) := by
  unfold setAt
  split_ifs
  · rw [neg_set]
  · rfl

theorem swapAt_neg (a : List Int) (i j : Int) : swapAt (neg a) i j = neg (swapAt a i j) := by
  unfold swapAt
  rw [setAt_neg, setAt_neg, rdAt_neg, rdAt_neg]

theorem rdAt_append_left (a b : List Int) (x : Int) (hx : x < a.length) :
    rdAt (a ++ b) x = rdAt a x := by
  unfold rdAt
  split_ifs with h
  · exact rd_append_left _ _ _ (by omega)
  · rfl

theorem setAt_append_left (a b : List Int) (x : Int) (v : Int) (hx : x < a.length) :
    setAt (a ++ b) x v = setAt a x v ++ b := by
  unfold setAt
  split_ifs with h
  · exact List.set_append_left _ _ (by omega)
  · rfl

theorem swapAt_append_left (a b : List Int) (i j : Int) (hi : i < a.length)
    (hj : j < a.length) : swapAt (a ++ b) i j = swapAt a i j ++ b := by
  unfold swapAt
  rw [rdAt_append_left _ _ _ hi, rdAt_append_left _ _ _ hj, setAt_append_left _ _ _ _ hi,
    setAt_append_left _ _ _ _ (by rw [length_setAt]; exact hj)]

end HeapBuf

/-! ## The sift-down of `MaxHeap` on `int` indices -/

namespace MaxHeap

/-- The child index overflows at node `2 ^ 30 - 1`: `right(1073741823)` is
`-2147483648`, and `left` of the next node is negative as well.  A negative child index
passes the test `r < heapSize` for every size, so the code goes on to read
`heap[-2147483648]`. -/
theorem right_wraps :
    right 1073741823 = -2147483648 ∧ left 1073741823 = 2147483647 ∧
      left 1073741824 = -2147483647 ∧ ∀ m : Nat, right 1073741823 < (m : Int) := by
  refine ⟨by decide, by decide, by decide, ?_⟩
  intro m
  have h : right 1073741823 = -2147483648 := by decide
  rw [h]
  omega

theorem left_natCast (i : Nat) (h : 2 * i + 2 < 2 ^ 31) : left (i : Int) = (leftNat i : Nat) := by
  unfold left leftNat int32
  omega

theorem right_natCast (i : Nat) (h : 2 * i + 2 < 2 ^ 31) :
    right (i : Int) = (rightNat i : Nat) := by
  unfold right rightNat int32
  omega

theorem heapifyDownFuel_succ (fuel : Nat) (a : List Int) (m : Nat) (i : Int) :
    heapifyDownFuel (fuel + 1) a m i =
      if pick a m i ≠ i then heapifyDownFuel fuel (swapAt a i (pick a m i)) m (pick a m i)
      else a := rfl

/-- Below the overflow, the comparisons on `int` indices select the node that the
comparisons on exact indices select. -/
theorem pick_natCast (a : List Int) (m i : Nat) (h : 2 * i + 2 < 2 ^ 31) :
    pick a m (i : Int) = (pickNat a m i : Nat) := by
  unfold pick pickNat
  rw [left_natCast i h, right_natCast i h]
  simp only [rdAt_natCast, Nat.cast_lt]
  split_ifs <;> simp only [rdAt_natCast] at * <;> first | rfl | omega

end MaxHeap

namespace MaxHeap

/-! ### Facts that hold for every index -/

theorem length_heapifyDownFuel (m : Nat) : ∀ (f : Nat) (a : List Int) (i : Int),
    (heapifyDownFuel f a m i).length = a.length := by
  intro f
  induction f with
  | zero => intro a i; rfl
  | succ f ih =>
    intro a i
    rw [heapifyDownFuel_succ]
    split_ifs
    · rw [ih, length_swapAt]
    · rfl

theorem length_heapifyDown (a : List Int) (m : Nat) (i : Int) :
    (heapifyDown a m i).length = a.length := length_heapifyDownFuel _ _ _ _

/-- The inline loop of `deleteMax` computes what the recursive `heapifyDown` computes. -/
theorem deleteMaxLoopFuel_eq : ∀ (f : Nat) (a : List Int) (m : Nat) (i : Int),
    deleteMaxLoopFuel f a m i = heapifyDownFuel f a m i := by
  intro f
  induction f with
  | zero => intro a m i; rfl
  | succ f ih =>
    intro a m i
    show (if pick a m i = i then a
      else deleteMaxLoopFuel f (swapAt a i (pick a m i)) m (pick a m i)) = _
    rw [heapifyDownFuel_succ]
    by_cases h : pick a m i = i
    · simp [h]
    · rw [if_neg h, if_pos h, ih]

theorem deleteMaxLoop_eq (a : List Int) (m : Nat) (i : Int) :
    deleteMaxLoop a m i = heapifyDown a m i := deleteMaxLoopFuel_eq _ _ _ _

/-- The inline loops of the heap sort compute what the recursive `heapifyDown` computes. -/
theorem sortLoopFuel_eq : ∀ (f : Nat) (a : List Int) (m : Nat) (i : Int),
    sortLoopFuel f a m i = heapifyDownFuel f a m i := by
  intro f
  induction f with
  | zero => intro a m i; rfl
  | succ f ih =>
    intro a m i
    show (if pick a m i = i then a
      else sortLoopFuel f (swapAt a i (pick a m i)) m (pick a m i)) = _
    rw [heapifyDownFuel_succ]
    by_cases h : pick a m i = i
    · simp [h]
    · rw [if_neg h, if_pos h, ih]

theorem sortLoop_eq (a : List Int) (m : Nat) (i : Int) :
    sortLoop a m i = heapifyDown a m i := sortLoopFuel_eq _ _ _ _

theorem sortBuild_eq (m : Nat) : ∀ (k : Nat) (a : List Int),
    sortBuild m k a = buildLoop m k a := by
  intro k
  induction k with
  | zero => intro a; rfl
  | succ k ih => intro a; show sortBuild m k (sortLoop a m k) = _; rw [sortLoop_eq, ih]; rfl

theorem deleteMax_empty (s : MaxHeap) (h : s.heapSize = 0) : s.deleteMax = (-1, s) := by
  unfold deleteMax; rw [if_pos h]

theorem heapifyDown_zero (a : List Int) (i : Int) : heapifyDown a 0 i = a := rfl

theorem deleteMax_succ (s : MaxHeap) (n : Nat) (h : s.heapSize = n + 1) :
    s.deleteMax =
      (rd s.heap 0,
        { heap := heapifyDown (s.heap.set 0 (rd s.heap n)) n 0, capacity := s.capacity,
          heapSize := n }) := by
  unfold deleteMax
  rw [if_neg (by omega)]
  simp only [h, Nat.add_sub_cancel, deleteMaxLoop_eq]
  by_cases hn : n > 0
  · simp only [hn, if_true]
  · have : n = 0 := by omega
    subst this
    simp [heapifyDown_zero]

theorem deleteMax_WF (s : MaxHeap) (hw : s.WF) : s.deleteMax.2.WF := by
  by_cases h : s.heapSize = 0
  · rw [deleteMax_empty _ h]; exact hw
  · obtain ⟨n, hn⟩ := Nat.exists_eq_succ_of_ne_zero h
    rw [deleteMax_succ _ n hn]
    obtain ⟨h1, h2⟩ := hw
    refine ⟨?_, ?_⟩
    · show (heapifyDown _ _ _).length = _
      rw [length_heapifyDown, List.length_set]; exact h1
    · show n ≤ s.capacity
      omega

theorem deleteMax_heapSize (s : MaxHeap) : s.deleteMax.2.heapSize = s.heapSize - 1 := by
  by_cases h : s.heapSize = 0
  · rw [deleteMax_empty _ h]; show s.heapSize = _; omega
  · obtain ⟨n, hn⟩ := Nat.exists_eq_succ_of_ne_zero h
    rw [deleteMax_succ _ n hn, hn]; rfl

theorem deleteMax_capacity (s : MaxHeap) : s.deleteMax.2.capacity = s.capacity := by
  by_cases h : s.heapSize = 0
  · rw [deleteMax_empty _ h]
  · obtain ⟨n, hn⟩ := Nat.exists_eq_succ_of_ne_zero h
    rw [deleteMax_succ _ n hn]

theorem deleteMax_fst (s : MaxHeap) (h : s.heapSize ≠ 0) : s.deleteMax.1 = rd s.heap 0 := by
  obtain ⟨n, hn⟩ := Nat.exists_eq_succ_of_ne_zero h
  rw [deleteMax_succ _ n hn]

theorem length_buildLoop (m : Nat) : ∀ (k : Nat) (a : List Int),
    (buildLoop m k a).length = a.length := by
  intro k
  induction k with
  | zero => intro a; rfl
  | succ k ih => intro a; show (buildLoop m k (heapifyDown a m k)).length = _
                 rw [ih, length_heapifyDown]

theorem fromArray_heapSize (arr : List Int) (cap : Nat) (mem : Nat → Int) :
    (fromArray arr cap mem).heapSize = arr.length := rfl

theorem fromArray_WF (arr : List Int) (cap : Nat) (mem : Nat → Int) :
    (fromArray arr cap mem).WF := by
  refine ⟨?_, ?_⟩
  · show (buildLoop _ _ _).length = max cap arr.length
    rw [length_buildLoop]; simp
  · show arr.length ≤ max cap arr.length
    omega

theorem step_WF (s : MaxHeap) (op : HeapOp) (hw : s.WF) : (s.step op).WF := by
  cases op with
  | insert key => exact insert_WF s key hw
  | extract => exact deleteMax_WF s hw
  | peek => exact hw

theorem run_WF (ops : List HeapOp) : ∀ (s : MaxHeap), s.WF → (s.run ops).WF := by
  induction ops with
  | nil => intro s hw; exact hw
  | cons op ops ih => intro s hw; exact ih (s.step op) (step_WF s op hw)

theorem step_capacity (s : MaxHeap) (op : HeapOp) : (s.step op).capacity = s.capacity := by
  cases op with
  | insert key => exact insert_capacity s key
  | extract => exact deleteMax_capacity s
  | peek => rfl

theorem run_capacity (ops : List HeapOp) : ∀ (s : MaxHeap), (s.run ops).capacity = s.capacity := by
  induction ops with
  | nil => intro s; rfl
  | cons op ops ih =>
    intro s
    show ((s.step op).run ops).capacity = _
    rw [ih, step_capacity]

/-- Size bookkeeping along a run: final size plus effective extractions equals initial
size plus effective insertions. -/
theorem run_size_balance (ops : List HeapOp) : ∀ (s : MaxHeap),
    (s.run ops).heapSize + s.extractsDone ops = s.heapSize + s.insertsDone ops := by
  induction ops with
  | nil => intro s; rfl
  | cons op ops ih =>
    intro s
    cases op with
    | insert key =>
      show ((s.insert key).run ops).heapSize + (s.insert key).extractsDone ops =
        s.heapSize + ((if s.heapSize = s.capacity then 0 else 1) + (s.insert key).insertsDone ops)
      have h1 := ih (s.insert key)
      have h2 := insert_size s key
      split_ifs at h2 ⊢ <;> omega
    | extract =>
      show (s.deleteMax.2.run ops).heapSize +
          ((if s.heapSize = 0 then 0 else 1) + s.deleteMax.2.extractsDone ops) =
        s.heapSize + s.deleteMax.2.insertsDone ops
      have h1 := ih s.deleteMax.2
      have h2 := deleteMax_heapSize s
      split_ifs <;> omega
    | peek => exact ih s

/-- The node selected by a sift-down step is the node itself or an index below the window
bound. -/
theorem pick_eq_or (a : List Int) (m : Nat) (i : Int) : pick a m i = i ∨ pick a m i < m := by
  unfold pick
  by_cases h1 : left i < m ∧ rdAt a (left i) > rdAt a i
  · rw [if_pos h1]
    by_cases h2 : right i < m ∧ rdAt a (right i) > rdAt a (left i)
    · rw [if_pos h2]; right; exact h2.1
    · rw [if_neg h2]; right; exact h1.1
  · rw [if_neg h1]
    by_cases h2 : right i < m ∧ rdAt a (right i) > rdAt a i
    · rw [if_pos h2]; right; exact h2.1
    · rw [if_neg h2]; left; trivial

theorem pick_append (a b : List Int) (m : Nat) (i : Int) (hm : m ≤ a.length)
    (hi : i < a.length) : pick (a ++ b) m i = pick a m i := by
  have key : ∀ x : Int, x < m → rdAt (a ++ b) x = rdAt a x :=
    fun x hx => rdAt_append_left _ _ _ (by omega)
  unfold pick
  rw [rdAt_append_left _ _ _ hi]
  by_cases h1 : left i < m
  · rw [key _ h1]
    by_cases h2 : right i < m
    · rw [key _ h2]
      by_cases hc : rdAt a (left i) > rdAt a i
      · simp only [h1, hc, and_self, if_true, key _ h1]
      · simp only [hc, and_false, if_false, rdAt_append_left _ _ _ hi]
    · simp only [h2, false_and, if_false]
  · by_cases h2 : right i < m
    · rw [key _ h2]
      simp only [h1, false_and, if_false, rdAt_append_left _ _ _ hi]
    · simp only [h1, h2, false_and, if_false]

/-- The sift-down in a window that lies inside the first part of a buffer ignores what is
appended behind it. -/
theorem heapifyDownFuel_append (m : Nat) (b : List Int) : ∀ (f : Nat) (a : List Int) (i : Int),
    m ≤ a.length → i < a.length →
      heapifyDownFuel f (a ++ b) m i = heapifyDownFuel f a m i ++ b := by
  intro f
  induction f with
  | zero => intro a i _ _; rfl
  | succ f ih =>
    intro a i hm hi
    rw [heapifyDownFuel_succ, heapifyDownFuel_succ, pick_append _ _ _ _ hm hi]
    rcases pick_eq_or a m i with h | h
    · simp [h]
    · by_cases hp : pick a m i = i
      · simp [hp]
      · rw [if_pos hp, if_pos hp, swapAt_append_left _ _ _ _ hi (by omega)]
        exact ih _ _ (by rw [length_swapAt]; exact hm) (by rw [length_swapAt]; omega)

theorem buildLoop_append (m : Nat) (b : List Int) : ∀ (k : Nat) (a : List Int),
    m ≤ a.length → k ≤ a.length → buildLoop m k (a ++ b) = buildLoop m k a ++ b := by
  intro k
  induction k with
  | zero => intro a _ _; rfl
  | succ k ih =>
    intro a hm hk
    show buildLoop m k (heapifyDown (a ++ b) m k) = buildLoop m k (heapifyDown a m k) ++ b
    unfold heapifyDown
    rw [heapifyDownFuel_append _ _ _ _ _ hm (by omega)]
    exact ih _ (by rw [length_heapifyDownFuel]; exact hm)
      (by rw [length_heapifyDownFuel]; omega)

/-- The buffer of the bulk constructor is the result of the build phase of the heap sort
on the array, followed by the untouched slots beyond `n`. -/
theorem fromArray_heap_eq (arr : List Int) (cap : Nat) (mem : Nat → Int) :
    (fromArray arr cap mem).heap =
      sortBuild arr.length (arr.length / 2) arr ++
        (List.range (max cap arr.length - arr.length)).map (fun k => mem (arr.length + k)) := by
  rw [sortBuild_eq]
  exact buildLoop_append _ _ _ _ (Nat.le_refl _) (Nat.div_le_self _ _)

theorem fromArray_take_eq (arr : List Int) (cap : Nat) (mem : Nat → Int) :
    (fromArray arr cap mem).heap.take arr.length =
      sortBuild arr.length (arr.length / 2) arr := by
  rw [fromArray_heap_eq]
  have hl : (sortBuild arr.length (arr.length / 2) arr).length = arr.length := by
    rw [sortBuild_eq, length_buildLoop]
  rw [List.take_append_of_le_length (by omega), List.take_of_length_le (by omega)]

/-! ### Agreement with the exact-index counterparts below the overflow -/

/-- In a window of fewer than `2 ^ 30` slots, started at a node whose child indices fit
in an `int`, the sift-down on `int` indices is the sift-down on exact indices: no index
computation overflows and every access is the access of the exact index. -/
theorem heapifyDownFuel_eq_nat (m : Nat) (hm : m < 2 ^ 30) : ∀ (f : Nat) (a : List Int) (i : Nat),
    2 * i + 2 < 2 ^ 31 → heapifyDownFuel f a m (i : Int) = heapifyDownFuelNat f a m i := by
  intro f
  induction f with
  | zero => intro a i _; rfl
  | succ f ih =>
    intro a i hi
    rw [heapifyDownFuel_succ, heapifyDownFuelNat_succ, pick_natCast a m i hi, swapAt_natCast]
    rcases pickNat_eq_or a m i with h | h
    · simp [h]
    · rw [if_pos (by omega), if_pos (by omega)]
      exact ih _ _ (by omega)

/-- Below the overflow any two budgets of at least `m - i` calls give the same result:
the recursion ends by itself, not by exhausting the budget. -/
theorem heapifyDownFuel_stable (m : Nat) (hm : m < 2 ^ 30) (f g : Nat) (a : List Int)
    (i : Nat) (hi : 2 * i + 2 < 2 ^ 31) (hf : m - i ≤ f) (hg : m - i ≤ g) :
    heapifyDownFuel f a m (i : Int) = heapifyDownFuel g a m (i : Int) := by
  rw [heapifyDownFuel_eq_nat m hm f a i hi, heapifyDownFuel_eq_nat m hm g a i hi]
  exact heapifyDownFuelNat_stable m f g a i hf hg

theorem heapifyDown_eq_nat (a : List Int) (m i : Nat) (hm : m < 2 ^ 30)
    (hi : 2 * i + 2 < 2 ^ 31) : heapifyDown a m (i : Int) = heapifyDownNat a m i :=
  heapifyDownFuel_eq_nat m hm _ _ _ hi

theorem deleteMaxLoop_eq_nat (a : List Int) (m i : Nat) (hm : m < 2 ^ 30)
    (hi : 2 * i + 2 < 2 ^ 31) : deleteMaxLoop a m (i : Int) = deleteMaxLoopNat a m i := by
  rw [deleteMaxLoop_eq, deleteMaxLoopNat_eq, heapifyDown_eq_nat a m i hm hi]

theorem sortLoop_eq_nat (a : List Int) (m i : Nat) (hm : m < 2 ^ 30)
    (hi : 2 * i + 2 < 2 ^ 31) : sortLoop a m (i : Int) = sortLoopNat a m i := by
  rw [sortLoop_eq, sortLoopNat_eq, heapifyDown_eq_nat a m i hm hi]

theorem buildLoop_eq_nat (m : Nat) (hm : m < 2 ^ 30) : ∀ (k : Nat) (a : List Int),
    k ≤ m → buildLoop m k a = buildLoopNat m k a := by
  intro k
  induction k with
  | zero => intro a _; rfl
  | succ k ih =>
    intro a hk
    show buildLoop m k (heapifyDown a m (k : Int)) = buildLoopNat m k (heapifyDownNat a m k)
    rw [heapifyDown_eq_nat a m k hm (by omega)]
    exact ih _ (by omega)

theorem sortBuild_eq_nat (m : Nat) (hm : m < 2 ^ 30) (k : Nat) (a : List Int) (hk : k ≤ m) :
    sortBuild m k a = sortBuildNat m k a := by
  rw [sortBuild_eq, sortBuildNat_eq, buildLoop_eq_nat m hm k a hk]

/-- The bulk constructor on an array of fewer than `2 ^ 30` elements. -/
theorem fromArray_eq_nat (arr : List Int) (cap : Nat) (mem : Nat → Int)
    (h : arr.length < 2 ^ 30) : fromArray arr cap mem = fromArrayNat arr cap mem := by
  unfold fromArray fromArrayNat
  simp only
  rw [buildLoop_eq_nat _ h _ _ (Nat.div_le_self _ _)]

/-- The method `deleteMax` on a heap of at most `2 ^ 30` elements: the sift-down then runs
in a window of fewer than `2 ^ 30` slots. -/
theorem deleteMax_eq_nat (s : MaxHeap) (h : s.heapSize ≤ 2 ^ 30) :
    s.deleteMax = s.deleteMaxNat := by
  by_cases h0 : s.heapSize = 0
  · rw [deleteMax_empty _ h0, deleteMaxNat_empty _ h0]
  · obtain ⟨n, hn⟩ := Nat.exists_eq_succ_of_ne_zero h0
    rw [deleteMax_succ _ n hn, deleteMaxNat_succ _ n hn]
    have := heapifyDown_eq_nat (s.heap.set 0 (rd s.heap n)) n 0 (by omega) (by omega)
    rw [← this]; rfl

theorem step_eq_nat (s : MaxHeap) (op : HeapOp) (h : s.heapSize ≤ 2 ^ 30) :
    s.step op = s.stepNat op := by
  cases op with
  | insert key => rfl
  | extract => show s.deleteMax.2 = s.deleteMaxNat.2; rw [deleteMax_eq_nat s h]
  | peek => rfl

/-- Runs of interface calls on a well-formed heap of capacity at most `2 ^ 30`. -/
theorem run_eq_nat (ops : List HeapOp) : ∀ (s : MaxHeap), s.WF → s.capacity ≤ 2 ^ 30 →
    s.run ops = s.runNat ops := by
  induction ops with
  | nil => intro s _ _; rfl
  | cons op ops ih =>
    intro s hw hc
    show (s.step op).run ops = (s.stepNat op).runNat ops
    rw [← step_eq_nat s op (by have := hw.2; omega)]
    exact ih _ (step_WF s op hw) (by rw [step_capacity]; exact hc)

theorem drain_eq_nat : ∀ (k : Nat) (s : MaxHeap), s.heapSize ≤ 2 ^ 30 →
    s.drain k = s.drainNat k := by
  intro k
  induction k with
  | zero => intro s _; rfl
  | succ k ih =>
    intro s h
    show s.deleteMax.1 :: s.deleteMax.2.drain k = s.deleteMaxNat.1 :: s.deleteMaxNat.2.drainNat k
    rw [← deleteMax_eq_nat s h]
    rw [ih _ (by rw [deleteMax_heapSize]; omega)]

theorem sortExtract_eq_nat : ∀ (e : Nat) (a : List Int), e ≤ 2 ^ 30 →
    sortExtract e a = sortExtractNat e a := by
  intro e
  induction e with
  | zero => intro a _; rfl
  | succ e ih =>
    intro a he
    show sortExtract e ((sortLoop (a.set 0 (rd a e)) e 0).set e (rd a 0)) =
      sortExtractNat e ((sortLoopNat (a.set 0 (rd a e)) e 0).set e (rd a 0))
    have := sortLoop_eq_nat (a.set 0 (rd a e)) e 0 (by omega) (by omega)
    rw [← this]
    exact ih _ (by omega)

/-- The heap sort on an array of fewer than `2 ^ 30` elements. -/
theorem heapSort_eq_nat (arr : List Int) (h : arr.length < 2 ^ 30) :
    heapSort arr = heapSortNat arr := by
  unfold heapSort heapSortNat
  rw [sortBuild_eq_nat _ h _ _ (Nat.div_le_self _ _), sortExtract_eq_nat _ _ (by omega)]

theorem sortExtractSteps_eq_nat : ∀ (k e : Nat) (a : List Int), e ≤ 2 ^ 30 →
    sortExtractSteps k e a = sortExtractStepsNat k e a := by
  intro k
  induction k with
  | zero => intro e a _; rfl
  | succ k ih =>
    intro e a he
    cases e with
    | zero => rfl
    | succ e =>
      show sortExtractSteps k e ((sortLoop (a.set 0 (rd a e)) e 0).set e (rd a 0)) =
        sortExtractStepsNat k e ((sortLoopNat (a.set 0 (rd a e)) e 0).set e (rd a 0))
      have := sortLoop_eq_nat (a.set 0 (rd a e)) e 0 (by omega) (by omega)
      rw [← this]
      exact ih _ _ (by omega)

theorem sortAfter_eq_nat (arr : List Int) (k : Nat) (h : arr.length < 2 ^ 30) :
    sortAfter arr k = sortAfterNat arr k := by
  unfold sortAfter sortAfterNat
  rw [sortBuild_eq_nat _ h _ _ (Nat.div_le_self _ _), sortExtractSteps_eq_nat _ _ _ (by omega)]

/-- Below the overflow the recursive method satisfies its defining equation: compare, and
if a child wins swap and recurse on it. -/
theorem heapifyDown_unfold (a : List Int) (m i : Nat) (hm : m < 2 ^ 30)
    (hi : 2 * i + 2 < 2 ^ 31) :
    heapifyDown a m (i : Int) =
      if pick a m (i : Int) ≠ (i : Int) then
        heapifyDown (swapAt a (i : Int) (pick a m (i : Int))) m (pick a m (i : Int))
      else a := by
  rw [heapifyDown_eq_nat a m i hm hi, heapifyDownNat_unfold, pick_natCast a m i hi,
    swapAt_natCast]
  rcases pickNat_eq_or a m i with h | h
  · simp [h]
  · rw [if_pos (by omega), if_pos (by omega), heapifyDown_eq_nat _ m _ hm (by omega)]

end MaxHeap

/-! ## The sift-down of `MinHeap` on `int` indices, through negation -/

namespace MinHeap

theorem pick_eq_neg (a : List Int) (m : Nat) (i : Int) :
    pick a m i = MaxHeap.pick (neg a) m i := by
  unfold pick MaxHeap.pick
  simp only [rdAt_neg]
  have e1 : (left i < m ∧ rdAt a (left i) < rdAt a i) ↔
      (MaxHeap.left i < m ∧ -rdAt a (MaxHeap.left i) > -rdAt a i) := by
    show (left i < m ∧ _) ↔ (left i < m ∧ -rdAt a (left i) > _)
    constructor <;> (rintro ⟨h1, h2⟩; exact ⟨h1, by omega⟩)
  by_cases h : left i < m ∧ rdAt a (left i) < rdAt a i
  · rw [if_pos h, if_pos (e1.mp h)]
    have e2 : (right i < m ∧ rdAt a (right i) < rdAt a (left i)) ↔
        (MaxHeap.right i < m ∧ -rdAt a (MaxHeap.right i) > -rdAt a (MaxHeap.left i)) := by
      show (right i < m ∧ _) ↔ (right i < m ∧ -rdAt a (right i) > -rdAt a (left i))
      constructor <;> (rintro ⟨h1, h2⟩; exact ⟨h1, by omega⟩)
    by_cases h2 : right i < m ∧ rdAt a (right i) < rdAt a (left i)
    · rw [if_pos h2, if_pos (e2.mp h2)]; rfl
    · rw [if_neg h2, if_neg (fun c => h2 (e2.mpr c))]; rfl
  · rw [if_neg h, if_neg (fun c => h (e1.mpr c))]
    have e2 : (right i < m ∧ rdAt a (right i) < rdAt a i) ↔
        (MaxHeap.right i < m ∧ -rdAt a (MaxHeap.right i) > -rdAt a i) := by
      show (right i < m ∧ _) ↔ (right i < m ∧ -rdAt a (right i) > -rdAt a i)
      constructor <;> (rintro ⟨h1, h2⟩; exact ⟨h1, by omega⟩)
    by_cases h2 : right i < m ∧ rdAt a (right i) < rdAt a i
    · rw [if_pos h2, if_pos (e2.mp h2)]; rfl
    · rw [if_neg h2, if_neg (fun c => h2 (e2.mpr c))]

theorem heapifyDownFuel_eq_neg : ∀ (f : Nat) (a : List Int) (m : Nat) (i : Int),
    heapifyDownFuel f a m i = neg (MaxHeap.heapifyDownFuel f (neg a) m i) := by
  intro f
  induction f with
  | zero => intro a m i; show a = neg (neg a); rw [neg_neg]
  | succ f ih =>
    intro a m i
    show (if pick a m i ≠ i then heapifyDownFuel f (swapAt a i (pick a m i)) m (pick a m i)
      else a) = _
    rw [MaxHeap.heapifyDownFuel_succ, ← pick_eq_neg]
    split_ifs with h
    · rw [ih, swapAt_neg]
    · rw [neg_neg]

theorem heapifyDown_eq_neg (a : List Int) (m : Nat) (i : Int) :
    heapifyDown a m i = neg (MaxHeap.heapifyDown (neg a) m i) :=
  heapifyDownFuel_eq_neg _ _ _ _

theorem deleteMinLoopFuel_eq_neg : ∀ (f : Nat) (a : List Int) (m : Nat) (i : Int),
    deleteMinLoopFuel f a m i = neg (MaxHeap.heapifyDownFuel f (neg a) m i) := by
  intro f
  induction f with
  | zero => intro a m i; show a = neg (neg a); rw [neg_neg]
  | succ f ih =>
    intro a m i
    show (if pick a m i = i then a
      else deleteMinLoopFuel f (swapAt a i (pick a m i)) m (pick a m i)) = _
    rw [MaxHeap.heapifyDownFuel_succ, ← pick_eq_neg]
    by_cases h : pick a m i = i
    · rw [if_pos h, if_neg (by simp [h]), neg_neg]
    · rw [if_neg h, if_pos h, ih, swapAt_neg]

theorem deleteMinLoop_eq_neg (a : List Int) (m : Nat) (i : Int) :
    deleteMinLoop a m i = neg (MaxHeap.heapifyDown (neg a) m i) :=
  deleteMinLoopFuel_eq_neg _ _ _ _

theorem sortLoopFuel_eq_neg : ∀ (f : Nat) (a : List Int) (m : Nat) (i : Int),
    sortLoopFuel f a m i = neg (MaxHeap.heapifyDownFuel f (neg a) m i) := by
  intro f
  induction f with
  | zero => intro a m i; show a = neg (neg a); rw [neg_neg]
  | succ f ih =>
    intro a m i
    show (if pick a m i = i then a
      else sortLoopFuel f (swapAt a i (pick a m i)) m (pick a m i)) = _
    rw [MaxHeap.heapifyDownFuel_succ, ← pick_eq_neg]
    by_cases h : pick a m i = i
    · rw [if_pos h, if_neg (by simp [h]), neg_neg]
    · rw [if_neg h, if_pos h, ih, swapAt_neg]

theorem sortLoop_eq_neg (a : List Int) (m : Nat) (i : Int) :
    sortLoop a m i = neg (MaxHeap.heapifyDown (neg a) m i) :=
  sortLoopFuel_eq_neg _ _ _ _

theorem buildLoop_eq_neg (m : Nat) : ∀ (k : Nat) (a : List Int),
    buildLoop m k a = neg (MaxHeap.buildLoop m k (neg a)) := by
  intro k
  induction k with
  | zero => intro a; show a = neg (neg a); rw [neg_neg]
  | succ k ih =>
    intro a
    show buildLoop m k (heapifyDown a m k) =
      neg (MaxHeap.buildLoop m k (MaxHeap.heapifyDown (neg a) m k))
    rw [ih, heapifyDown_eq_neg, neg_neg]

theorem sortBuild_eq_neg (m : Nat) : ∀ (k : Nat) (a : List Int),
    sortBuild m k a = neg (MaxHeap.sortBuild m k (neg a)) := by
  intro k
  induction k with
  | zero => intro a; show a = neg (neg a); rw [neg_neg]
  | succ k ih =>
    intro a
    show sortBuild m k (sortLoop a m k) =
      neg (MaxHeap.sortBuild m k (MaxHeap.sortLoop (neg a) m k))
    rw [ih, sortLoop_eq_neg, MaxHeap.sortLoop_eq, neg_neg]

theorem sortExtract_eq_neg : ∀ (e : Nat) (a : List Int),
    sortExtract e a = neg (MaxHeap.sortExtract e (neg a)) := by
  intro e
  induction e with
  | zero => intro a; show a = neg (neg a); rw [neg_neg]
  | succ e ih =>
    intro a
    show sortExtract e ((sortLoop (a.set 0 (rd a e)) e 0).set e (rd a 0)) =
      neg (MaxHeap.sortExtract e
        ((MaxHeap.sortLoop ((neg a).set 0 (rd (neg a) e)) e 0).set e (rd (neg a) 0)))
    rw [ih, sortLoop_eq_neg, MaxHeap.sortLoop_eq, neg_set, neg_neg, neg_set, rd_neg, rd_neg]

/-- The heap sort of `min_heap.cpp` is the heap sort of `max_heap.cpp` on the negated
array, negated back. -/
theorem heapSort_eq_neg (a : List Int) : heapSort a = neg (MaxHeap.heapSort (neg a)) := by
  unfold heapSort MaxHeap.heapSort
  rw [sortExtract_eq_neg, sortBuild_eq_neg, neg_neg, length_neg]

theorem sortExtractSteps_eq_neg : ∀ (k e : Nat) (a : List Int),
    sortExtractSteps k e a = neg (MaxHeap.sortExtractSteps k e (neg a)) := by
  intro k
  induction k with
  | zero => intro e a; show a = neg (neg a); rw [neg_neg]
  | succ k ih =>
    intro e a
    cases e with
    | zero => show a = neg (neg a); rw [neg_neg]
    | succ e =>
      show sortExtractSteps k e ((sortLoop (a.set 0 (rd a e)) e 0).set e (rd a 0)) =
        neg (MaxHeap.sortExtractSteps k e
          ((MaxHeap.sortLoop ((neg a).set 0 (rd (neg a) e)) e 0).set e (rd (neg a) 0)))
      rw [ih, sortLoop_eq_neg, MaxHeap.sortLoop_eq, neg_set, neg_neg, neg_set, rd_neg, rd_neg]

theorem sortAfter_eq_neg (arr : List Int) (k : Nat) :
    sortAfter arr k = neg (MaxHeap.sortAfter (neg arr) k) := by
  unfold sortAfter MaxHeap.sortAfter
  rw [sortExtractSteps_eq_neg, sortBuild_eq_neg, neg_neg, length_neg]

/-! ### The objects -/

theorem deleteMin_empty (s : MinHeap) (h : s.heapSize = 0) : s.deleteMin = (-1, s) := by
  unfold deleteMin; rw [if_pos h]

theorem deleteMin_succ (s : MinHeap) (n : Nat) (h : s.heapSize = n + 1) :
    s.deleteMin =
      (rd s.heap 0,
        { heap := neg (MaxHeap.heapifyDown ((neg s.heap).set 0 (rd (neg s.heap) n)) n 0),
          capacity := s.capacity, heapSize := n }) := by
  unfold deleteMin
  rw [if_neg (by omega)]
  simp only [h, Nat.add_sub_cancel, deleteMinLoop_eq_neg, neg_set, rd_neg]
  by_cases hn : n > 0
  · simp only [hn, if_true]
  · have : n = 0 := by omega
    subst this
    simp [MaxHeap.heapifyDown_zero, neg_neg, neg_set]

theorem toMax_deleteMin (s : MinHeap) : s.deleteMin.2.toMax = s.toMax.deleteMax.2 := by
  by_cases h : s.heapSize = 0
  · rw [deleteMin_empty _ h, MaxHeap.deleteMax_empty _ (by exact h)]
  · obtain ⟨n, hn⟩ := Nat.exists_eq_succ_of_ne_zero h
    rw [deleteMin_succ _ n hn, MaxHeap.deleteMax_succ s.toMax n (by exact hn)]
    show ({ heap := neg (neg _), capacity := s.capacity, heapSize := n } : MaxHeap) = _
    rw [neg_neg]; rfl

theorem deleteMin_fst (s : MinHeap) (h : s.heapSize ≠ 0) :
    s.deleteMin.1 = - s.toMax.deleteMax.1 := by
  obtain ⟨n, hn⟩ := Nat.exists_eq_succ_of_ne_zero h
  rw [deleteMin_succ _ n hn, MaxHeap.deleteMax_succ s.toMax n (by exact hn)]
  show rd s.heap 0 = - rd (neg s.heap) 0
  rw [rd_neg]; omega

theorem deleteMin_root (s : MinHeap) (h : s.heapSize ≠ 0) : s.deleteMin.1 = rd s.heap 0 := by
  obtain ⟨n, hn⟩ := Nat.exists_eq_succ_of_ne_zero h
  rw [deleteMin_succ _ n hn]

theorem deleteMin_capacity (s : MinHeap) : s.deleteMin.2.capacity = s.capacity := by
  have := MaxHeap.deleteMax_capacity s.toMax
  rw [← toMax_deleteMin] at this
  exact this

theorem deleteMin_heapSize (s : MinHeap) : s.deleteMin.2.heapSize = s.heapSize - 1 := by
  have := MaxHeap.deleteMax_heapSize s.toMax
  rw [← toMax_deleteMin] at this
  exact this

theorem deleteMin_WF (s : MinHeap) (hw : s.WF) : s.deleteMin.2.WF := by
  rw [← toMax_WF, toMax_deleteMin]
  exact MaxHeap.deleteMax_WF _ ((toMax_WF s).mpr hw)

theorem toMax_fromArray (arr : List Int) (cap : Nat) (mem : Nat → Int) :
    (fromArray arr cap mem).toMax = MaxHeap.fromArray (neg arr) cap (fun k => - mem k) := by
  unfold fromArray MaxHeap.fromArray toMax
  simp only [buildLoop_eq_neg, neg_neg, length_neg]
  congr 2
  simp [neg, List.map_append]

theorem fromArray_WF_min (arr : List Int) (cap : Nat) (mem : Nat → Int) :
    (fromArray arr cap mem).WF := by
  rw [← toMax_WF, toMax_fromArray]
  exact MaxHeap.fromArray_WF _ _ _

theorem step_WF_min (s : MinHeap) (op : HeapOp) (hw : s.WF) : (s.step op).WF := by
  cases op with
  | insert key => exact insert_WF_min s key hw
  | extract => exact deleteMin_WF s hw
  | peek => exact hw

theorem run_WF_min (ops : List HeapOp) : ∀ (s : MinHeap), s.WF → (s.run ops).WF := by
  induction ops with
  | nil => intro s hw; exact hw
  | cons op ops ih => intro s hw; exact ih (s.step op) (step_WF_min s op hw)

theorem step_capacity_min (s : MinHeap) (op : HeapOp) : (s.step op).capacity = s.capacity := by
  cases op with
  | insert key => exact insert_capacity_min s key
  | extract => exact deleteMin_capacity s
  | peek => rfl

theorem run_capacity_min (ops : List HeapOp) :
    ∀ (s : MinHeap), (s.run ops).capacity = s.capacity := by
  induction ops with
  | nil => intro s; rfl
  | cons op ops ih =>
    intro s
    show ((s.step op).run ops).capacity = _
    rw [ih, step_capacity_min]

theorem run_size_balance_min (ops : List HeapOp) : ∀ (s : MinHeap),
    (s.run ops).heapSize + s.extractsDone ops = s.heapSize + s.insertsDone ops := by
  induction ops with
  | nil => intro s; rfl
  | cons op ops ih =>
    intro s
    cases op with
    | insert key =>
      show ((s.insert key).run ops).heapSize + (s.insert key).extractsDone ops =
        s.heapSize + ((if s.heapSize = s.capacity then 0 else 1) + (s.insert key).insertsDone ops)
      have h1 := ih (s.insert key)
      have h2 := insert_size_min s key
      split_ifs at h2 ⊢ <;> omega
    | extract =>
      show (s.deleteMin.2.run ops).heapSize +
          ((if s.heapSize = 0 then 0 else 1) + s.deleteMin.2.extractsDone ops) =
        s.heapSize + s.deleteMin.2.insertsDone ops
      have h1 := ih s.deleteMin.2
      have h2 := deleteMin_heapSize s
      split_ifs <;> omega
    | peek => exact ih s

theorem deleteMinLoop_eq (a : List Int) (m : Nat) (i : Int) :
    deleteMinLoop a m i = heapifyDown a m i := by
  rw [deleteMinLoop_eq_neg, heapifyDown_eq_neg]

theorem sortLoop_eq_min (a : List Int) (m : Nat) (i : Int) :
    sortLoop a m i = heapifyDown a m i := by
  rw [sortLoop_eq_neg, heapifyDown_eq_neg]

theorem sortBuild_eq_min (m : Nat) (k : Nat) (a : List Int) :
    sortBuild m k a = buildLoop m k a := by
  rw [sortBuild_eq_neg, buildLoop_eq_neg, MaxHeap.sortBuild_eq]

theorem fromArray_take_eq_min (arr : List Int) (cap : Nat) (mem : Nat → Int) :
    (fromArray arr cap mem).heap.take arr.length =
      sortBuild arr.length (arr.length / 2) arr := by
  have h := MaxHeap.fromArray_take_eq (neg arr) cap (fun k => - mem k)
  rw [← toMax_fromArray, length_neg] at h
  have e : (fromArray arr cap mem).toMax.heap = neg (fromArray arr cap mem).heap := rfl
  rw [e, take_neg] at h
  rw [sortBuild_eq_neg, ← h, neg_neg]

theorem toMax_step (t : MinHeap) (op : HeapOp) : (t.step op).toMax = t.toMax.step op.negate := by
  cases op with
  | insert key => exact toMax_insert t key
  | extract => exact toMax_deleteMin t
  | peek => rfl

theorem toMax_run (ops : List HeapOp) : ∀ (t : MinHeap),
    (t.run ops).toMax = t.toMax.run (ops.map HeapOp.negate) := by
  induction ops with
  | nil => intro t; rfl
  | cons op ops ih =>
    intro t
    show ((t.step op).run ops).toMax = (t.toMax.step op.negate).run (ops.map HeapOp.negate)
    rw [ih, toMax_step]

/-! ### Agreement with the exact-index counterparts below the overflow -/

theorem heapifyDownFuel_succ_min (fuel : Nat) (a : List Int) (m : Nat) (i : Int) :
    heapifyDownFuel (fuel + 1) a m i =
      if pick a m i ≠ i then heapifyDownFuel fuel (swapAt a i (pick a m i)) m (pick a m i)
      else a := rfl

theorem pick_natCast_min (a : List Int) (m i : Nat) (h : 2 * i + 2 < 2 ^ 31) :
    pick a m (i : Int) = (pickNat a m i : Nat) := by
  rw [pick_eq_neg, MaxHeap.pick_natCast _ m i h, pickNat_eq_neg]

theorem heapifyDownFuel_eq_nat_min (m : Nat) (hm : m < 2 ^ 30) (f : Nat) (a : List Int)
    (i : Nat) (hi : 2 * i + 2 < 2 ^ 31) :
    heapifyDownFuel f a m (i : Int) = heapifyDownFuelNat f a m i := by
  rw [heapifyDownFuel_eq_neg, MaxHeap.heapifyDownFuel_eq_nat m hm f _ i hi,
    heapifyDownFuelNat_eq_neg]

/-- Below the overflow any two budgets of at least `m - i` calls give the same result. -/
theorem heapifyDownFuel_stable_min (m : Nat) (hm : m < 2 ^ 30) (f g : Nat) (a : List Int)
    (i : Nat) (hi : 2 * i + 2 < 2 ^ 31) (hf : m - i ≤ f) (hg : m - i ≤ g) :
    heapifyDownFuel f a m (i : Int) = heapifyDownFuel g a m (i : Int) := by
  rw [heapifyDownFuel_eq_nat_min m hm f a i hi, heapifyDownFuel_eq_nat_min m hm g a i hi]
  exact heapifyDownFuelNat_stable_min m f g a i hf hg

theorem heapifyDown_eq_nat_min (a : List Int) (m i : Nat) (hm : m < 2 ^ 30)
    (hi : 2 * i + 2 < 2 ^ 31) : heapifyDown a m (i : Int) = heapifyDownNat a m i := by
  rw [heapifyDown_eq_neg, MaxHeap.heapifyDown_eq_nat _ m i hm hi, heapifyDownNat_eq_neg]

theorem deleteMinLoop_eq_nat (a : List Int) (m i : Nat) (hm : m < 2 ^ 30)
    (hi : 2 * i + 2 < 2 ^ 31) : deleteMinLoop a m (i : Int) = deleteMinLoopNat a m i := by
  rw [deleteMinLoop_eq, deleteMinLoopNat_eq, heapifyDown_eq_nat_min a m i hm hi]

theorem sortLoop_eq_nat_min (a : List Int) (m i : Nat) (hm : m < 2 ^ 30)
    (hi : 2 * i + 2 < 2 ^ 31) : sortLoop a m (i : Int) = sortLoopNat a m i := by
  rw [sortLoop_eq_min, sortLoopNat_eq_min, heapifyDown_eq_nat_min a m i hm hi]

theorem buildLoop_eq_nat_min (m : Nat) (hm : m < 2 ^ 30) : ∀ (k : Nat) (a : List Int),
    k ≤ m → buildLoop m k a = buildLoopNat m k a := by
  intro k
  induction k with
  | zero => intro a _; rfl
  | succ k ih =>
    intro a hk
    show buildLoop m k (heapifyDown a m (k : Int)) = buildLoopNat m k (heapifyDownNat a m k)
    rw [heapifyDown_eq_nat_min a m k hm (by omega)]
    exact ih _ (by omega)

theorem sortBuild_eq_nat_min (m : Nat) (hm : m < 2 ^ 30) (k : Nat) (a : List Int)
    (hk : k ≤ m) : sortBuild m k a = sortBuildNat m k a := by
  rw [sortBuild_eq_min, sortBuildNat_eq_min, buildLoop_eq_nat_min m hm k a hk]

/-- The bulk constructor on an array of fewer than `2 ^ 30` elements. -/
theorem fromArray_eq_nat_min (arr : List Int) (cap : Nat) (mem : Nat → Int)
    (h : arr.length < 2 ^ 30) : fromArray arr cap mem = fromArrayNat arr cap mem := by
  unfold fromArray fromArrayNat
  simp only
  rw [buildLoop_eq_nat_min _ h _ _ (Nat.div_le_self _ _)]

/-- The method `deleteMin` on a heap of at most `2 ^ 30` elements. -/
theorem deleteMin_eq_nat (s : MinHeap) (h : s.heapSize ≤ 2 ^ 30) :
    s.deleteMin = s.deleteMinNat := by
  by_cases h0 : s.heapSize = 0
  · rw [deleteMin_empty _ h0, deleteMinNat_empty _ h0]
  · obtain ⟨n, hn⟩ := Nat.exists_eq_succ_of_ne_zero h0
    rw [deleteMin_succ _ n hn, deleteMinNat_succ _ n hn]
    have := MaxHeap.heapifyDown_eq_nat ((neg s.heap).set 0 (rd (neg s.heap) n)) n 0
      (by omega) (by omega)
    rw [← this]; rfl

theorem step_eq_nat_min (s : MinHeap) (op : HeapOp) (h : s.heapSize ≤ 2 ^ 30) :
    s.step op = s.stepNat op := by
  cases op with
  | insert key => rfl
  | extract => show s.deleteMin.2 = s.deleteMinNat.2; rw [deleteMin_eq_nat s h]
  | peek => rfl

/-- Runs of interface calls on a well-formed heap of capacity at most `2 ^ 30`. -/
theorem run_eq_nat_min (ops : List HeapOp) : ∀ (s : MinHeap), s.WF → s.capacity ≤ 2 ^ 30 →
    s.run ops = s.runNat ops := by
  induction ops with
  | nil => intro s _ _; rfl
  | cons op ops ih =>
    intro s hw hc
    show (s.step op).run ops = (s.stepNat op).runNat ops
    rw [← step_eq_nat_min s op (by have := hw.2; omega)]
    exact ih _ (step_WF_min s op hw) (by rw [step_capacity_min]; exact hc)

theorem drain_eq_nat_min : ∀ (k : Nat) (s : MinHeap), s.heapSize ≤ 2 ^ 30 →
    s.drain k = s.drainNat k := by
  intro k
  induction k with
  | zero => intro s _; rfl
  | succ k ih =>
    intro s h
    show s.deleteMin.1 :: s.deleteMin.2.drain k = s.deleteMinNat.1 :: s.deleteMinNat.2.drainNat k
    rw [← deleteMin_eq_nat s h]
    rw [ih _ (by rw [deleteMin_heapSize]; omega)]

theorem sortExtract_eq_nat_min : ∀ (e : Nat) (a : List Int), e ≤ 2 ^ 30 →
    sortExtract e a = sortExtractNat e a := by
  intro e
  induction e with
  | zero => intro a _; rfl
  | succ e ih =>
    intro a he
    show sortExtract e ((sortLoop (a.set 0 (rd a e)) e 0).set e (rd a 0)) =
      sortExtractNat e ((sortLoopNat (a.set 0 (rd a e)) e 0).set e (rd a 0))
    have := sortLoop_eq_nat_min (a.set 0 (rd a e)) e 0 (by omega) (by omega)
    rw [← this]
    exact ih _ (by omega)

/-- The heap sort on an array of fewer than `2 ^ 30` elements. -/
theorem heapSort_eq_nat_min (arr : List Int) (h : arr.length < 2 ^ 30) :
    heapSort arr = heapSortNat arr := by
  unfold heapSort heapSortNat
  rw [sortBuild_eq_nat_min _ h _ _ (Nat.div_le_self _ _), sortExtract_eq_nat_min _ _ (by omega)]

theorem sortExtractSteps_eq_nat_min : ∀ (k e : Nat) (a : List Int), e ≤ 2 ^ 30 →
    sortExtractSteps k e a = sortExtractStepsNat k e a := by
  intro k
  induction k with
  | zero => intro e a _; rfl
  | succ k ih =>
    intro e a he
    cases e with
    | zero => rfl
    | succ e =>
      show sortExtractSteps k e ((sortLoop (a.set 0 (rd a e)) e 0).set e (rd a 0)) =
        sortExtractStepsNat k e ((sortLoopNat (a.set 0 (rd a e)) e 0).set e (rd a 0))
      have := sortLoop_eq_nat_min (a.set 0 (rd a e)) e 0 (by omega) (by omega)
      rw [← this]
      exact ih _ _ (by omega)

theorem sortAfter_eq_nat_min (arr : List Int) (k : Nat) (h : arr.length < 2 ^ 30) :
    sortAfter arr k = sortAfterNat arr k := by
  unfold sortAfter sortAfterNat
  rw [sortBuild_eq_nat_min _ h _ _ (Nat.div_le_self _ _),
    sortExtractSteps_eq_nat_min _ _ _ (by omega)]

end MinHeap

/-! ## The operations depend on the live slots only

What `insert`, `deleteMax` and `getMax` return and leave in the live slots is determined
by the size, the capacity and the live slots: the content of the slots beyond the size
(uninitialised memory, stale values) has no influence. -/

namespace MaxHeap

theorem insertLoopFuel_append (b : List Int) : ∀ (f : Nat) (a : List Int) (i : Nat),
    i < a.length → insertLoopFuel f (a ++ b) i = insertLoopFuel f a i ++ b := by
  intro f
  induction f with
  | zero => intro a i _; rfl
  | succ f ih =>
    intro a i hi
    have hp : parent i < a.length := by unfold parent; omega
    rw [insertLoopFuel_succ, insertLoopFuel_succ, rd_append_left _ _ _ hi,
      rd_append_left _ _ _ hp]
    split_ifs with h
    · rw [swap_append_left _ _ _ _ hi hp]
      exact ih _ _ (by rw [length_swap]; exact hp)
    · rfl

theorem take_insertLoop (a : List Int) (i : Nat) (hi : i < a.length) :
    (insertLoop a i).take (i + 1) = insertLoop (a.take (i + 1)) i := by
  obtain ⟨p, q, rfl, hp⟩ : ∃ p q, a = p ++ q ∧ p.length = i + 1 :=
    ⟨a.take (i + 1), a.drop (i + 1), (List.take_append_drop _ _).symm,
      by rw [List.length_take]; omega⟩
  unfold insertLoop
  rw [insertLoopFuel_append _ _ _ _ (by omega), List.take_left' hp,
    List.take_left' (by rw [length_insertLoopFuel]; exact hp)]

theorem take_heapifyDown (a : List Int) (m : Nat) (i : Int) (hm : m ≤ a.length)
    (hi : i < m) : (heapifyDown a m i).take m = heapifyDown (a.take m) m i := by
  obtain ⟨p, q, rfl, hp⟩ : ∃ p q, a = p ++ q ∧ p.length = m :=
    ⟨a.take m, a.drop m, (List.take_append_drop _ _).symm, by rw [List.length_take]; omega⟩
  unfold heapifyDown
  rw [heapifyDownFuel_append _ _ _ _ _ (by omega) (by omega), List.take_left' hp,
    List.take_left' (by rw [length_heapifyDownFuel]; exact hp)]

theorem insert_live_congr (s u : MaxHeap) (key : Int) (hs : s.WF) (hu : u.WF)
    (hn : s.heapSize = u.heapSize) (hc : s.capacity = u.capacity) (hl : s.live = u.live) :
    (s.insert key).heapSize = (u.insert key).heapSize ∧
      (s.insert key).live = (u.insert key).live := by
  by_cases h : s.heapSize = s.capacity
  · rw [insert_full s key h, insert_full u key (by omega)]
    exact ⟨hn, hl⟩
  · rw [insert_not_full s key h, insert_not_full u key (by omega)]
    refine ⟨by show s.heapSize + 1 = u.heapSize + 1; omega, ?_⟩
    have key1 : ∀ (w : MaxHeap), w.WF → w.heapSize ≠ w.capacity →
        (insertLoop (w.heap.set w.heapSize key) w.heapSize).take (w.heapSize + 1) =
          insertLoop (w.live ++ [key]) w.heapSize := by
      intro w hw hne
      have hlt : w.heapSize < w.heap.length := by have := hw.1; have := hw.2; omega
      rw [take_insertLoop _ _ (by rw [List.length_set]; exact hlt),
        take_succ_rd _ _ (by rw [List.length_set]; exact hlt),
        take_set_ge _ _ _ _ (Nat.le_refl _), rd_set_self _ _ _ hlt]
      rfl
    show (insertLoop (s.heap.set s.heapSize key) s.heapSize).take (s.heapSize + 1) =
      (insertLoop (u.heap.set u.heapSize key) u.heapSize).take (u.heapSize + 1)
    rw [key1 s hs h, key1 u hu (by omega), hl, hn]

theorem deleteMax_live_congr (s u : MaxHeap) (hs : s.WF) (hu : u.WF)
    (hn : s.heapSize = u.heapSize) (hl : s.live = u.live) :
    s.deleteMax.1 = u.deleteMax.1 ∧ s.deleteMax.2.heapSize = u.deleteMax.2.heapSize ∧
      s.deleteMax.2.live = u.deleteMax.2.live := by
  by_cases h : s.heapSize = 0
  · rw [deleteMax_empty s h, deleteMax_empty u (by omega)]
    exact ⟨rfl, hn, hl⟩
  · obtain ⟨n, hsn⟩ := Nat.exists_eq_succ_of_ne_zero h
    have hun : u.heapSize = n + 1 := by omega
    rw [deleteMax_succ s n hsn, deleteMax_succ u n hun]
    have hl2 : s.heap.take (n + 1) = u.heap.take (n + 1) := by
      have := hl
      unfold live at this
      rw [hsn, hun] at this
      exact this
    have r : ∀ j, j < n + 1 → rd s.heap j = rd u.heap j := by
      intro j hj
      rw [← rd_take s.heap (n + 1) j hj, ← rd_take u.heap (n + 1) j hj, hl2]
    have tk : s.heap.take n = u.heap.take n := by
      have := congrArg (List.take n) hl2
      rw [List.take_take, List.take_take] at this
      rw [Nat.min_eq_left (Nat.le_succ n)] at this
      exact this
    refine ⟨r 0 (by omega), rfl, ?_⟩
    show (heapifyDown (s.heap.set 0 (rd s.heap n)) n 0).take n =
      (heapifyDown (u.heap.set 0 (rd u.heap n)) n 0).take n
    by_cases hn0 : n = 0
    · subst hn0; rfl
    · have hsl : n ≤ s.heap.length := by have := hs.1; have := hs.2; omega
      have hul : n ≤ u.heap.length := by have := hu.1; have := hu.2; omega
      rw [take_heapifyDown _ _ _ (by rw [List.length_set]; exact hsl) (by omega),
        take_heapifyDown _ _ _ (by rw [List.length_set]; exact hul) (by omega),
        List.set_take, List.set_take, tk, r n (by omega)]

theorem getMax_live_congr (s u : MaxHeap) (hn : s.heapSize = u.heapSize)
    (hl : s.live = u.live) : s.getMax = u.getMax := by
  unfold getMax
  by_cases h : s.heapSize = 0
  · rw [if_pos h, if_pos (by omega)]
  · rw [if_neg h, if_neg (by omega)]
    have e1 := rd_take s.heap s.heapSize 0 (by omega)
    have e2 := rd_take u.heap u.heapSize 0 (by omega)
    unfold live at hl
    rw [← e1, ← e2, hl]

theorem run_live_congr (ops : List HeapOp) : ∀ (s u : MaxHeap), s.WF → u.WF →
    s.heapSize = u.heapSize → s.capacity = u.capacity → s.live = u.live →
    (s.run ops).heapSize = (u.run ops).heapSize ∧
      (s.run ops).capacity = (u.run ops).capacity ∧ (s.run ops).live = (u.run ops).live := by
  induction ops with
  | nil => intro s u _ _ hn hc hl; exact ⟨hn, hc, hl⟩
  | cons op ops ih =>
    intro s u hs hu hn hc hl
    show ((s.step op).run ops).heapSize = ((u.step op).run ops).heapSize ∧
      ((s.step op).run ops).capacity = ((u.step op).run ops).capacity ∧
      ((s.step op).run ops).live = ((u.step op).run ops).live
    have hc2 : (s.step op).capacity = (u.step op).capacity := by
      rw [step_capacity, step_capacity, hc]
    cases op with
    | insert key =>
      obtain ⟨a1, a2⟩ := insert_live_congr s u key hs hu hn hc hl
      exact ih _ _ (insert_WF s key hs) (insert_WF u key hu) a1 hc2 a2
    | extract =>
      obtain ⟨_, a1, a2⟩ := deleteMax_live_congr s u hs hu hn hl
      exact ih _ _ (deleteMax_WF s hs) (deleteMax_WF u hu) a1 hc2 a2
    | peek => exact ih _ _ hs hu hn hc hl

/-- The live slots of a bulk-built heap do not depend on the uninitialised memory. -/
theorem fromArray_live_congr (arr : List Int) (cap : Nat) (mem mem2 : Nat → Int) :
    (fromArray arr cap mem).live = (fromArray arr cap mem2).live := by
  show (fromArray arr cap mem).heap.take arr.length = (fromArray arr cap mem2).heap.take arr.length
  rw [fromArray_take_eq, fromArray_take_eq]

end MaxHeap

namespace MinHeap

/-- What a `MinHeap` state has in common with every `MaxHeap` state that agrees, in size,
capacity and live slots, with the `MaxHeap` state of its negated buffer. -/
theorem corr_of_live (t : MinHeap) (u : MaxHeap) (ht : t.WF) (hu : u.WF)
    (hn : t.toMax.heapSize = u.heapSize) (hc : t.toMax.capacity = u.capacity)
    (hl : t.toMax.live = u.live) :
    t.live = neg u.live ∧ t.size = u.size ∧ t.capacity = u.capacity ∧
      (t.size ≠ 0 → t.deleteMin.1 = - u.deleteMax.1 ∧ t.getMin = - u.getMax) := by
  refine ⟨?_, hn, hc, ?_⟩
  · rw [← hl, toMax_live, neg_neg]
  · intro hne
    rw [deleteMin_fst t hne, getMin_eq_neg t hne,
      (MaxHeap.deleteMax_live_congr t.toMax u ((toMax_WF t).mpr ht) hu hn hl).1,
      MaxHeap.getMax_live_congr t.toMax u hn hl]
    exact ⟨rfl, rfl⟩

end MinHeap

/-! ## Properties of `MaxHeap` below the overflow

The facts proved for the exact-index counterparts, carried over to the definitions on
`int` indices for heaps, windows and arrays in which no child index overflows. -/

namespace MaxHeap

theorem deleteMax_isHeap (s : MaxHeap) (hw : s.WF) (hh : s.IsHeap) (hb : s.heapSize ≤ 2 ^ 30) :
    s.deleteMax.2.IsHeap := by
  rw [deleteMax_eq_nat s hb]; exact deleteMaxNat_isHeap s hw hh

theorem deleteMax_live (s : MaxHeap) (hw : s.WF) (h : s.heapSize ≠ 0) (hb : s.heapSize ≤ 2 ^ 30) :
    List.Perm (s.deleteMax.1 :: s.deleteMax.2.live) s.live := by
  rw [deleteMax_eq_nat s hb]; exact deleteMaxNat_live s hw h

theorem deleteMax_ge (s : MaxHeap) (hw : s.WF) (hh : s.IsHeap) (h : s.heapSize ≠ 0)
    (hb : s.heapSize ≤ 2 ^ 30) : ∀ x ∈ s.live, x ≤ s.deleteMax.1 := by
  rw [deleteMax_eq_nat s hb]; exact deleteMaxNat_ge s hw hh h

theorem fromArray_isHeap (arr : List Int) (cap : Nat) (mem : Nat → Int)
    (hn : arr.length < 2 ^ 30) : (fromArray arr cap mem).IsHeap := by
  rw [fromArray_eq_nat arr cap mem hn]; exact fromArrayNat_isHeap arr cap mem

theorem fromArray_live (arr : List Int) (cap : Nat) (mem : Nat → Int)
    (hn : arr.length < 2 ^ 30) : List.Perm (fromArray arr cap mem).live arr := by
  rw [fromArray_eq_nat arr cap mem hn]; exact fromArrayNat_live arr cap mem

theorem run_inv (ops : List HeapOp) (s : MaxHeap) (hw : s.WF) (hh : s.IsHeap)
    (hc : s.capacity ≤ 2 ^ 30) : (s.run ops).WF ∧ (s.run ops).IsHeap := by
  rw [run_eq_nat ops s hw hc]; exact runNat_inv ops s hw hh

theorem drain_sorted_perm (n : Nat) (s : MaxHeap) (hw : s.WF) (hh : s.IsHeap)
    (hn : s.heapSize = n) (hb : s.heapSize ≤ 2 ^ 30) :
    List.Sorted (· ≥ ·) (s.drain n) ∧ List.Perm (s.drain n) s.live := by
  rw [drain_eq_nat n s hb]; exact drainNat_sorted_perm n s hw hh hn

theorem heapSort_sorted (a : List Int) (h : a.length < 2 ^ 30) :
    List.Sorted (· ≤ ·) (heapSort a) := by
  rw [heapSort_eq_nat a h]; exact heapSortNat_sorted a

theorem heapSort_perm (a : List Int) (h : a.length < 2 ^ 30) :
    List.Perm (heapSort a) a := by
  rw [heapSort_eq_nat a h]; exact heapSortNat_perm a

theorem sortAfter_all (arr : List Int) (h : arr.length < 2 ^ 30) :
    sortAfter arr arr.length = heapSort arr := by
  rw [sortAfter_eq_nat arr _ h, heapSort_eq_nat arr h]; exact sortAfterNat_all arr

theorem perm_sortAfter (arr : List Int) (k : Nat) (h : arr.length < 2 ^ 30) :
    List.Perm (sortAfter arr k) arr := by
  rw [sortAfter_eq_nat arr k h]; exact perm_sortAfterNat arr k

theorem pick_eq_self (a : List Int) (m i : Nat) (hi : 2 * i + 2 < 2 ^ 31)
    (h1 : 2 * i + 1 < m → rd a (2 * i + 1) ≤ rd a i) (h2 : 2 * i + 2 < m → rd a (2 * i + 2) ≤ rd a i) :
    pick a m (i : Int) = (i : Int) := by
  rw [pick_natCast a m i hi, pickNat_eq_self a m i h1 h2]

theorem heapifyDown_eq_self (a : List Int) (m i : Nat) (hi : 2 * i + 2 < 2 ^ 31)
    (h1 : 2 * i + 1 < m → rd a (2 * i + 1) ≤ rd a i) (h2 : 2 * i + 2 < m → rd a (2 * i + 2) ≤ rd a i) :
    heapifyDown a m (i : Int) = a := by
  cases m with
  | zero => rfl
  | succ m =>
    show heapifyDownFuel (m + 1) a (m + 1) (i : Int) = a
    rw [heapifyDownFuel_succ, pick_eq_self a (m + 1) i hi h1 h2]
    simp

theorem fromArray_live_eq_self (arr : List Int) (cap : Nat) (mem : Nat → Int)
    (h : heapOrdered arr arr.length) (hn : arr.length < 2 ^ 30) :
    (fromArray arr cap mem).live = arr := by
  rw [fromArray_eq_nat arr cap mem hn]; exact fromArrayNat_live_eq_self arr cap mem h

theorem heapifyDown_changes (a : List Int) (m i x : Nat) (hb : m < 2 ^ 30)
    (hi : 2 * i + 2 < 2 ^ 31) (h : rd (heapifyDown a m (i : Int)) x ≠ rd a x) :
    MaxHeap.inSubtree i x ∧ x < m := by
  rw [heapifyDown_eq_nat a m i hb hi] at h; exact heapifyDownNat_changes a m i x h

theorem rd_heapifyDown_ge (a : List Int) (m i x : Nat) (hb : m < 2 ^ 30)
    (hi : 2 * i + 2 < 2 ^ 31) (hx : m ≤ x) : rd (heapifyDown a m (i : Int)) x = rd a x := by
  rw [heapifyDown_eq_nat a m i hb hi]; exact rd_heapifyDownNat_ge a m i x hx

theorem rd_heapifyDown_outside (a : List Int) (m i x : Nat) (hb : m < 2 ^ 30)
    (hi : 2 * i + 2 < 2 ^ 31) (hx : ¬ MaxHeap.inSubtree i x) :
    rd (heapifyDown a m (i : Int)) x = rd a x := by
  rw [heapifyDown_eq_nat a m i hb hi]; exact rd_heapifyDownNat_outside a m i x hx

theorem perm_take_heapifyDown (a : List Int) (m i : Nat) (hb : m < 2 ^ 30)
    (hi : 2 * i + 2 < 2 ^ 31) (hm : m ≤ a.length) :
    List.Perm ((heapifyDown a m (i : Int)).take m) (a.take m) := by
  rw [heapifyDown_eq_nat a m i hb hi]; exact perm_take_heapifyDownNat a m i hm

theorem deleteMax_stale (s : MaxHeap) (x : Nat) (hb : s.heapSize ≤ 2 ^ 30)
    (hx : s.deleteMax.2.heapSize ≤ x) : rd s.deleteMax.2.heap x = rd s.heap x := by
  rw [deleteMax_eq_nat s hb] at hx ⊢; exact deleteMaxNat_stale s x hx

theorem sortExtractSteps_one_tail (a : List Int) (e x : Nat) (he : e < 2 ^ 30)
    (hx : e + 1 ≤ x) : rd (sortExtractSteps 1 (e + 1) a) x = rd a x := by
  rw [sortExtractSteps_eq_nat 1 (e + 1) a (by omega)]
  exact sortExtractStepsNat_one_tail a e x hx

end MaxHeap

/-! ## Properties of `MinHeap` below the overflow

The facts proved for the exact-index counterparts, carried over to the definitions on
`int` indices for heaps, windows and arrays in which no child index overflows. -/

namespace MinHeap

theorem deleteMin_isHeap (s : MinHeap) (hw : s.WF) (hh : s.IsHeap) (hb : s.heapSize ≤ 2 ^ 30) :
    s.deleteMin.2.IsHeap := by
  rw [deleteMin_eq_nat s hb]; exact deleteMinNat_isHeap s hw hh

theorem deleteMin_live (s : MinHeap) (hw : s.WF) (h : s.heapSize ≠ 0) (hb : s.heapSize ≤ 2 ^ 30) :
    List.Perm (s.deleteMin.1 :: s.deleteMin.2.live) s.live := by
  rw [deleteMin_eq_nat s hb]; exact deleteMinNat_live s hw h

theorem deleteMin_le (s : MinHeap) (hw : s.WF) (hh : s.IsHeap) (h : s.heapSize ≠ 0)
    (hb : s.heapSize ≤ 2 ^ 30) : ∀ x ∈ s.live, s.deleteMin.1 ≤ x := by
  rw [deleteMin_eq_nat s hb]; exact deleteMinNat_le s hw hh h

theorem fromArray_isHeap_min (arr : List Int) (cap : Nat) (mem : Nat → Int)
    (hn : arr.length < 2 ^ 30) : (fromArray arr cap mem).IsHeap := by
  rw [fromArray_eq_nat_min arr cap mem hn]; exact fromArrayNat_isHeap_min arr cap mem

theorem fromArray_live_min (arr : List Int) (cap : Nat) (mem : Nat → Int)
    (hn : arr.length < 2 ^ 30) : List.Perm (fromArray arr cap mem).live arr := by
  rw [fromArray_eq_nat_min arr cap mem hn]; exact fromArrayNat_live_min arr cap mem

theorem run_inv_min (ops : List HeapOp) (s : MinHeap) (hw : s.WF) (hh : s.IsHeap)
    (hc : s.capacity ≤ 2 ^ 30) : (s.run ops).WF ∧ (s.run ops).IsHeap := by
  rw [run_eq_nat_min ops s hw hc]; exact runNat_inv_min ops s hw hh

theorem drain_sorted_perm_min (n : Nat) (s : MinHeap) (hw : s.WF) (hh : s.IsHeap)
    (hn : s.heapSize = n) (hb : s.heapSize ≤ 2 ^ 30) :
    List.Sorted (· ≤ ·) (s.drain n) ∧ List.Perm (s.drain n) s.live := by
  rw [drain_eq_nat_min n s hb]; exact drainNat_sorted_perm_min n s hw hh hn

theorem heapSort_sorted_min (a : List Int) (h : a.length < 2 ^ 30) :
    List.Sorted (· ≥ ·) (heapSort a) := by
  rw [heapSort_eq_nat_min a h]; exact heapSortNat_sorted_min a

theorem heapSort_perm_min (a : List Int) (h : a.length < 2 ^ 30) :
    List.Perm (heapSort a) a := by
  rw [heapSort_eq_nat_min a h]; exact heapSortNat_perm_min a

theorem sortAfter_all_min (arr : List Int) (h : arr.length < 2 ^ 30) :
    sortAfter arr arr.length = heapSort arr := by
  rw [sortAfter_eq_nat_min arr _ h, heapSort_eq_nat_min arr h]; exact sortAfterNat_all_min arr

theorem perm_sortAfter_min (arr : List Int) (k : Nat) (h : arr.length < 2 ^ 30) :
    List.Perm (sortAfter arr k) arr := by
  rw [sortAfter_eq_nat_min arr k h]; exact perm_sortAfterNat_min arr k

theorem pick_eq_self_min (a : List Int) (m i : Nat) (hi : 2 * i + 2 < 2 ^ 31)
    (h1 : 2 * i + 1 < m → rd a i ≤ rd a (2 * i + 1)) (h2 : 2 * i + 2 < m → rd a i ≤ rd a (2 * i + 2)) :
    pick a m (i : Int) = (i : Int) := by
  rw [pick_natCast_min a m i hi, pickNat_eq_self_min a m i h1 h2]

theorem heapifyDown_eq_self_min (a : List Int) (m i : Nat) (hi : 2 * i + 2 < 2 ^ 31)
    (h1 : 2 * i + 1 < m → rd a i ≤ rd a (2 * i + 1)) (h2 : 2 * i + 2 < m → rd a i ≤ rd a (2 * i + 2)) :
    heapifyDown a m (i : Int) = a := by
  cases m with
  | zero => rfl
  | succ m =>
    show heapifyDownFuel (m + 1) a (m + 1) (i : Int) = a
    rw [heapifyDownFuel_succ_min, pick_eq_self_min a (m + 1) i hi h1 h2]
    simp

theorem fromArray_live_eq_self_min (arr : List Int) (cap : Nat) (mem : Nat → Int)
    (h : heapOrdered arr arr.length) (hn : arr.length < 2 ^ 30) :
    (fromArray arr cap mem).live = arr := by
  rw [fromArray_eq_nat_min arr cap mem hn]; exact fromArrayNat_live_eq_self_min arr cap mem h

theorem heapifyDown_changes_min (a : List Int) (m i x : Nat) (hb : m < 2 ^ 30)
    (hi : 2 * i + 2 < 2 ^ 31) (h : rd (heapifyDown a m (i : Int)) x ≠ rd a x) :
    MaxHeap.inSubtree i x ∧ x < m := by
  rw [heapifyDown_eq_nat_min a m i hb hi] at h; exact heapifyDownNat_changes_min a m i x h

theorem rd_heapifyDown_ge_min (a : List Int) (m i x : Nat) (hb : m < 2 ^ 30)
    (hi : 2 * i + 2 < 2 ^ 31) (hx : m ≤ x) : rd (heapifyDown a m (i : Int)) x = rd a x := by
  rw [heapifyDown_eq_nat_min a m i hb hi]; exact rd_heapifyDownNat_ge_min a m i x hx

theorem rd_heapifyDown_outside_min (a : List Int) (m i x : Nat) (hb : m < 2 ^ 30)
    (hi : 2 * i + 2 < 2 ^ 31) (hx : ¬ MaxHeap.inSubtree i x) :
    rd (heapifyDown a m (i : Int)) x = rd a x := by
  rw [heapifyDown_eq_nat_min a m i hb hi]; exact rd_heapifyDownNat_outside_min a m i x hx

theorem perm_take_heapifyDown_min (a : List Int) (m i : Nat) (hb : m < 2 ^ 30)
    (hi : 2 * i + 2 < 2 ^ 31) (hm : m ≤ a.length) :
    List.Perm ((heapifyDown a m (i : Int)).take m) (a.take m) := by
  rw [heapifyDown_eq_nat_min a m i hb hi]; exact perm_take_heapifyDownNat_min a m i hm

theorem deleteMin_stale (s : MinHeap) (x : Nat) (hb : s.heapSize ≤ 2 ^ 30)
    (hx : s.deleteMin.2.heapSize ≤ x) : rd s.deleteMin.2.heap x = rd s.heap x := by
  rw [deleteMin_eq_nat s hb] at hx ⊢; exact deleteMinNat_stale s x hx

theorem sortExtractSteps_one_tail_min (a : List Int) (e x : Nat) (he : e < 2 ^ 30)
    (hx : e + 1 ≤ x) : rd (sortExtractSteps 1 (e + 1) a) x = rd a x := by
  rw [sortExtractSteps_eq_nat_min 1 (e + 1) a (by omega)]
  exact sortExtractStepsNat_one_tail_min a e x hx

end MinHeap

namespace MaxHeap

theorem sortAfter_inv (arr : List Int) (k : Nat) (hk : k ≤ arr.length)
    (h : arr.length < 2 ^ 30) : SortInv (sortAfter arr k) (arr.length - k) := by
  rw [sortAfter_eq_nat arr k h]; exact sortAfterNat_inv arr k hk

theorem length_sortAfter (arr : List Int) (k : Nat) (h : arr.length < 2 ^ 30) :
    (sortAfter arr k).length = arr.length := by
  rw [sortAfter_eq_nat arr k h]; exact length_sortAfterNat arr k

end MaxHeap

/-! ## The claims of the specification

The sift-down computes the child indices `2 * i + 1` and `2 * i + 2` in `int`.  They do
not overflow as long as the window holds fewer than `2 ^ 30` slots, that is for heaps of at
most `2 ^ 30` elements and arrays of fewer than `2 ^ 30` elements; the properties that
depend on what the sift-down produces are stated for that range. -/

/-- C1: the heap property is preserved by the mutating operations.  For a well-formed
`MaxHeap` object of at most `2 ^ 30` elements whose live slots satisfy
`buffer[parent(i)] >= buffer[i]`, the state after `insert(key)` (overflowing or not) and
the state after `deleteMax()` are well formed and satisfy it again for the new size;
likewise for `MinHeap` with `<=` and `deleteMin()`.  Hence every state reached from an
empty heap of capacity at most `2 ^ 30` by any sequence of inserts, extracts and peeks is
well formed and satisfies the heap property. -/
theorem heap_property_preserved (s : MaxHeap) (t : MinHeap) (key : Int) (cap : Nat)
    (mem : Nat → Int) (ops : List HeapOp)
    (hs : s.WF) (hsb : s.heapSize ≤ 2 ^ 30) (hsh : ∀ i, i < s.heapSize → 1 ≤ i →
      rd s.heap (MaxHeap.parent i) ≥ rd s.heap i)
    (ht : t.WF) (htb : t.heapSize ≤ 2 ^ 30) (hth : ∀ i, i < t.heapSize → 1 ≤ i →
      rd t.heap (MinHeap.parent i) ≤ rd t.heap i)
    (hcap : cap ≤ 2 ^ 30) :
    ((s.insert key).WF ∧ ∀ i, i < (s.insert key).heapSize → 1 ≤ i →
        rd (s.insert key).heap (MaxHeap.parent i) ≥ rd (s.insert key).heap i) ∧
    (s.deleteMax.2.WF ∧ ∀ i, i < s.deleteMax.2.heapSize → 1 ≤ i →
        rd s.deleteMax.2.heap (MaxHeap.parent i) ≥ rd s.deleteMax.2.heap i) ∧
    ((t.insert key).WF ∧ ∀ i, i < (t.insert key).heapSize → 1 ≤ i →
        rd (t.insert key).heap (MinHeap.parent i) ≤ rd (t.insert key).heap i) ∧
    (t.deleteMin.2.WF ∧ ∀ i, i < t.deleteMin.2.heapSize → 1 ≤ i →
        rd t.deleteMin.2.heap (MinHeap.parent i) ≤ rd t.deleteMin.2.heap i) ∧
    (((MaxHeap.empty cap mem).run ops).WF ∧
      ∀ i, i < ((MaxHeap.empty cap mem).run ops).heapSize → 1 ≤ i →
        rd ((MaxHeap.empty cap mem).run ops).heap (MaxHeap.parent i) ≥
          rd ((MaxHeap.empty cap mem).run ops).heap i) ∧
    (((MinHeap.empty cap mem).run ops).WF ∧
      ∀ i, i < ((MinHeap.empty cap mem).run ops).heapSize → 1 ≤ i →
        rd ((MinHeap.empty cap mem).run ops).heap (MinHeap.parent i) ≤
          rd ((MinHeap.empty cap mem).run ops).heap i) :=
  ⟨⟨MaxHeap.insert_WF s key hs, MaxHeap.insert_isHeap s key hs hsh⟩,
    ⟨MaxHeap.deleteMax_WF s hs, MaxHeap.deleteMax_isHeap s hs hsh hsb⟩,
    ⟨MinHeap.insert_WF_min t key ht, MinHeap.insert_isHeap_min t key ht hth⟩,
    ⟨MinHeap.deleteMin_WF t ht, MinHeap.deleteMin_isHeap t ht hth htb⟩,
    MaxHeap.run_inv ops _ (MaxHeap.empty_WF cap mem) (MaxHeap.empty_isHeap cap mem) hcap,
    MinHeap.run_inv_min ops _ (MinHeap.empty_WF_min cap mem) (MinHeap.empty_isHeap_min cap mem)
      hcap⟩

/-- Witness of C1 on the max-heap `[9, 5, 7]` and the min-heap `[1, 4, 2]`, both with one
free slot, and on the run insert 3, insert 8, extract, insert 5 from an empty heap of
capacity 2. -/
theorem heap_property_preserved_witness :
    (MaxHeap.mk [9, 5, 7, 0] 4 3).WF ∧ (MaxHeap.mk [9, 5, 7, 0] 4 3).IsHeap ∧
    (MinHeap.mk [1, 4, 2, 0] 4 3).WF ∧ (MinHeap.mk [1, 4, 2, 0] 4 3).IsHeap ∧
    (MaxHeap.mk [9, 5, 7, 0] 4 3).heapSize ≤ 2 ^ 30 ∧
    (MinHeap.mk [1, 4, 2, 0] 4 3).heapSize ≤ 2 ^ 30 ∧ 2 ≤ 2 ^ 30 ∧
    (MaxHeap.mk [9, 5, 7, 0] 4 3).insert 8 = MaxHeap.mk [9, 8, 7, 5] 4 4 ∧
    (MaxHeap.mk [9, 5, 7, 0] 4 3).deleteMax = (9, MaxHeap.mk [7, 5, 7, 0] 4 2) ∧
    ((MaxHeap.mk [9, 5, 7, 0] 4 3).insert 8).IsHeap ∧
    (MaxHeap.mk [9, 5, 7, 0] 4 3).deleteMax.2.IsHeap ∧
    ((MinHeap.mk [1, 4, 2, 0] 4 3).insert 8).IsHeap ∧
    (MinHeap.mk [1, 4, 2, 0] 4 3).deleteMin.2.IsHeap ∧
    ((MaxHeap.empty 2 (fun _ => 0)).run
      [HeapOp.insert 3, HeapOp.insert 8, HeapOp.extract, HeapOp.insert 5]).IsHeap ∧
    ((MinHeap.empty 2 (fun _ => 0)).run
      [HeapOp.insert 3, HeapOp.insert 8, HeapOp.extract, HeapOp.insert 5]).IsHeap :=
  ⟨by decide, by decide, by decide, by decide, by decide, by decide, by decide, by decide,
    by decide,
    ((heap_property_preserved (MaxHeap.mk [9, 5, 7, 0] 4 3) (MinHeap.mk [1, 4, 2, 0] 4 3) 8 2
      (fun _ => 0) [HeapOp.insert 3, HeapOp.insert 8, HeapOp.extract, HeapOp.insert 5]
      (by decide) (by decide) (by decide) (by decide) (by decide) (by decide)
      (by decide)).1).2,
    ((heap_property_preserved (MaxHeap.mk [9, 5, 7, 0] 4 3) (MinHeap.mk [1, 4, 2, 0] 4 3) 8 2
      (fun _ => 0) [HeapOp.insert 3, HeapOp.insert 8, HeapOp.extract, HeapOp.insert 5]
      (by decide) (by decide) (by decide) (by decide) (by decide) (by decide)
      (by decide)).2.1).2,
    ((heap_property_preserved (MaxHeap.mk [9, 5, 7, 0] 4 3) (MinHeap.mk [1, 4, 2, 0] 4 3) 8 2
      (fun _ => 0) [HeapOp.insert 3, HeapOp.insert 8, HeapOp.extract, HeapOp.insert 5]
      (by decide) (by decide) (by decide) (by decide) (by decide) (by decide)
      (by decide)).2.2.1).2,
    ((heap_property_preserved (MaxHeap.mk [9, 5, 7, 0] 4 3) (MinHeap.mk [1, 4, 2, 0] 4 3) 8 2
      (fun _ => 0) [HeapOp.insert 3, HeapOp.insert 8, HeapOp.extract, HeapOp.insert 5]
      (by decide) (by decide) (by decide) (by decide) (by decide) (by decide)
      (by decide)).2.2.2.1).2,
    ((heap_property_preserved (MaxHeap.mk [9, 5, 7, 0] 4 3) (MinHeap.mk [1, 4, 2, 0] 4 3) 8 2
      (fun _ => 0) [HeapOp.insert 3, HeapOp.insert 8, HeapOp.extract, HeapOp.insert 5]
      (by decide) (by decide) (by decide) (by decide) (by decide) (by decide)
      (by decide)).2.2.2.2.1).2,
    ((heap_property_preserved (MaxHeap.mk [9, 5, 7, 0] 4 3) (MinHeap.mk [1, 4, 2, 0] 4 3) 8 2
      (fun _ => 0) [HeapOp.insert 3, HeapOp.insert 8, HeapOp.extract, HeapOp.insert 5]
      (by decide) (by decide) (by decide) (by decide) (by decide) (by decide)
      (by decide)).2.2.2.2.2).2⟩

/-- C2: bulk construction establishes the heap property.  For every array `arr` of fewer
than `2 ^ 30` elements and every requested capacity, the buffer of `MaxHeap(arr, n, cap)`
has `max(cap, n)` slots, the size is `n`, and the buffer satisfies
`buffer[parent(i)] >= buffer[i]` for every `i` in `[1, n)`; the buffer of
`MinHeap(arr, n, cap)` has `max(cap, n)` slots and satisfies
`buffer[parent(i)] <= buffer[i]`. -/
theorem bulk_build_heap_property (arr : List Int) (cap : Nat) (mem : Nat → Int)
    (hn : arr.length < 2 ^ 30) :
    ((MaxHeap.fromArray arr cap mem).heap.length = max cap arr.length ∧
      (MaxHeap.fromArray arr cap mem).size = arr.length ∧
      ∀ i, i < arr.length → 1 ≤ i →
        rd (MaxHeap.fromArray arr cap mem).heap (MaxHeap.parent i) ≥
          rd (MaxHeap.fromArray arr cap mem).heap i) ∧
    ((MinHeap.fromArray arr cap mem).heap.length = max cap arr.length ∧
      (MinHeap.fromArray arr cap mem).size = arr.length ∧
      ∀ i, i < arr.length → 1 ≤ i →
        rd (MinHeap.fromArray arr cap mem).heap (MinHeap.parent i) ≤
          rd (MinHeap.fromArray arr cap mem).heap i) :=
  ⟨⟨(MaxHeap.fromArray_WF arr cap mem).1, rfl, MaxHeap.fromArray_isHeap arr cap mem hn⟩,
    ⟨(MinHeap.fromArray_WF_min arr cap mem).1, rfl,
      MinHeap.fromArray_isHeap_min arr cap mem hn⟩⟩

/-- Witness of C2 on the demonstration array of `main` with capacity 10. -/
theorem bulk_build_heap_property_witness :
    ([20, 15, 30, 8, 10, 40, 25, 12, 18, 35] : List Int).length < 2 ^ 30 ∧
    (MaxHeap.fromArray [20, 15, 30, 8, 10, 40, 25, 12, 18, 35] 10 (fun _ => 0)).heap =
      [40, 35, 30, 18, 15, 20, 25, 12, 8, 10] ∧
    (MaxHeap.fromArray [20, 15, 30, 8, 10, 40, 25, 12, 18, 35] 10 (fun _ => 0)).IsHeap ∧
    (MinHeap.fromArray [20, 15, 30, 8, 10, 40, 25, 12, 18, 35] 10 (fun _ => 0)).IsHeap :=
  ⟨by decide, by decide,
    (bulk_build_heap_property [20, 15, 30, 8, 10, 40, 25, 12, 18, 35] 10 (fun _ => 0)
      (by decide)).1.2.2,
    (bulk_build_heap_property [20, 15, 30, 8, 10, 40, 25, 12, 18, 35] 10 (fun _ => 0)
      (by decide)).2.2.2⟩

/-- C3: bulk construction keeps exactly the source elements.  For every array `arr` of
fewer than `2 ^ 30` elements, after `MaxHeap(arr, n, cap)` (and likewise `MinHeap`)
`size()` is `n` and the live slots `buffer[0..n)` are a permutation of `arr`. -/
theorem bulk_build_elements (arr : List Int) (cap : Nat) (mem : Nat → Int)
    (hn : arr.length < 2 ^ 30) :
    (MaxHeap.fromArray arr cap mem).size = arr.length ∧
    List.Perm ((MaxHeap.fromArray arr cap mem).heap.take arr.length) arr ∧
    (MinHeap.fromArray arr cap mem).size = arr.length ∧
    List.Perm ((MinHeap.fromArray arr cap mem).heap.take arr.length) arr :=
  ⟨rfl, MaxHeap.fromArray_live arr cap mem hn, rfl, MinHeap.fromArray_live_min arr cap mem hn⟩

/-- Witness of C3 on the array `[3, 1, 3, 2]` with capacity 6. -/
theorem bulk_build_elements_witness :
    ([3, 1, 3, 2] : List Int).length < 2 ^ 30 ∧
    (MaxHeap.fromArray [3, 1, 3, 2] 6 (fun _ => 0)).heap = [3, 2, 3, 1, 0, 0] ∧
    (MinHeap.fromArray [3, 1, 3, 2] 6 (fun _ => 0)).heap = [1, 2, 3, 3, 0, 0] ∧
    List.Perm ((MaxHeap.fromArray [3, 1, 3, 2] 6 (fun _ => 0)).heap.take
      ([3, 1, 3, 2] : List Int).length) [3, 1, 3, 2] ∧
    List.Perm ((MinHeap.fromArray [3, 1, 3, 2] 6 (fun _ => 0)).heap.take
      ([3, 1, 3, 2] : List Int).length) [3, 1, 3, 2] :=
  ⟨by decide, by decide, by decide,
    (bulk_build_elements [3, 1, 3, 2] 6 (fun _ => 0) (by decide)).2.1,
    (bulk_build_elements [3, 1, 3, 2] 6 (fun _ => 0) (by decide)).2.2.2⟩

/-- C4: the root of a bulk-built heap is the extremal source element.  For a non-empty
array of fewer than `2 ^ 30` elements, `getMax()` on `MaxHeap(arr, n, cap)` is an element
of `arr` that is at least every element of `arr`, and `getMin()` on `MinHeap(arr, n, cap)`
is an element of `arr` that is at most every element; for
`[20,15,30,8,10,40,25,12,18,35]` with the default capacity 100 the roots are 40 and 8. -/
theorem bulk_build_root_extremal (arr : List Int) (cap : Nat) (mem : Nat → Int)
    (hne : arr ≠ []) (hn : arr.length < 2 ^ 30) :
    ((MaxHeap.fromArray arr cap mem).getMax ∈ arr ∧
      ∀ x ∈ arr, x ≤ (MaxHeap.fromArray arr cap mem).getMax) ∧
    ((MinHeap.fromArray arr cap mem).getMin ∈ arr ∧
      ∀ x ∈ arr, (MinHeap.fromArray arr cap mem).getMin ≤ x) ∧
    (MaxHeap.fromArray [20, 15, 30, 8, 10, 40, 25, 12, 18, 35] 100 mem).getMax = 40 ∧
    (MinHeap.fromArray [20, 15, 30, 8, 10, 40, 25, 12, 18, 35] 100 mem).getMin = 8 := by
  have gen : ∀ (a : List Int) (c : Nat), a ≠ [] → a.length < 2 ^ 30 →
      ((MaxHeap.fromArray a c mem).getMax ∈ a ∧
        ∀ x ∈ a, x ≤ (MaxHeap.fromArray a c mem).getMax) ∧
      ((MinHeap.fromArray a c mem).getMin ∈ a ∧
        ∀ x ∈ a, (MinHeap.fromArray a c mem).getMin ≤ x) := by
    intro a c ha hb
    have hn : a.length ≠ 0 := fun h => ha (List.length_eq_zero.mp h)
    obtain ⟨m1, m2⟩ := MaxHeap.getMax_spec _ (MaxHeap.fromArray_WF a c mem)
      (MaxHeap.fromArray_isHeap a c mem hb) (by exact hn)
    obtain ⟨n1, n2⟩ := MinHeap.getMin_spec _ (MinHeap.fromArray_WF_min a c mem)
      (MinHeap.fromArray_isHeap_min a c mem hb) (by exact hn)
    have pM := MaxHeap.fromArray_live a c mem hb
    have pm := MinHeap.fromArray_live_min a c mem hb
    exact ⟨⟨pM.subset m1, fun x hx => m2 x (pM.symm.subset hx)⟩,
      ⟨pm.subset n1, fun x hx => n2 x (pm.symm.subset hx)⟩⟩
  obtain ⟨g1, g2⟩ := gen arr cap hne hn
  obtain ⟨⟨d1, d2⟩, ⟨d3, d4⟩⟩ := gen [20, 15, 30, 8, 10, 40, 25, 12, 18, 35] 100 (by decide)
    (by decide)
  refine ⟨g1, g2, ?_, ?_⟩
  · have hub : ∀ x ∈ ([20, 15, 30, 8, 10, 40, 25, 12, 18, 35] : List Int), x ≤ 40 := by decide
    exact le_antisymm (hub _ d1) (d2 40 (by decide))
  · have hlb : ∀ x ∈ ([20, 15, 30, 8, 10, 40, 25, 12, 18, 35] : List Int), 8 ≤ x := by decide
    exact le_antisymm (d4 8 (by decide)) (hlb _ d3)

/-- Witness of C4 on the demonstration array of `main`. -/
theorem bulk_build_root_extremal_witness :
    ([20, 15, 30, 8, 10, 40, 25, 12, 18, 35] : List Int) ≠ [] ∧
    ([20, 15, 30, 8, 10, 40, 25, 12, 18, 35] : List Int).length < 2 ^ 30 ∧
    (MaxHeap.fromArray [20, 15, 30, 8, 10, 40, 25, 12, 18, 35] 100 (fun _ => 0)).getMax = 40 ∧
    (MinHeap.fromArray [20, 15, 30, 8, 10, 40, 25, 12, 18, 35] 100 (fun _ => 0)).getMin = 8 :=
  ⟨by decide, by decide,
    (bulk_build_root_extremal [20, 15, 30, 8, 10, 40, 25, 12, 18, 35] 100 (fun _ => 0)
      (by decide) (by decide)).2.2⟩

/-- C5: extract returns and removes the extremal element.  On a well-formed non-empty
`MaxHeap` of at most `2 ^ 30` elements satisfying the heap property, `deleteMax()`
returns the root `buffer[0]`, which is at least every live element, and the live elements
afterwards are the live elements before with one occurrence of the returned value
removed; symmetrically `deleteMin()` returns the root, which is at most every live
element, and removes one occurrence. -/
theorem extract_returns_extremal (s : MaxHeap) (t : MinHeap)
    (hs : s.WF) (hsh : s.IsHeap) (hsn : s.heapSize ≠ 0) (hsb : s.heapSize ≤ 2 ^ 30)
    (ht : t.WF) (hth : t.IsHeap) (htn : t.heapSize ≠ 0) (htb : t.heapSize ≤ 2 ^ 30) :
    (s.deleteMax.1 = rd s.heap 0 ∧ (∀ x ∈ s.live, x ≤ s.deleteMax.1) ∧
      List.Perm s.deleteMax.2.live (s.live.erase s.deleteMax.1) ∧
      s.deleteMax.2.size = s.size - 1) ∧
    (t.deleteMin.1 = rd t.heap 0 ∧ (∀ x ∈ t.live, t.deleteMin.1 ≤ x) ∧
      List.Perm t.deleteMin.2.live (t.live.erase t.deleteMin.1) ∧
      t.deleteMin.2.size = t.size - 1) :=
  ⟨⟨MaxHeap.deleteMax_fst s hsn, MaxHeap.deleteMax_ge s hs hsh hsn hsb,
      perm_erase_of_cons_perm _ _ _ (MaxHeap.deleteMax_live s hs hsn hsb),
      MaxHeap.deleteMax_heapSize s⟩,
    ⟨MinHeap.deleteMin_root t htn, MinHeap.deleteMin_le t ht hth htn htb,
      perm_erase_of_cons_perm _ _ _ (MinHeap.deleteMin_live t ht htn htb),
      MinHeap.deleteMin_heapSize t⟩⟩

/-- Witness of C5 on the max-heap `[9, 5, 7, 5]` and the min-heap `[1, 4, 1, 6]`. -/
theorem extract_returns_extremal_witness :
    (MaxHeap.mk [9, 5, 7, 5] 4 4).WF ∧ (MaxHeap.mk [9, 5, 7, 5] 4 4).IsHeap ∧
    (MinHeap.mk [1, 4, 1, 6] 4 4).WF ∧ (MinHeap.mk [1, 4, 1, 6] 4 4).IsHeap ∧
    (MaxHeap.mk [9, 5, 7, 5] 4 4).heapSize ≤ 2 ^ 30 ∧
    (MinHeap.mk [1, 4, 1, 6] 4 4).heapSize ≤ 2 ^ 30 ∧
    (MaxHeap.mk [9, 5, 7, 5] 4 4).deleteMax = (9, MaxHeap.mk [7, 5, 5, 5] 4 3) ∧
    (MinHeap.mk [1, 4, 1, 6] 4 4).deleteMin = (1, MinHeap.mk [1, 4, 6, 6] 4 3) ∧
    List.Perm (MaxHeap.mk [9, 5, 7, 5] 4 4).deleteMax.2.live
      ((MaxHeap.mk [9, 5, 7, 5] 4 4).live.erase (MaxHeap.mk [9, 5, 7, 5] 4 4).deleteMax.1) ∧
    List.Perm (MinHeap.mk [1, 4, 1, 6] 4 4).deleteMin.2.live
      ((MinHeap.mk [1, 4, 1, 6] 4 4).live.erase (MinHeap.mk [1, 4, 1, 6] 4 4).deleteMin.1) :=
  ⟨by decide, by decide, by decide, by decide, by decide, by decide, by decide, by decide,
    (extract_returns_extremal (MaxHeap.mk [9, 5, 7, 5] 4 4) (MinHeap.mk [1, 4, 1, 6] 4 4)
      (by decide) (by decide) (by decide) (by decide) (by decide) (by decide) (by decide)
      (by decide)).1.2.2.1,
    (extract_returns_extremal (MaxHeap.mk [9, 5, 7, 5] 4 4) (MinHeap.mk [1, 4, 1, 6] 4 4)
      (by decide) (by decide) (by decide) (by decide) (by decide) (by decide) (by decide)
      (by decide)).2.2.2.1⟩

/-- C6: extract order.  When a `MaxHeap` is populated with the elements of a list `xs` of
fewer than `2 ^ 30` elements, either by inserts into an empty heap of capacity at least
`xs.length` or by bulk construction, and `deleteMax()` is then called `size()` times, the
returned values are the elements of `xs` (with multiplicities) in non-increasing order;
for `MinHeap` and `deleteMin()` they are the elements of `xs` in non-decreasing order. -/
theorem extract_order (xs : List Int) (cap capB : Nat) (mem : Nat → Int)
    (hcap : xs.length ≤ cap) (hlen : xs.length < 2 ^ 30) :
    (((MaxHeap.empty cap mem).insertAll xs).size = xs.length ∧
      List.Sorted (· ≥ ·)
        (((MaxHeap.empty cap mem).insertAll xs).drain
          ((MaxHeap.empty cap mem).insertAll xs).size) ∧
      List.Perm
        (((MaxHeap.empty cap mem).insertAll xs).drain
          ((MaxHeap.empty cap mem).insertAll xs).size) xs) ∧
    (List.Sorted (· ≥ ·)
        ((MaxHeap.fromArray xs capB mem).drain (MaxHeap.fromArray xs capB mem).size) ∧
      List.Perm
        ((MaxHeap.fromArray xs capB mem).drain (MaxHeap.fromArray xs capB mem).size) xs) ∧
    (((MinHeap.empty cap mem).insertAll xs).size = xs.length ∧
      List.Sorted (· ≤ ·)
        (((MinHeap.empty cap mem).insertAll xs).drain
          ((MinHeap.empty cap mem).insertAll xs).size) ∧
      List.Perm
        (((MinHeap.empty cap mem).insertAll xs).drain
          ((MinHeap.empty cap mem).insertAll xs).size) xs) ∧
    (List.Sorted (· ≤ ·)
        ((MinHeap.fromArray xs capB mem).drain (MinHeap.fromArray xs capB mem).size) ∧
      List.Perm
        ((MinHeap.fromArray xs capB mem).drain (MinHeap.fromArray xs capB mem).size) xs) := by
  obtain ⟨a1, a2, a3, a4⟩ := MaxHeap.insertAll_inv xs (MaxHeap.empty cap mem)
    (MaxHeap.empty_WF cap mem) (MaxHeap.empty_isHeap cap mem)
    (by show 0 + xs.length ≤ cap; omega)
  obtain ⟨b1, b2, b3, b4⟩ := MinHeap.insertAll_inv_min xs (MinHeap.empty cap mem)
    (MinHeap.empty_WF_min cap mem) (MinHeap.empty_isHeap_min cap mem)
    (by show 0 + xs.length ≤ cap; omega)
  have a5 : List.Perm ((MaxHeap.empty cap mem).insertAll xs).live xs := by
    have : (MaxHeap.empty cap mem).live = [] := rfl
    rw [this, List.append_nil] at a4; exact a4
  have b5 : List.Perm ((MinHeap.empty cap mem).insertAll xs).live xs := by
    have : (MinHeap.empty cap mem).live = [] := rfl
    rw [this, List.append_nil] at b4; exact b4
  have a6 : ((MaxHeap.empty cap mem).insertAll xs).heapSize = xs.length := by
    rw [a3]; show 0 + xs.length = _; omega
  have b6 : ((MinHeap.empty cap mem).insertAll xs).heapSize = xs.length := by
    rw [b3]; show 0 + xs.length = _; omega
  obtain ⟨c1, c2⟩ := MaxHeap.drain_sorted_perm _ _ a1 a2 rfl (by omega)
  obtain ⟨d1, d2⟩ := MinHeap.drain_sorted_perm_min _ _ b1 b2 rfl (by omega)
  obtain ⟨e1, e2⟩ := MaxHeap.drain_sorted_perm _ _ (MaxHeap.fromArray_WF xs capB mem)
    (MaxHeap.fromArray_isHeap xs capB mem hlen) rfl
    (by rw [MaxHeap.fromArray_heapSize]; omega)
  obtain ⟨f1, f2⟩ := MinHeap.drain_sorted_perm_min _ _ (MinHeap.fromArray_WF_min xs capB mem)
    (MinHeap.fromArray_isHeap_min xs capB mem hlen) rfl
    (by show xs.length ≤ 2 ^ 30; omega)
  exact ⟨⟨a6, c1, c2.trans a5⟩, ⟨e1, e2.trans (MaxHeap.fromArray_live xs capB mem hlen)⟩,
    ⟨b6, d1, d2.trans b5⟩, ⟨f1, f2.trans (MinHeap.fromArray_live_min xs capB mem hlen)⟩⟩

/-- Witness of C6 on `[3, 2, 15, 5, 4, 45, 5]` inserted into heaps of capacity 8. -/
theorem extract_order_witness :
    ([3, 2, 15, 5, 4, 45, 5] : List Int).length ≤ 8 ∧
    ([3, 2, 15, 5, 4, 45, 5] : List Int).length < 2 ^ 30 ∧
    ((MaxHeap.empty 8 (fun _ => 0)).insertAll [3, 2, 15, 5, 4, 45, 5]).drain 7 =
      [45, 15, 5, 5, 4, 3, 2] ∧
    ((MinHeap.empty 8 (fun _ => 0)).insertAll [3, 2, 15, 5, 4, 45, 5]).drain 7 =
      [2, 3, 4, 5, 5, 15, 45] ∧
    List.Perm
      (((MaxHeap.empty 8 (fun _ => 0)).insertAll [3, 2, 15, 5, 4, 45, 5]).drain
        ((MaxHeap.empty 8 (fun _ => 0)).insertAll [3, 2, 15, 5, 4, 45, 5]).size)
      [3, 2, 15, 5, 4, 45, 5] :=
  ⟨by decide, by decide, by decide, by decide,
    (extract_order [3, 2, 15, 5, 4, 45, 5] 8 100 (fun _ => 0) (by decide) (by decide)).1.2.2⟩

/-- C7 (evaluation of the code): on the demonstration array `[64,34,25,12,22,11,90]` the
heap sort of `max_heap.cpp` leaves `[11,12,22,25,34,64,90]` (non-decreasing, not the
descending order its output label announces) and the heap sort of `min_heap.cpp` leaves
`[90,64,34,25,22,12,11]` (non-increasing, not the ascending order its label announces). -/
theorem heapSort_demo_direction :
    MaxHeap.heapSort [64, 34, 25, 12, 22, 11, 90] = [11, 12, 22, 25, 34, 64, 90] ∧
    MinHeap.heapSort [64, 34, 25, 12, 22, 11, 90] = [90, 64, 34, 25, 22, 12, 11] ∧
    MaxHeap.heapSort [64, 34, 25, 12, 22, 11, 90] ≠ [90, 64, 34, 25, 22, 12, 11] ∧
    MinHeap.heapSort [64, 34, 25, 12, 22, 11, 90] ≠ [11, 12, 22, 25, 34, 64, 90] := by
  set_option maxRecDepth 8000 in decide

/-- C8: heap sort permutes its input.  For every array `A` of fewer than `2 ^ 30`
elements the array left by the in-place heap sort of `max_heap.cpp` and the array left by
the in-place heap sort of `min_heap.cpp` are each a permutation of `A`. -/
theorem heapSort_permutes (A : List Int) (h : A.length < 2 ^ 30) :
    List.Perm (MaxHeap.heapSort A) A ∧ List.Perm (MinHeap.heapSort A) A :=
  ⟨MaxHeap.heapSort_perm A h, MinHeap.heapSort_perm_min A h⟩

/-- Witness of C8 on `[3, 1, 2, 3, 0]`, on the empty array and on a one-element array. -/
theorem heapSort_permutes_witness :
    ([3, 1, 2, 3, 0] : List Int).length < 2 ^ 30 ∧
    MaxHeap.heapSort [3, 1, 2, 3, 0] = [0, 1, 2, 3, 3] ∧
    MinHeap.heapSort [3, 1, 2, 3, 0] = [3, 3, 2, 1, 0] ∧
    MaxHeap.heapSort [] = [] ∧ MinHeap.heapSort [7] = [7] ∧
    List.Perm (MaxHeap.heapSort [3, 1, 2, 3, 0]) [3, 1, 2, 3, 0] ∧
    List.Perm (MinHeap.heapSort [3, 1, 2, 3, 0]) [3, 1, 2, 3, 0] :=
  ⟨by decide, by decide, by decide, by decide, by decide,
    heapSort_permutes [3, 1, 2, 3, 0] (by decide)⟩

/-- C9: the two sorts are reverses of each other.  For every array `A` of fewer than
`2 ^ 30` elements, reversing the array produced by the heap sort of `max_heap.cpp` gives
exactly the array produced by the heap sort of `min_heap.cpp`. -/
theorem heapSort_reverse (A : List Int) (h : A.length < 2 ^ 30) :
    (MaxHeap.heapSort A).reverse = MinHeap.heapSort A := by
  have h1 : List.Sorted (· ≥ ·) (MaxHeap.heapSort A).reverse := by
    have := MaxHeap.heapSort_sorted A h
    unfold List.Sorted at *
    rw [List.pairwise_reverse]
    exact this
  have hp : List.Perm (MaxHeap.heapSort A).reverse (MinHeap.heapSort A) :=
    ((List.reverse_perm _).trans (MaxHeap.heapSort_perm A h)).trans
      (MinHeap.heapSort_perm_min A h).symm
  exact List.eq_of_perm_of_sorted hp h1 (MinHeap.heapSort_sorted_min A h)

/-- Witness of C9 on the demonstration array of `main`. -/
theorem heapSort_reverse_witness :
    ([64, 34, 25, 12, 22, 11, 90] : List Int).length < 2 ^ 30 ∧
    (MaxHeap.heapSort [64, 34, 25, 12, 22, 11, 90]).reverse = [90, 64, 34, 25, 22, 12, 11] ∧
    (MaxHeap.heapSort [64, 34, 25, 12, 22, 11, 90]).reverse =
      MinHeap.heapSort [64, 34, 25, 12, 22, 11, 90] :=
  ⟨by decide, by decide, heapSort_reverse [64, 34, 25, 12, 22, 11, 90] (by decide)⟩

/-- C10: overflow leaves the heap unchanged.  For every state with `size == capacity` and
every key, `insert(key)` returns the state it was given: `size()`, `capacity` and every
buffer slot are as before, for both `MaxHeap` and `MinHeap`. -/
theorem insert_overflow_unchanged (s : MaxHeap) (t : MinHeap) (key : Int)
    (hs : s.heapSize = s.capacity) (ht : t.heapSize = t.capacity) :
    (s.insert key = s ∧ (s.insert key).size = s.size ∧
      (s.insert key).capacity = s.capacity ∧ (s.insert key).heap = s.heap) ∧
    (t.insert key = t ∧ (t.insert key).size = t.size ∧
      (t.insert key).capacity = t.capacity ∧ (t.insert key).heap = t.heap) := by
  rw [MaxHeap.insert_full s key hs, MinHeap.insert_full_min t key ht]
  exact ⟨⟨rfl, rfl, rfl, rfl⟩, ⟨rfl, rfl, rfl, rfl⟩⟩

/-- Witness of C10 on full heaps of capacity 3. -/
theorem insert_overflow_unchanged_witness :
    (MaxHeap.mk [9, 5, 7] 3 3).heapSize = (MaxHeap.mk [9, 5, 7] 3 3).capacity ∧
    (MinHeap.mk [1, 4, 2] 3 3).heapSize = (MinHeap.mk [1, 4, 2] 3 3).capacity ∧
    (MaxHeap.mk [9, 5, 7] 3 3).insert 10 = MaxHeap.mk [9, 5, 7] 3 3 ∧
    (MinHeap.mk [1, 4, 2] 3 3).insert 0 = MinHeap.mk [1, 4, 2] 3 3 :=
  ⟨rfl, rfl,
    (insert_overflow_unchanged (MaxHeap.mk [9, 5, 7] 3 3) (MinHeap.mk [1, 4, 2] 3 3) 10
      rfl rfl).1.1,
    (insert_overflow_unchanged (MaxHeap.mk [9, 5, 7] 3 3) (MinHeap.mk [1, 4, 2] 3 3) 0
      rfl rfl).2.1⟩

/-- C11: underflow does not mutate.  In a state with `size == 0`, `deleteMax()` and
`deleteMin()` take the underflow branch (they return -1) and hand back the state they were
given: the size is still 0, and the capacity and every buffer slot are unchanged. -/
theorem extract_underflow_unchanged (s : MaxHeap) (t : MinHeap)
    (hs : s.heapSize = 0) (ht : t.heapSize = 0) :
    (s.deleteMax = (-1, s) ∧ s.deleteMax.2.size = 0 ∧
      s.deleteMax.2.capacity = s.capacity ∧ s.deleteMax.2.heap = s.heap) ∧
    (t.deleteMin = (-1, t) ∧ t.deleteMin.2.size = 0 ∧
      t.deleteMin.2.capacity = t.capacity ∧ t.deleteMin.2.heap = t.heap) := by
  rw [MaxHeap.deleteMax_empty s hs, MinHeap.deleteMin_empty t ht]
  exact ⟨⟨rfl, hs, rfl, rfl⟩, ⟨rfl, ht, rfl, rfl⟩⟩

/-- Witness of C11 on empty heaps of capacity 2 with stale slots. -/
theorem extract_underflow_unchanged_witness :
    (MaxHeap.mk [7, 3] 2 0).heapSize = 0 ∧ (MinHeap.mk [7, 3] 2 0).heapSize = 0 ∧
    (MaxHeap.mk [7, 3] 2 0).deleteMax = (-1, MaxHeap.mk [7, 3] 2 0) ∧
    (MinHeap.mk [7, 3] 2 0).deleteMin = (-1, MinHeap.mk [7, 3] 2 0) :=
  ⟨rfl, rfl,
    (extract_underflow_unchanged (MaxHeap.mk [7, 3] 2 0) (MinHeap.mk [7, 3] 2 0) rfl rfl).1.1,
    (extract_underflow_unchanged (MaxHeap.mk [7, 3] 2 0) (MinHeap.mk [7, 3] 2 0) rfl rfl).2.1⟩

/-- C12 (counterexample): a heap that holds the single legitimate element -1 is not
empty, yet `deleteMax()`, `getMax()`, `deleteMin()` and `getMin()` give on it the very
result they give on the empty heap, namely -1. -/
theorem underflow_sentinel_collision :
    (MaxHeap.empty 1 (fun _ => 0)).size = 0 ∧
    ((MaxHeap.empty 1 (fun _ => 0)).insert (-1)).size = 1 ∧
    ((MaxHeap.empty 1 (fun _ => 0)).insert (-1)).deleteMax.1 =
      (MaxHeap.empty 1 (fun _ => 0)).deleteMax.1 ∧
    ((MaxHeap.empty 1 (fun _ => 0)).insert (-1)).getMax =
      (MaxHeap.empty 1 (fun _ => 0)).getMax ∧
    (MinHeap.empty 1 (fun _ => 0)).size = 0 ∧
    ((MinHeap.empty 1 (fun _ => 0)).insert (-1)).size = 1 ∧
    ((MinHeap.empty 1 (fun _ => 0)).insert (-1)).deleteMin.1 =
      (MinHeap.empty 1 (fun _ => 0)).deleteMin.1 ∧
    ((MinHeap.empty 1 (fun _ => 0)).insert (-1)).getMin =
      (MinHeap.empty 1 (fun _ => 0)).getMin := by
  decide

/-- C12 (amended): on an empty heap `deleteMax()`/`deleteMin()` and `getMax()`/`getMin()`
return the sentinel -1 and on a non-empty heap they return the root `buffer[0]`; hence the
result on an empty heap differs from the result on a non-empty heap exactly when the root
of the non-empty heap is not -1. -/
theorem underflow_sentinel (e s : MaxHeap) (f t : MinHeap)
    (he : e.heapSize = 0) (hs : s.heapSize ≠ 0) (hf : f.heapSize = 0) (ht : t.heapSize ≠ 0) :
    (e.deleteMax.1 = -1 ∧ e.getMax = -1 ∧ s.deleteMax.1 = rd s.heap 0 ∧
      s.getMax = rd s.heap 0 ∧
      (s.deleteMax.1 ≠ e.deleteMax.1 ↔ rd s.heap 0 ≠ -1) ∧
      (s.getMax ≠ e.getMax ↔ rd s.heap 0 ≠ -1)) ∧
    (f.deleteMin.1 = -1 ∧ f.getMin = -1 ∧ t.deleteMin.1 = rd t.heap 0 ∧
      t.getMin = rd t.heap 0 ∧
      (t.deleteMin.1 ≠ f.deleteMin.1 ↔ rd t.heap 0 ≠ -1) ∧
      (t.getMin ≠ f.getMin ↔ rd t.heap 0 ≠ -1)) := by
  rw [MaxHeap.deleteMax_empty e he, MaxHeap.getMax_empty e he, MaxHeap.deleteMax_fst s hs,
    MaxHeap.getMax_nonempty s hs, MinHeap.deleteMin_empty f hf, MinHeap.getMin_empty f hf,
    MinHeap.deleteMin_root t ht, MinHeap.getMin_nonempty t ht]
  exact ⟨⟨rfl, rfl, rfl, rfl, Iff.rfl, Iff.rfl⟩, ⟨rfl, rfl, rfl, rfl, Iff.rfl, Iff.rfl⟩⟩

/-- Witness of C12 (amended): the heaps `[5]` and `[-1]` against the empty heap. -/
theorem underflow_sentinel_witness :
    (MaxHeap.mk [0] 1 0).heapSize = 0 ∧ (MaxHeap.mk [5] 1 1).heapSize ≠ 0 ∧
    (MinHeap.mk [0] 1 0).heapSize = 0 ∧ (MinHeap.mk [-1] 1 1).heapSize ≠ 0 ∧
    (MaxHeap.mk [0] 1 0).deleteMax.1 = -1 ∧ (MaxHeap.mk [5] 1 1).deleteMax.1 = 5 ∧
    (MinHeap.mk [-1] 1 1).deleteMin.1 = (MinHeap.mk [0] 1 0).deleteMin.1 ∧
    (MaxHeap.mk [0] 1 0).getMax = -1 :=
  ⟨by decide, by decide, by decide, by decide, by decide, by decide, by decide,
    (underflow_sentinel (MaxHeap.mk [0] 1 0) (MaxHeap.mk [5] 1 1) (MinHeap.mk [0] 1 0)
      (MinHeap.mk [-1] 1 1) (by decide) (by decide) (by decide) (by decide)).1.2.1⟩

/-- C13 (counterexample): two `insert` calls on an empty heap of capacity 1, no extract:
the second insert overflows, so `size()` is 1 although `k - m = 2 - 0`. -/
theorem size_accounting_overflow :
    HeapOp.insertCalls [HeapOp.insert 5, HeapOp.insert 6] = 2 ∧
    (MaxHeap.empty 1 (fun _ => 0)).extractsDone [HeapOp.insert 5, HeapOp.insert 6] = 0 ∧
    ((MaxHeap.empty 1 (fun _ => 0)).run [HeapOp.insert 5, HeapOp.insert 6]).size = 1 ∧
    ((MaxHeap.empty 1 (fun _ => 0)).run [HeapOp.insert 5, HeapOp.insert 6]).size ≠
      HeapOp.insertCalls [HeapOp.insert 5, HeapOp.insert 6] -
        (MaxHeap.empty 1 (fun _ => 0)).extractsDone [HeapOp.insert 5, HeapOp.insert 6] := by
  decide

/-- C13 (amended): for a heap constructed empty with any capacity, after any interleaving
of calls in which `k` inserts did not overflow and `m` extracts did not underflow, `m <= k`
and `size()` returns `k - m`.  The size changes by +1 in an insert made with
`size < capacity`, by -1 in an extract made with `size > 0`, and not at all in an
overflowing insert, an underflowing extract or a peek. -/
theorem size_accounting (cap : Nat) (mem : Nat → Int) (ops : List HeapOp)
    (s : MaxHeap) (t : MinHeap) (key : Int) :
    ((MaxHeap.empty cap mem).extractsDone ops ≤ (MaxHeap.empty cap mem).insertsDone ops ∧
      ((MaxHeap.empty cap mem).run ops).size =
        (MaxHeap.empty cap mem).insertsDone ops - (MaxHeap.empty cap mem).extractsDone ops) ∧
    ((MinHeap.empty cap mem).extractsDone ops ≤ (MinHeap.empty cap mem).insertsDone ops ∧
      ((MinHeap.empty cap mem).run ops).size =
        (MinHeap.empty cap mem).insertsDone ops - (MinHeap.empty cap mem).extractsDone ops) ∧
    ((s.insert key).size = (if s.size = s.capacity then s.size else s.size + 1) ∧
      s.deleteMax.2.size = (if s.size = 0 then s.size else s.size - 1) ∧
      (s.step HeapOp.peek).size = s.size) ∧
    ((t.insert key).size = (if t.size = t.capacity then t.size else t.size + 1) ∧
      t.deleteMin.2.size = (if t.size = 0 then t.size else t.size - 1) ∧
      (t.step HeapOp.peek).size = t.size) := by
  have hM := MaxHeap.run_size_balance ops (MaxHeap.empty cap mem)
  have hm := MinHeap.run_size_balance_min ops (MinHeap.empty cap mem)
  have eM : (MaxHeap.empty cap mem).heapSize = 0 := rfl
  have em : (MinHeap.empty cap mem).heapSize = 0 := rfl
  rw [eM] at hM
  rw [em] at hm
  refine ⟨⟨by omega, ?_⟩, ⟨by omega, ?_⟩, ⟨MaxHeap.insert_size s key, ?_, rfl⟩,
    ⟨MinHeap.insert_size_min t key, ?_, rfl⟩⟩
  · show ((MaxHeap.empty cap mem).run ops).heapSize = _
    omega
  · show ((MinHeap.empty cap mem).run ops).heapSize = _
    omega
  · show s.deleteMax.2.heapSize = if s.heapSize = 0 then s.heapSize else s.heapSize - 1
    rw [MaxHeap.deleteMax_heapSize]
    split_ifs <;> omega
  · show t.deleteMin.2.heapSize = if t.heapSize = 0 then t.heapSize else t.heapSize - 1
    rw [MinHeap.deleteMin_heapSize]
    split_ifs <;> omega

/-- C14: size stays within bounds.  Every state reached from the empty constructor or from
the bulk constructor (whose capacity is `max(cap, n)`) through any sequence of insert,
extract and peek calls has `size <= capacity`, and its capacity is the one fixed at
construction; sizes are natural numbers, so `0 <= size` throughout. -/
theorem size_within_capacity (arr : List Int) (cap : Nat) (mem : Nat → Int)
    (ops : List HeapOp) :
    (((MaxHeap.empty cap mem).run ops).size ≤ ((MaxHeap.empty cap mem).run ops).capacity ∧
      ((MaxHeap.empty cap mem).run ops).capacity = cap) ∧
    (((MaxHeap.fromArray arr cap mem).run ops).size ≤
        ((MaxHeap.fromArray arr cap mem).run ops).capacity ∧
      ((MaxHeap.fromArray arr cap mem).run ops).capacity = max cap arr.length) ∧
    (((MinHeap.empty cap mem).run ops).size ≤ ((MinHeap.empty cap mem).run ops).capacity ∧
      ((MinHeap.empty cap mem).run ops).capacity = cap) ∧
    (((MinHeap.fromArray arr cap mem).run ops).size ≤
        ((MinHeap.fromArray arr cap mem).run ops).capacity ∧
      ((MinHeap.fromArray arr cap mem).run ops).capacity = max cap arr.length) :=
  ⟨⟨(MaxHeap.run_WF ops _ (MaxHeap.empty_WF cap mem)).2, MaxHeap.run_capacity ops _⟩,
    ⟨(MaxHeap.run_WF ops _ (MaxHeap.fromArray_WF arr cap mem)).2, MaxHeap.run_capacity ops _⟩,
    ⟨(MinHeap.run_WF_min ops _ (MinHeap.empty_WF_min cap mem)).2,
      MinHeap.run_capacity_min ops _⟩,
    ⟨(MinHeap.run_WF_min ops _ (MinHeap.fromArray_WF_min arr cap mem)).2,
      MinHeap.run_capacity_min ops _⟩⟩

/-- C15: a successful insert adds exactly the value.  In a well-formed state with
`size < capacity`, after `insert(key)` the size is the old size plus one, the live slots
are the old live slots plus one occurrence of `key` (as multisets), and every slot that
is not on the path from the old index `size` to the root holds the value it held
before. -/
theorem insert_adds_value (s : MaxHeap) (t : MinHeap) (key : Int)
    (hs : s.WF) (hsc : s.heapSize < s.capacity) (ht : t.WF) (htc : t.heapSize < t.capacity) :
    ((s.insert key).size = s.size + 1 ∧
      List.Perm (s.insert key).live (key :: s.live) ∧
      ∀ x, x ∉ MaxHeap.rootPath s.heapSize → rd (s.insert key).heap x = rd s.heap x) ∧
    ((t.insert key).size = t.size + 1 ∧
      List.Perm (t.insert key).live (key :: t.live) ∧
      ∀ x, x ∉ MaxHeap.rootPath t.heapSize → rd (t.insert key).heap x = rd t.heap x) :=
  ⟨⟨MaxHeap.insert_heapSize s key (by omega), MaxHeap.insert_live s key hs (by omega),
      fun x hx => MaxHeap.insert_off_path s key x hx⟩,
    ⟨MinHeap.insert_heapSize_min t key (by omega), MinHeap.insert_live_min t key ht (by omega),
      fun x hx => MinHeap.insert_off_path_min t key x hx⟩⟩

/-- Witness of C15: inserting 8 into the max-heap `[9, 5, 7, 4]` and 0 into the min-heap
`[1, 4, 2, 6]`, both of capacity 6; the path from index 4 is `4, 1, 0`. -/
theorem insert_adds_value_witness :
    (MaxHeap.mk [9, 5, 7, 4, 0, 0] 6 4).WF ∧ (MinHeap.mk [1, 4, 2, 6, 0, 0] 6 4).WF ∧
    MaxHeap.rootPath 4 = [4, 1, 0] ∧
    (MaxHeap.mk [9, 5, 7, 4, 0, 0] 6 4).insert 8 = MaxHeap.mk [9, 8, 7, 4, 5, 0] 6 5 ∧
    (MinHeap.mk [1, 4, 2, 6, 0, 0] 6 4).insert 0 = MinHeap.mk [0, 1, 2, 6, 4, 0] 6 5 ∧
    List.Perm ((MaxHeap.mk [9, 5, 7, 4, 0, 0] 6 4).insert 8).live
      (8 :: (MaxHeap.mk [9, 5, 7, 4, 0, 0] 6 4).live) ∧
    List.Perm ((MinHeap.mk [1, 4, 2, 6, 0, 0] 6 4).insert 0).live
      (0 :: (MinHeap.mk [1, 4, 2, 6, 0, 0] 6 4).live) :=
  ⟨by decide, by decide, by decide, by decide, by decide,
    (insert_adds_value (MaxHeap.mk [9, 5, 7, 4, 0, 0] 6 4) (MinHeap.mk [1, 4, 2, 6, 0, 0] 6 4) 8
      (by decide) (by decide) (by decide) (by decide)).1.2.1,
    (insert_adds_value (MaxHeap.mk [9, 5, 7, 4, 0, 0] 6 4) (MinHeap.mk [1, 4, 2, 6, 0, 0] 6 4) 0
      (by decide) (by decide) (by decide) (by decide)).2.2.1⟩

/-- C16: peek is read-only and idempotent.  In every state, empty or not, the call of
`getMax()`/`getMin()` leaves the state (size, capacity and the whole buffer) as it was; on
a non-empty heap it returns `buffer[0]`; and a second call right after the first returns
the same value and leaves `size()` unchanged. -/
theorem peek_read_only (s : MaxHeap) (t : MinHeap) :
    (s.step HeapOp.peek = s ∧
      (s.step HeapOp.peek).size = s.size ∧
      (s.step HeapOp.peek).capacity = s.capacity ∧
      (s.step HeapOp.peek).heap = s.heap ∧
      (s.size ≠ 0 → s.getMax = rd s.heap 0) ∧
      (s.step HeapOp.peek).getMax = s.getMax ∧
      ((s.step HeapOp.peek).step HeapOp.peek).size = s.size) ∧
    (t.step HeapOp.peek = t ∧
      (t.step HeapOp.peek).size = t.size ∧
      (t.step HeapOp.peek).capacity = t.capacity ∧
      (t.step HeapOp.peek).heap = t.heap ∧
      (t.size ≠ 0 → t.getMin = rd t.heap 0) ∧
      (t.step HeapOp.peek).getMin = t.getMin ∧
      ((t.step HeapOp.peek).step HeapOp.peek).size = t.size) :=
  ⟨⟨rfl, rfl, rfl, rfl, fun h => MaxHeap.getMax_nonempty s h, rfl, rfl⟩,
    ⟨rfl, rfl, rfl, rfl, fun h => MinHeap.getMin_nonempty t h, rfl, rfl⟩⟩

/-- C17: one sift-down, three implementations.  For every buffer, start index and window
bound, the recursive `heapifyDown` gives the same buffer as the loop inlined in
`deleteMax` and as the loops inlined in the two phases of the heap sort; consequently the
build phase of the heap sort leaves what the bulk constructor leaves in its first `n`
slots.  The same holds for the min-first versions. -/
theorem siftDown_implementations_agree (a : List Int) (m i : Nat) (arr : List Int)
    (cap : Nat) (mem : Nat → Int) :
    (MaxHeap.deleteMaxLoop a m i = MaxHeap.heapifyDown a m i ∧
      MaxHeap.deleteMaxLoop a m 0 = MaxHeap.heapifyDown a m 0 ∧
      MaxHeap.sortLoop a m i = MaxHeap.heapifyDown a m i ∧
      MaxHeap.sortBuild arr.length (arr.length / 2) arr =
        (MaxHeap.fromArray arr cap mem).heap.take arr.length) ∧
    (MinHeap.deleteMinLoop a m i = MinHeap.heapifyDown a m i ∧
      MinHeap.deleteMinLoop a m 0 = MinHeap.heapifyDown a m 0 ∧
      MinHeap.sortLoop a m i = MinHeap.heapifyDown a m i ∧
      MinHeap.sortBuild arr.length (arr.length / 2) arr =
        (MinHeap.fromArray arr cap mem).heap.take arr.length) :=
  ⟨⟨MaxHeap.deleteMaxLoop_eq a m i, MaxHeap.deleteMaxLoop_eq a m 0, MaxHeap.sortLoop_eq a m i,
      (MaxHeap.fromArray_take_eq arr cap mem).symm⟩,
    ⟨MinHeap.deleteMinLoop_eq a m i, MinHeap.deleteMinLoop_eq a m 0,
      MinHeap.sortLoop_eq_min a m i, (MinHeap.fromArray_take_eq_min arr cap mem).symm⟩⟩

/-- C18: sift-down tie-break.  Let `i` be a node whose child indices `2 * i + 1` and
`2 * i + 2` fit in an `int` (they are then what `left(i)` and `right(i)` return).  When
`buffer[i]` is at least every child of `i` inside the window (max-first; at most, for
min-first), equality included, the sift-down from `i` selects `i` itself, performs no swap
and leaves the buffer unchanged, in the recursive method and in the inlined loops alike.
In particular bulk construction from an array of fewer than `2 ^ 30` elements that
already satisfies the heap property, such as an array of equal values, keeps the array as
it is. -/
theorem siftDown_tie_break (a b : List Int) (m i : Nat) (arrMax arrMin : List Int)
    (cap : Nat) (mem : Nat → Int) (n : Nat) (v : Int)
    (hi : 2 * i + 2 < 2 ^ 31)
    (hl : 2 * i + 1 < m → rd a (2 * i + 1) ≤ rd a i)
    (hr : 2 * i + 2 < m → rd a (2 * i + 2) ≤ rd a i)
    (hl2 : 2 * i + 1 < m → rd b i ≤ rd b (2 * i + 1))
    (hr2 : 2 * i + 2 < m → rd b i ≤ rd b (2 * i + 2))
    (hM : MaxHeap.heapOrdered arrMax arrMax.length) (hMb : arrMax.length < 2 ^ 30)
    (hm : MinHeap.heapOrdered arrMin arrMin.length) (hmb : arrMin.length < 2 ^ 30)
    (hn : n < 2 ^ 30) :
    (MaxHeap.left (i : Int) = ((2 * i + 1 : Nat) : Int) ∧
      MaxHeap.right (i : Int) = ((2 * i + 2 : Nat) : Int) ∧
      MaxHeap.pick a m (i : Int) = (i : Int) ∧ MaxHeap.heapifyDown a m (i : Int) = a ∧
      MaxHeap.deleteMaxLoop a m (i : Int) = a ∧ MaxHeap.sortLoop a m (i : Int) = a) ∧
    (MinHeap.left (i : Int) = ((2 * i + 1 : Nat) : Int) ∧
      MinHeap.right (i : Int) = ((2 * i + 2 : Nat) : Int) ∧
      MinHeap.pick b m (i : Int) = (i : Int) ∧ MinHeap.heapifyDown b m (i : Int) = b ∧
      MinHeap.deleteMinLoop b m (i : Int) = b ∧ MinHeap.sortLoop b m (i : Int) = b) ∧
    ((MaxHeap.fromArray arrMax cap mem).heap.take arrMax.length = arrMax ∧
      (MinHeap.fromArray arrMin cap mem).heap.take arrMin.length = arrMin) ∧
    ((MaxHeap.fromArray (List.replicate n v) cap mem).heap.take n = List.replicate n v ∧
      (MinHeap.fromArray (List.replicate n v) cap mem).heap.take n = List.replicate n v) := by
  have e1 := MaxHeap.heapifyDown_eq_self a m i hi hl hr
  have e2 := MinHeap.heapifyDown_eq_self_min b m i hi hl2 hr2
  have hlen : (List.replicate n v).length = n := List.length_replicate _ _
  have r1 := MaxHeap.fromArray_live_eq_self (List.replicate n v) cap mem
    (MaxHeap.heapOrdered_replicate n v) (by rw [hlen]; exact hn)
  have r2 := MinHeap.fromArray_live_eq_self_min (List.replicate n v) cap mem
    (MinHeap.heapOrdered_replicate_min n v) (by rw [hlen]; exact hn)
  refine ⟨⟨MaxHeap.left_natCast i hi, MaxHeap.right_natCast i hi,
      MaxHeap.pick_eq_self a m i hi hl hr, e1, ?_, ?_⟩,
    ⟨MaxHeap.left_natCast i hi, MaxHeap.right_natCast i hi,
      MinHeap.pick_eq_self_min b m i hi hl2 hr2, e2, ?_, ?_⟩,
    ⟨MaxHeap.fromArray_live_eq_self arrMax cap mem hM hMb,
      MinHeap.fromArray_live_eq_self_min arrMin cap mem hm hmb⟩, ⟨?_, ?_⟩⟩
  · rw [MaxHeap.deleteMaxLoop_eq, e1]
  · rw [MaxHeap.sortLoop_eq, e1]
  · rw [MinHeap.deleteMinLoop_eq, e2]
  · rw [MinHeap.sortLoop_eq_min, e2]
  · have : (MaxHeap.fromArray (List.replicate n v) cap mem).live =
        (MaxHeap.fromArray (List.replicate n v) cap mem).heap.take n := by
      show List.take (List.replicate n v).length _ = _
      rw [hlen]
    rw [← this]; exact r1
  · have : (MinHeap.fromArray (List.replicate n v) cap mem).live =
        (MinHeap.fromArray (List.replicate n v) cap mem).heap.take n := by
      show List.take (List.replicate n v).length _ = _
      rw [hlen]
    rw [← this]; exact r2

/-- Witness of C18: node 0 of `[7, 7, 3]` equals its left child (max-first), node 0 of
`[2, 2, 5]` equals its left child (min-first); `[9, 9, 4, 9]` and `[1, 1, 3, 1]` are
already heaps. -/
theorem siftDown_tie_break_witness :
    2 * 0 + 2 < 2 ^ 31 ∧
    MaxHeap.heapOrdered [9, 9, 4, 9] 4 ∧ MinHeap.heapOrdered [1, 1, 3, 1] 4 ∧
    ([9, 9, 4, 9] : List Int).length < 2 ^ 30 ∧ ([1, 1, 3, 1] : List Int).length < 2 ^ 30 ∧
    MaxHeap.heapifyDown [7, 7, 3] 3 0 = [7, 7, 3] ∧
    MinHeap.heapifyDown [2, 2, 5] 3 0 = [2, 2, 5] ∧
    (MaxHeap.fromArray [9, 9, 4, 9] 4 (fun _ => 0)).heap = [9, 9, 4, 9] ∧
    (MinHeap.fromArray [1, 1, 3, 1] 4 (fun _ => 0)).heap = [1, 1, 3, 1] ∧
    (MaxHeap.fromArray [9, 9, 4, 9] 4 (fun _ => 0)).heap.take 4 = [9, 9, 4, 9] :=
  ⟨by decide, by decide, by decide, by decide, by decide, by decide, by decide, by decide,
    by decide,
    (siftDown_tie_break [7, 7, 3] [2, 2, 5] 3 0 [9, 9, 4, 9] [1, 1, 3, 1] 4 (fun _ => 0) 2 6
      (by decide) (by decide) (by decide) (by decide) (by decide) (by decide) (by decide)
      (by decide) (by decide) (by decide)).2.2.1.1⟩

/-- C19: where each extracted extreme lands in the in-place sort.  After the build phase
and `k` extraction steps of the heap sort of `max_heap.cpp` on an array of length `n`
(`k <= n`, `n < 2 ^ 30`), the array is a permutation of the input, the slots `[n-k, n)`
are in non-decreasing order and every slot of the window `[0, n-k)` is at most every slot
of `[n-k, n)` (so these hold the `k` largest elements); after `n` steps the array is the
result of the sort and is in non-decreasing order.  For `min_heap.cpp` the slots
`[n-k, n)` are in non-increasing order, every slot of the window is at least every slot of
`[n-k, n)`, and the result is in non-increasing order. -/
theorem heapSort_extraction_steps (arr : List Int) (k : Nat) (hk : k ≤ arr.length)
    (hb : arr.length < 2 ^ 30) :
    ((MaxHeap.sortAfter arr k).length = arr.length ∧
      List.Perm (MaxHeap.sortAfter arr k) arr ∧
      (∀ i j, arr.length - k ≤ i → i < j → j < arr.length →
        rd (MaxHeap.sortAfter arr k) i ≤ rd (MaxHeap.sortAfter arr k) j) ∧
      (∀ i j, i < arr.length - k → arr.length - k ≤ j → j < arr.length →
        rd (MaxHeap.sortAfter arr k) i ≤ rd (MaxHeap.sortAfter arr k) j) ∧
      MaxHeap.sortAfter arr arr.length = MaxHeap.heapSort arr ∧
      List.Sorted (· ≤ ·) (MaxHeap.heapSort arr)) ∧
    ((MinHeap.sortAfter arr k).length = arr.length ∧
      List.Perm (MinHeap.sortAfter arr k) arr ∧
      (∀ i j, arr.length - k ≤ i → i < j → j < arr.length →
        rd (MinHeap.sortAfter arr k) i ≥ rd (MinHeap.sortAfter arr k) j) ∧
      (∀ i j, i < arr.length - k → arr.length - k ≤ j → j < arr.length →
        rd (MinHeap.sortAfter arr k) i ≥ rd (MinHeap.sortAfter arr k) j) ∧
      MinHeap.sortAfter arr arr.length = MinHeap.heapSort arr ∧
      List.Sorted (· ≥ ·) (MinHeap.heapSort arr)) := by
  have hbn : (neg arr).length < 2 ^ 30 := by rw [length_neg]; exact hb
  obtain ⟨_, _, hsep, hsort⟩ := MaxHeap.sortAfter_inv arr k hk hb
  obtain ⟨_, _, nsep, nsort⟩ :=
    MaxHeap.sortAfter_inv (neg arr) k (by rw [length_neg]; exact hk) hbn
  have hlen := MaxHeap.length_sortAfter arr k hb
  have nlen := MaxHeap.length_sortAfter (neg arr) k hbn
  rw [hlen] at hsep hsort
  rw [nlen, length_neg] at nsep nsort
  rw [length_neg] at nlen
  refine ⟨⟨hlen, MaxHeap.perm_sortAfter arr k hb, fun i j h1 h2 h3 => hsort i j h1 h2 h3,
      fun i j h1 h2 h3 => hsep i j h1 h2 h3, MaxHeap.sortAfter_all arr hb,
      MaxHeap.heapSort_sorted arr hb⟩,
    ⟨?_, MinHeap.perm_sortAfter_min arr k hb, ?_, ?_, MinHeap.sortAfter_all_min arr hb,
      MinHeap.heapSort_sorted_min arr hb⟩⟩
  · rw [MinHeap.sortAfter_eq_neg, length_neg, nlen]
  · intro i j h1 h2 h3
    rw [MinHeap.sortAfter_eq_neg, rd_neg, rd_neg]
    have := nsort i j h1 h2 h3
    omega
  · intro i j h1 h2 h3
    rw [MinHeap.sortAfter_eq_neg, rd_neg, rd_neg]
    have := nsep i j h1 h2 h3
    omega

/-- Witness of C19 on the demonstration array after three extraction steps. -/
theorem heapSort_extraction_steps_witness :
    3 ≤ ([64, 34, 25, 12, 22, 11, 90] : List Int).length ∧
    ([64, 34, 25, 12, 22, 11, 90] : List Int).length < 2 ^ 30 ∧
    MaxHeap.sortAfter [64, 34, 25, 12, 22, 11, 90] 3 = [25, 22, 11, 12, 34, 64, 90] ∧
    MinHeap.sortAfter [64, 34, 25, 12, 22, 11, 90] 3 = [25, 34, 90, 64, 22, 12, 11] ∧
    List.Perm (MaxHeap.sortAfter [64, 34, 25, 12, 22, 11, 90] 3)
      [64, 34, 25, 12, 22, 11, 90] ∧
    List.Perm (MinHeap.sortAfter [64, 34, 25, 12, 22, 11, 90] 3)
      [64, 34, 25, 12, 22, 11, 90] :=
  ⟨by decide, by decide, by decide, by decide,
    (heapSort_extraction_steps [64, 34, 25, 12, 22, 11, 90] 3 (by decide) (by decide)).1.2.1,
    (heapSort_extraction_steps [64, 34, 25, 12, 22, 11, 90] 3 (by decide) (by decide)).2.2.1⟩

/-- C20 (counterexample): on the empty heap `deleteMin()` returns -1, which is not the
negation of the -1 that `deleteMax()` returns on the empty heap of the negated inputs;
the same holds when the heaps have been emptied by the corresponding calls.  Moreover a
slot beyond the size holds whatever the allocation left there: when both objects are
allocated on memory holding 5, the whole `MinHeap` buffer is not the negation of the
whole `MaxHeap` buffer, although the live slots correspond. -/
theorem negation_fails_on_underflow :
    (MinHeap.empty 0 (fun _ => 0)).deleteMin.1 = -1 ∧
    (MaxHeap.empty 0 (fun _ => 0)).deleteMax.1 = -1 ∧
    (MinHeap.empty 0 (fun _ => 0)).deleteMin.1 ≠ -(MaxHeap.empty 0 (fun _ => 0)).deleteMax.1 ∧
    ((MinHeap.fromArray [3] 1 (fun _ => 0)).run [HeapOp.extract]).deleteMin.1 ≠
      -((MaxHeap.fromArray [-3] 1 (fun _ => 0)).run [HeapOp.extract]).deleteMax.1 ∧
    (MinHeap.fromArray [3] 2 (fun _ => 5)).heap = [3, 5] ∧
    (MaxHeap.fromArray [-3] 2 (fun _ => 5)).heap = [-3, 5] ∧
    (MinHeap.fromArray [3] 2 (fun _ => 5)).heap ≠
      neg (MaxHeap.fromArray [-3] 2 (fun _ => 5)).heap ∧
    (MinHeap.fromArray [3] 2 (fun _ => 5)).live =
      neg (MaxHeap.fromArray [-3] 2 (fun _ => 5)).live := by
  decide

/-- C20 (amended): `MinHeap` is `MaxHeap` under negation.  For every array of fewer than
`2 ^ 30` elements, every capacity of at most `2 ^ 30` and every sequence of calls,
started from the bulk constructor or from the empty constructor, and whatever the two
allocations hold in their uninitialised slots (`memMin`, `memMax`): the live slots
`buffer[0..size)` of the `MinHeap` are the element-wise negation of the live slots of the
`MaxHeap` obtained by the corresponding calls on the negated inputs, and sizes and
capacities are equal; in every such state that is not empty the value returned by
`deleteMin()` is the negation of the one returned by `deleteMax()` and the value returned
by `getMin()` the negation of the one returned by `getMax()`, while on an empty heap all
four return -1; the whole buffers are negations of each other when the uninitialised
slots of the `MaxHeap` hold the negations of those of the `MinHeap`; and the heap sort of
`min_heap.cpp` gives the negation of the heap sort of `max_heap.cpp` on the negated
array. -/
theorem minHeap_is_negated_maxHeap (arr : List Int) (cap : Nat) (memMin memMax : Nat → Int)
    (ops : List HeapOp) (hn : arr.length < 2 ^ 30) (hc : cap ≤ 2 ^ 30) :
    (((MinHeap.fromArray arr cap memMin).run ops).live =
        neg ((MaxHeap.fromArray (neg arr) cap memMax).run (ops.map HeapOp.negate)).live ∧
      ((MinHeap.fromArray arr cap memMin).run ops).size =
        ((MaxHeap.fromArray (neg arr) cap memMax).run (ops.map HeapOp.negate)).size ∧
      ((MinHeap.fromArray arr cap memMin).run ops).capacity =
        ((MaxHeap.fromArray (neg arr) cap memMax).run (ops.map HeapOp.negate)).capacity ∧
      (((MinHeap.fromArray arr cap memMin).run ops).size ≠ 0 →
        ((MinHeap.fromArray arr cap memMin).run ops).deleteMin.1 =
            -((MaxHeap.fromArray (neg arr) cap memMax).run
              (ops.map HeapOp.negate)).deleteMax.1 ∧
          ((MinHeap.fromArray arr cap memMin).run ops).getMin =
            -((MaxHeap.fromArray (neg arr) cap memMax).run (ops.map HeapOp.negate)).getMax) ∧
      ((∀ k, memMax k = - memMin k) →
        ((MinHeap.fromArray arr cap memMin).run ops).heap =
          neg ((MaxHeap.fromArray (neg arr) cap memMax).run (ops.map HeapOp.negate)).heap)) ∧
    (((MinHeap.empty cap memMin).run ops).live =
        neg ((MaxHeap.empty cap memMax).run (ops.map HeapOp.negate)).live ∧
      ((MinHeap.empty cap memMin).run ops).size =
        ((MaxHeap.empty cap memMax).run (ops.map HeapOp.negate)).size ∧
      ((MinHeap.empty cap memMin).run ops).capacity =
        ((MaxHeap.empty cap memMax).run (ops.map HeapOp.negate)).capacity ∧
      (((MinHeap.empty cap memMin).run ops).size ≠ 0 →
        ((MinHeap.empty cap memMin).run ops).deleteMin.1 =
            -((MaxHeap.empty cap memMax).run (ops.map HeapOp.negate)).deleteMax.1 ∧
          ((MinHeap.empty cap memMin).run ops).getMin =
            -((MaxHeap.empty cap memMax).run (ops.map HeapOp.negate)).getMax) ∧
      ((∀ k, memMax k = - memMin k) →
        ((MinHeap.empty cap memMin).run ops).heap =
          neg ((MaxHeap.empty cap memMax).run (ops.map HeapOp.negate)).heap)) ∧
    (∀ (t : MinHeap) (u : MaxHeap), t.size = 0 → u.size = 0 →
      t.deleteMin.1 = -1 ∧ u.deleteMax.1 = -1 ∧ t.getMin = -1 ∧ u.getMax = -1) ∧
    MinHeap.heapSort arr = neg (MaxHeap.heapSort (neg arr)) := by
  have hcn : (MinHeap.fromArray arr cap memMin).capacity ≤ 2 ^ 30 := by
    show max cap arr.length ≤ 2 ^ 30
    omega
  have k1 : ((MinHeap.fromArray arr cap memMin).run ops).toMax =
      (MaxHeap.fromArray (neg arr) cap (fun k => - memMin k)).run (ops.map HeapOp.negate) := by
    rw [MinHeap.toMax_run, MinHeap.toMax_fromArray]
  have k2 : ((MinHeap.empty cap memMin).run ops).toMax =
      (MaxHeap.empty cap (fun k => - memMin k)).run (ops.map HeapOp.negate) := by
    rw [MinHeap.toMax_run, MinHeap.toMax_empty]
  obtain ⟨a1, a2, a3⟩ := MaxHeap.run_live_congr (ops.map HeapOp.negate)
    (MaxHeap.fromArray (neg arr) cap (fun k => - memMin k))
    (MaxHeap.fromArray (neg arr) cap memMax) (MaxHeap.fromArray_WF _ _ _)
    (MaxHeap.fromArray_WF _ _ _) rfl rfl (MaxHeap.fromArray_live_congr _ _ _ _)
  obtain ⟨b1, b2, b3⟩ := MaxHeap.run_live_congr (ops.map HeapOp.negate)
    (MaxHeap.empty cap (fun k => - memMin k)) (MaxHeap.empty cap memMax)
    (MaxHeap.empty_WF _ _) (MaxHeap.empty_WF _ _) rfl rfl rfl
  rw [← k1] at a1 a2 a3
  rw [← k2] at b1 b2 b3
  obtain ⟨c1, c2, c3, c4⟩ := MinHeap.corr_of_live _ _
    (MinHeap.run_WF_min ops _ (MinHeap.fromArray_WF_min arr cap memMin))
    (MaxHeap.run_WF (ops.map HeapOp.negate) _ (MaxHeap.fromArray_WF (neg arr) cap memMax))
    a1 a2 a3
  obtain ⟨d1, d2, d3, d4⟩ := MinHeap.corr_of_live _ _
    (MinHeap.run_WF_min ops _ (MinHeap.empty_WF_min cap memMin))
    (MaxHeap.run_WF (ops.map HeapOp.negate) _ (MaxHeap.empty_WF cap memMax))
    b1 b2 b3
  refine ⟨⟨c1, c2, c3, c4, ?_⟩, ⟨d1, d2, d3, d4, ?_⟩, ?_, MinHeap.heapSort_eq_neg arr⟩
  · intro hmem
    have e : memMax = fun k => - memMin k := funext hmem
    rw [e, ← k1]
    exact MinHeap.heap_eq_neg_toMax _
  · intro hmem
    have e : memMax = fun k => - memMin k := funext hmem
    rw [e, ← k2]
    exact MinHeap.heap_eq_neg_toMax _
  · intro t u ht hu
    rw [MinHeap.deleteMin_empty t ht, MaxHeap.deleteMax_empty u hu, MinHeap.getMin_empty t ht,
      MaxHeap.getMax_empty u hu]
    exact ⟨rfl, rfl, rfl, rfl⟩

/-- Witness of C20 (amended): the array `[3, 1, 2]` with capacity 4, the `MinHeap` on
memory holding 7 and the `MaxHeap` on memory holding 9, after an extract and an insert of
0 (of -0 for the `MaxHeap`). -/
theorem minHeap_is_negated_maxHeap_witness :
    ([3, 1, 2] : List Int).length < 2 ^ 30 ∧ 4 ≤ 2 ^ 30 ∧
    ((MinHeap.fromArray [3, 1, 2] 4 (fun _ => 7)).run
      [HeapOp.extract, HeapOp.insert 0]).heap = [0, 3, 2, 7] ∧
    ((MaxHeap.fromArray (neg [3, 1, 2]) 4 (fun _ => 9)).run
      ([HeapOp.extract, HeapOp.insert 0].map HeapOp.negate)).heap = [0, -3, -2, 9] ∧
    ((MinHeap.fromArray [3, 1, 2] 4 (fun _ => 7)).run [HeapOp.extract, HeapOp.insert 0]).live =
      neg ((MaxHeap.fromArray (neg [3, 1, 2]) 4 (fun _ => 9)).run
        ([HeapOp.extract, HeapOp.insert 0].map HeapOp.negate)).live :=
  ⟨by decide, by decide, by decide, by decide,
    (minHeap_is_negated_maxHeap [3, 1, 2] 4 (fun _ => 7) (fun _ => 9)
      [HeapOp.extract, HeapOp.insert 0] (by decide) (by decide)).1.1⟩

/-- C21: sift-down respects its window.  For a buffer that contains the window `[0, m)`,
a window of fewer than `2 ^ 30` slots and a start index `i` whose child indices fit in an
`int`, a slot whose value the sift-down from `i` with bound `m` changes is `i` or a
descendant of `i` and has index below `m`; so every slot with index at least `m` and
every slot outside the subtree rooted at `i` keeps its value, the length is unchanged,
and the values inside the window are the same multiset as before.  This holds for the
recursive `heapifyDown` and for the loops inlined in `deleteMax`/`deleteMin` and in the
heap sort, max-first and min-first.  Consequently `deleteMax`/`deleteMin` on a heap of at
most `2 ^ 30` elements leave the slots from the new size on untouched, and an extraction
step of the heap sort leaves the slots behind its window untouched. -/
theorem siftDown_frame (a : List Int) (m i : Nat) (s : MaxHeap) (t : MinHeap) (e : Nat)
    (hm : m ≤ a.length) (hb : m < 2 ^ 30) (hi : 2 * i + 2 < 2 ^ 31)
    (hs : s.heapSize ≤ 2 ^ 30) (ht : t.heapSize ≤ 2 ^ 30) (he : e < 2 ^ 30) :
    ((∀ x, rd (MaxHeap.heapifyDown a m i) x ≠ rd a x → MaxHeap.inSubtree i x ∧ x < m) ∧
      (∀ x, m ≤ x → rd (MaxHeap.heapifyDown a m i) x = rd a x) ∧
      (∀ x, ¬ MaxHeap.inSubtree i x → rd (MaxHeap.heapifyDown a m i) x = rd a x) ∧
      (MaxHeap.heapifyDown a m i).length = a.length ∧
      List.Perm ((MaxHeap.heapifyDown a m i).take m) (a.take m) ∧
      (∀ x, rd (MaxHeap.deleteMaxLoop a m i) x ≠ rd a x → MaxHeap.inSubtree i x ∧ x < m) ∧
      List.Perm ((MaxHeap.deleteMaxLoop a m i).take m) (a.take m) ∧
      (∀ x, rd (MaxHeap.sortLoop a m i) x ≠ rd a x → MaxHeap.inSubtree i x ∧ x < m) ∧
      List.Perm ((MaxHeap.sortLoop a m i).take m) (a.take m) ∧
      (∀ x, s.deleteMax.2.size ≤ x → rd s.deleteMax.2.heap x = rd s.heap x) ∧
      (∀ x, e + 1 ≤ x → rd (MaxHeap.sortExtractSteps 1 (e + 1) a) x = rd a x)) ∧
    ((∀ x, rd (MinHeap.heapifyDown a m i) x ≠ rd a x → MaxHeap.inSubtree i x ∧ x < m) ∧
      (∀ x, m ≤ x → rd (MinHeap.heapifyDown a m i) x = rd a x) ∧
      (∀ x, ¬ MaxHeap.inSubtree i x → rd (MinHeap.heapifyDown a m i) x = rd a x) ∧
      (MinHeap.heapifyDown a m i).length = a.length ∧
      List.Perm ((MinHeap.heapifyDown a m i).take m) (a.take m) ∧
      (∀ x, rd (MinHeap.deleteMinLoop a m i) x ≠ rd a x → MaxHeap.inSubtree i x ∧ x < m) ∧
      List.Perm ((MinHeap.deleteMinLoop a m i).take m) (a.take m) ∧
      (∀ x, rd (MinHeap.sortLoop a m i) x ≠ rd a x → MaxHeap.inSubtree i x ∧ x < m) ∧
      List.Perm ((MinHeap.sortLoop a m i).take m) (a.take m) ∧
      (∀ x, t.deleteMin.2.size ≤ x → rd t.deleteMin.2.heap x = rd t.heap x) ∧
      (∀ x, e + 1 ≤ x → rd (MinHeap.sortExtractSteps 1 (e + 1) a) x = rd a x)) := by
  refine ⟨⟨fun x hx => MaxHeap.heapifyDown_changes a m i x hb hi hx,
      fun x hx => MaxHeap.rd_heapifyDown_ge a m i x hb hi hx,
      fun x hx => MaxHeap.rd_heapifyDown_outside a m i x hb hi hx,
      MaxHeap.length_heapifyDown a m i,
      MaxHeap.perm_take_heapifyDown a m i hb hi hm, ?_, ?_, ?_, ?_,
      fun x hx => MaxHeap.deleteMax_stale s x hs hx,
      fun x hx => MaxHeap.sortExtractSteps_one_tail a e x he hx⟩,
    ⟨fun x hx => MinHeap.heapifyDown_changes_min a m i x hb hi hx,
      fun x hx => MinHeap.rd_heapifyDown_ge_min a m i x hb hi hx,
      fun x hx => MinHeap.rd_heapifyDown_outside_min a m i x hb hi hx,
      ?_,
      MinHeap.perm_take_heapifyDown_min a m i hb hi hm, ?_, ?_, ?_, ?_,
      fun x hx => MinHeap.deleteMin_stale t x ht hx,
      fun x hx => MinHeap.sortExtractSteps_one_tail_min a e x he hx⟩⟩
  · rw [MaxHeap.deleteMaxLoop_eq]
    exact fun x hx => MaxHeap.heapifyDown_changes a m i x hb hi hx
  · rw [MaxHeap.deleteMaxLoop_eq]; exact MaxHeap.perm_take_heapifyDown a m i hb hi hm
  · rw [MaxHeap.sortLoop_eq]
    exact fun x hx => MaxHeap.heapifyDown_changes a m i x hb hi hx
  · rw [MaxHeap.sortLoop_eq]; exact MaxHeap.perm_take_heapifyDown a m i hb hi hm
  · rw [MinHeap.heapifyDown_eq_neg, length_neg, MaxHeap.length_heapifyDown, length_neg]
  · rw [MinHeap.deleteMinLoop_eq]
    exact fun x hx => MinHeap.heapifyDown_changes_min a m i x hb hi hx
  · rw [MinHeap.deleteMinLoop_eq]; exact MinHeap.perm_take_heapifyDown_min a m i hb hi hm
  · rw [MinHeap.sortLoop_eq_min]
    exact fun x hx => MinHeap.heapifyDown_changes_min a m i x hb hi hx
  · rw [MinHeap.sortLoop_eq_min]; exact MinHeap.perm_take_heapifyDown_min a m i hb hi hm

/-- Witness of C21: sift-down from node 1 with bound 6 on eight slots.  Max-first swaps
slots 1 and 3; slot 7 (child of 3, outside the window), slots 6 and 7 (behind the window)
and slots 0, 2, 4, 5 (outside the path taken) keep their values. -/
theorem siftDown_frame_witness :
    6 ≤ ([1, 2, 8, 7, 6, 5, 4, 99] : List Int).length ∧ 6 < 2 ^ 30 ∧ 2 * 1 + 2 < 2 ^ 31 ∧
    (MaxHeap.mk [9, 5, 7, 0] 4 3).heapSize ≤ 2 ^ 30 ∧
    (MinHeap.mk [1, 4, 2, 0] 4 3).heapSize ≤ 2 ^ 30 ∧
    MaxHeap.heapifyDown [1, 2, 8, 7, 6, 5, 4, 99] 6 1 = [1, 7, 8, 2, 6, 5, 4, 99] ∧
    MinHeap.heapifyDown [1, 9, 8, 7, 6, 5, 4, 0] 6 1 = [1, 6, 8, 7, 9, 5, 4, 0] ∧
    MaxHeap.inSubtree 1 3 ∧ ¬ MaxHeap.inSubtree 1 2 ∧ MaxHeap.inSubtree 1 7 ∧
    List.Perm ((MaxHeap.heapifyDown [1, 2, 8, 7, 6, 5, 4, 99] 6 1).take 6)
      (([1, 2, 8, 7, 6, 5, 4, 99] : List Int).take 6) ∧
    (MaxHeap.heapifyDown [1, 2, 8, 7, 6, 5, 4, 99] 6 1).length =
      ([1, 2, 8, 7, 6, 5, 4, 99] : List Int).length :=
  ⟨by decide, by decide, by decide, by decide, by decide, by decide, by decide, by decide,
    by decide, by decide,
    (siftDown_frame [1, 2, 8, 7, 6, 5, 4, 99] 6 1 (MaxHeap.mk [9, 5, 7, 0] 4 3)
      (MinHeap.mk [1, 4, 2, 0] 4 3) 6 (by decide) (by decide) (by decide) (by decide)
      (by decide) (by decide)).1.2.2.2.2.1,
    (siftDown_frame [1, 2, 8, 7, 6, 5, 4, 99] 6 1 (MaxHeap.mk [9, 5, 7, 0] 4 3)
      (MinHeap.mk [1, 4, 2, 0] 4 3) 6 (by decide) (by decide) (by decide) (by decide)
      (by decide) (by decide)).1.2.2.2.1⟩
